import Mathlib

/-!
# Verification of the DAA routing/optimization engine

Shallow embedding of the core algorithmic code of the repository:

* `src/lib/algorithms/dijkstra.ts` (`dijkstra`),
* `src/lib/algorithms/max-flow.ts` (`bfs`, `edmondsKarp`),
* the tour constructor `solveTsp` (with its helper `findShortestPath`),
* the batching / cost-accounting logic of `src/app/checkout/page.tsx`
  (`COST_PER_KM`, `COST_PER_TRUCK`, `TRUCK_CAPACITY`, shipment grouping,
  warehouse-batched truck dispatch).

JavaScript plain objects used as dictionaries are modelled as association
lists with JavaScript semantics: assignment to an existing key updates the
entry in place, assignment to a fresh key appends it (insertion order),
`delete` removes the entry, and a read of a missing key is an `Option`
default.  JavaScript numbers are modelled as `ℚ` and `Infinity` as the top
element of `WithTop ℚ`.  While-loops are modelled by fuel recursion; every
top-level entry point passes enough fuel, and the development proves the
fuel is never exhausted under the data-model invariants.
-/

namespace DAA

/-- Distances as stored in the JS `distances` / `pq` objects: a rational or
`Infinity`. -/
abbrev Dist := WithTop ℚ

/-! ## JavaScript object (string-keyed dictionary) primitives -/

/-- Reading `m[k]`: `some v` if the key is present, `none` (JS `undefined`)
otherwise.  The first matching entry wins; all objects built below have
pairwise distinct keys. -/
def objGet {α : Type} (m : List (String × α)) (k : String) : Option α :=
  (m.find? (fun p => p.1 = k)).map (·.2)

/-- `k in m`. -/
def objHas {α : Type} (m : List (String × α)) (k : String) : Bool :=
  m.any (fun p => p.1 = k)

/-- Assignment `m[k] = v`: updates in place if present, appends otherwise
(JS insertion order). -/
def objSet {α : Type} (m : List (String × α)) (k : String) (v : α) :
    List (String × α) :=
  if objHas m k then m.map (fun p => if p.1 = k then (k, v) else p)
  else m ++ [(k, v)]

/-- `delete m[k]`. -/
def objDel {α : Type} (m : List (String × α)) (k : String) :
    List (String × α) :=
  m.filter (fun p => ¬ p.1 = k)

/-- `m[k].push v` on an object of arrays; a missing key is left untouched
(the JS original would throw there, a case excluded by the data-model
invariant that edges reference existing nodes). -/
def objPush {α : Type} (m : List (String × List α)) (k : String) (v : α) :
    List (String × List α) :=
  m.map (fun p => if p.1 = k then (p.1, p.2 ++ [v]) else p)

/-- `m[k1][k2] = v` on a nested object; a missing outer key is left
untouched (same remark as `objPush`). -/
def objSetIn (m : List (String × List (String × ℚ))) (k1 k2 : String)
    (v : ℚ) : List (String × List (String × ℚ)) :=
  m.map (fun p => if p.1 = k1 then (p.1, objSet p.2 k2 v) else p)

/-- `[...new Set(l)]`: deduplication keeping first occurrences, in insertion
order. -/
def jsDedup (l : List String) : List String :=
  l.foldl (fun acc x => if x ∈ acc then acc else acc ++ [x]) []

/-! ## Graph data model (`src/lib/graph.ts`) -/

/-- A location node. -/
structure Node where
  id : String
  name : String
  x : ℚ
  y : ℚ
deriving DecidableEq, Repr

/-- An undirected weighted, capacitated edge. -/
structure Edge where
  source : String
  target : String
  weight : ℚ
  capacity : ℚ
deriving DecidableEq, Repr

/-- The data-model invariant on a graph (spec §3): node identifiers are
unique and every edge references two existing node identifiers with a
non-negative weight. -/
def GraphWF (nodes : List Node) (edges : List Edge) : Prop :=
  (nodes.map Node.id).Nodup ∧
    ∀ e ∈ edges, e.source ∈ nodes.map Node.id ∧
      e.target ∈ nodes.map Node.id ∧ 0 ≤ e.weight

/-- One traversal step of the undirected graph: some edge connects `a` to
`b` (in either orientation) with weight `w`. -/
def EStep (edges : List Edge) (a b : String) (w : ℚ) : Prop :=
  ∃ e ∈ edges, e.weight = w ∧
    ((e.source = a ∧ e.target = b) ∨ (e.source = b ∧ e.target = a))

/-- A walk through the graph from `a` to `b` of total edge-weight `d`
(vertices and edges may repeat; any path is a walk). -/
inductive EWalk (edges : List Edge) : String → String → ℚ → Prop
  | nil (a : String) : EWalk edges a a 0
  | cons {a b c : String} {w d : ℚ} :
      EStep edges a b w → EWalk edges b c d → EWalk edges a c (w + d)

/-- `b` is reachable from `a`. -/
def EReach (edges : List Edge) (a b : String) : Prop :=
  ∃ d, EWalk edges a b d

/-! ## Adjacency construction

`dijkstra.ts` builds `adj` as an object of arrays (`adj[source].push({node,
weight})` for both orientations); `solveTsp`'s helper builds `adj` as a
nested object (`adj[source][target] = weight`). -/

/-- `nodes.forEach(node => adj[node.id] = [])`, shared by both builders. -/
def buildAdjInit (nodes : List Node) : List (String × List (String × ℚ)) :=
  nodes.foldl (fun m n => objSet m n.id []) []

/-- The adjacency object of `dijkstra.ts` (lines 4–9). -/
def buildAdj (nodes : List Node) (edges : List Edge) :
    List (String × List (String × ℚ)) :=
  edges.foldl
    (fun m e => objPush (objPush m e.source (e.target, e.weight))
      e.target (e.source, e.weight))
    (buildAdjInit nodes)

/-- `adj[u]?` of `dijkstra.ts`: the neighbor list of `u`, `[]` when the key
is absent (the optional chaining skips the loop then). -/
def adjOf (nodes : List Node) (edges : List Edge) (u : String) :
    List (String × ℚ) :=
  (objGet (buildAdj nodes edges) u).getD []

/-- The nested adjacency object of the tour constructor. -/
def buildAdj2 (nodes : List Node) (edges : List Edge) :
    List (String × List (String × ℚ)) :=
  edges.foldl
    (fun m e => objSetIn (objSetIn m e.source e.target e.weight)
      e.target e.source e.weight)
    (buildAdjInit nodes)

/-- `Object.keys(adj[u] || {})` with its values: the neighbor entries of
`u` in the tour constructor's adjacency. -/
def adj2Of (nodes : List Node) (edges : List Edge) (u : String) :
    List (String × ℚ) :=
  (objGet (buildAdj2 nodes edges) u).getD []

/-! ## Dijkstra state and loop (`dijkstra.ts` and `findShortestPath`)

Both functions keep three objects `distances`, `prev`, `pq` and run the
same pop-minimum / relax loop; they differ only in initial guard, exit
condition and post-processing, so the state and the relaxation step are
shared. -/

/-- The mutable state of the Dijkstra loops. -/
structure DState where
  dist : List (String × Dist)
  prev : List (String × Option String)
  pq : List (String × Dist)

/-- `distances[k]`; a missing key behaves like `Infinity` (in JS,
`undefined` arithmetic never passes the strict `<` comparisons, exactly as
`⊤` does here; all guarded reads are of present keys anyway). -/
def dGet (st : DState) (k : String) : Dist :=
  (objGet st.dist k).getD ⊤

/-- `prev[k]`; both JS `null` and a missing key read as `none`. -/
def pGet (st : DState) (k : String) : Option String :=
  (objGet st.prev k).getD none

/-- One `forEach` iteration of the relaxation loop: with `alt =
distances[u] + weight` (inlined), on strict improvement update
`distances`, `prev` and `pq`. -/
def relaxStep (u : String) (st : DState) (nb : String × ℚ) : DState :=
  if dGet st u + (nb.2 : Dist) < dGet st nb.1 then
    { dist := objSet st.dist nb.1 (dGet st u + (nb.2 : Dist))
      prev := objSet st.prev nb.1 (some u)
      pq := objSet st.pq nb.1 (dGet st u + (nb.2 : Dist)) }
  else st

/-- The whole relaxation loop over the neighbors of `u`. -/
def relaxAll (nbrs : String → List (String × ℚ)) (u : String) (st : DState) :
    DState :=
  (nbrs u).foldl (relaxStep u) st

/-- `Object.keys(pq).reduce((a, b) => pq[a] < pq[b] ? a : b)`: the key of a
minimal entry (ties resolved towards the later key).  Since all `pq`
objects built here have distinct keys, comparing entry values coincides
with the JS lookup `pq[a] < pq[b]`.  JS `reduce` throws on an empty object;
all call sites are guarded by a non-emptiness check. -/
def jsMinKey : List (String × Dist) → String
  | [] => ""
  | p :: rest => (rest.foldl (fun a b => if a.2 < b.2 then a else b) p).1

/-- The JS path reconstruction `while (current) { path.unshift(current);
current = prev[current]; }` starting at `k`.  The loop stops on `null`, on
a missing key, and also on the empty string (which is falsy in JS).  The
fuel argument only makes the recursion structural; the loop theorems show
the chain length never reaches the fuel passed by the callers. -/
def prevChain (prev : List (String × Option String)) :
    ℕ → String → List String
  | 0, _ => []
  | fuel+1, k =>
    if k = "" then []
    else
      match (objGet prev k).getD none with
      | none => [k]
      | some u => prevChain prev fuel u ++ [k]

/-- Specification-side variant of `prevChain` that makes fuel exhaustion
observable; used by the loop invariants. -/
def chainTo (prev : List (String × Option String)) :
    ℕ → String → Option (List String)
  | 0, _ => none
  | fuel+1, k =>
    if k = "" then some []
    else
      match (objGet prev k).getD none with
      | none => some [k]
      | some u => (chainTo prev fuel u).map (· ++ [k])

/-- The common initialization loop: `distances[id] = Infinity; prev[id] =
null; pq[id] = Infinity` for every node. -/
def fspInit (nodes : List Node) : DState :=
  { dist := nodes.foldl (fun m n => objSet m n.id (⊤ : Dist)) []
    prev := nodes.foldl (fun m n => objSet m n.id (none : Option String)) []
    pq := nodes.foldl (fun m n => objSet m n.id (⊤ : Dist)) [] }

/-- `dijkstra.ts` initialization: the common loop followed by the unguarded
`distances[startId] = 0; pq[startId] = 0` (which appends a fresh key when
`startId` is not a node). -/
def dijkstraInit (nodes : List Node) (startId : String) : DState :=
  let st0 := fspInit nodes
  { dist := objSet st0.dist startId (0 : Dist)
    prev := st0.prev
    pq := objSet st0.pq startId (0 : Dist) }

/-- The main loop of `dijkstra.ts` (lines 24–53): pop the minimum; on
popping `endId` reconstruct and return the result (or `null` when the
reconstruction does not reach `startId`); break to `return null` when the
popped distance is `Infinity`; otherwise relax and continue.  `none`
encodes fuel exhaustion, `some none` the JS `null`. -/
def dijkstraLoop (nbrs : String → List (String × ℚ)) (startId endId : String) :
    ℕ → DState → Option (Option (List String × Dist))
  | 0, _ => none
  | fuel+1, st =>
    if st.pq = [] then some none
    else
      let u := jsMinKey st.pq
      let st1 : DState := { st with pq := objDel st.pq u }
      if u = endId then
        let path := prevChain st1.prev (st1.prev.length + 1) endId
        if path.head? = some startId then some (some (path, dGet st1 endId))
        else some none
      else if dGet st1 u = ⊤ then some none
      else dijkstraLoop nbrs startId endId fuel (relaxAll nbrs u st1)

/-- `dijkstra(nodes, edges, startId, endId)`.  The fuel `nodes.length + 2`
is sufficient: the loop pops one key per iteration and, with non-negative
weights, never re-inserts a popped key (proved below). -/
def dijkstra (nodes : List Node) (edges : List Edge)
    (startId endId : String) : Option (Option (List String × Dist)) :=
  dijkstraLoop (adjOf nodes edges) startId endId (nodes.length + 2)
    (dijkstraInit nodes startId)

/-- The main loop of `findShortestPath`: identical relaxation, but it
breaks (keeping the state for reconstruction) when `toNodeId` is popped
and has no `Infinity` early exit. -/
def fspLoop (nbrs : String → List (String × ℚ)) (toNodeId : String) :
    ℕ → DState → Option DState
  | 0, _ => none
  | fuel+1, st =>
    if st.pq = [] then some st
    else
      let u := jsMinKey st.pq
      let st1 : DState := { st with pq := objDel st.pq u }
      if u = toNodeId then some st1
      else fspLoop nbrs toNodeId fuel (relaxAll nbrs u st1)

/-- `findShortestPath(fromNodeId, toNodeId, nodes, adj)` of the tour
constructor: guard `fromNodeId in pq`, run the loop, reconstruct, and
return `{distance: Infinity, path: []}` whenever the reconstruction does
not start at `fromNodeId`. -/
def findShortestPath (fromNodeId toNodeId : String) (nodes : List Node)
    (nbrs : String → List (String × ℚ)) : Dist × List String :=
  let st0 := fspInit nodes
  if objHas st0.pq fromNodeId then
    let st1 : DState :=
      { dist := objSet st0.dist fromNodeId (0 : Dist)
        prev := st0.prev
        pq := objSet st0.pq fromNodeId (0 : Dist) }
    match fspLoop nbrs toNodeId (nodes.length + 2) st1 with
    | none => (⊤, [])
    | some st =>
      let path := prevChain st.prev (st.prev.length + 1) toNodeId
      if path.head? = some fromNodeId then (dGet st toNodeId, path)
      else (⊤, [])
  else (⊤, [])

/-! ## The tour constructor `solveTsp` -/

/-- A customer's declared delivery time window. -/
inductive TimeWindow
  | any
  | morning
  | afternoon
deriving DecidableEq, Repr

/-- A customer stop: `{address, timeWindow}`. -/
structure Customer where
  address : String
  timeWindow : TimeWindow
deriving DecidableEq, Repr

/-- The nearest-neighbor scan of one greedy iteration: fold the candidate
set in insertion order with `(nearest, minDistance)` starting at
`(null, Infinity)`, updating on strict improvement. -/
def pickNearest (dOf : String → Dist) (cands : List String) :
    Option String × Dist :=
  cands.foldl (fun acc c => if dOf c < acc.2 then (some c, dOf c) else acc)
    ((none : Option String), (⊤ : Dist))

/-- One greedy phase of `solveTsp` (all three phases run this loop): while
candidates remain, pick the nearest (break when none is at finite
distance), splice the leg's path without its first element, accumulate the
leg distance, move there and remove it from the candidate set.  Returns
(path so far, current location, distance so far).  Fuel: each iteration
removes the picked candidate, so `cands.length + 1` always suffices. -/
def greedyRoute (dmat : String → String → Dist × List String) :
    ℕ → List String → String → List String → Dist →
    List String × String × Dist
  | 0, _, cur, acc, total => (acc, cur, total)
  | fuel+1, cands, cur, acc, total =>
    if cands = [] then (acc, cur, total)
    else
      match pickNearest (fun c => (dmat cur c).1) cands with
      | (none, _) => (acc, cur, total)
      | (some nearest, minD) =>
          greedyRoute dmat fuel (cands.erase nearest) nearest
            (acc ++ ((dmat cur nearest).2).drop 1) (total + minD)

/-- The all-pairs distance oracle of `solveTsp`: `{distance: 0, path:
[from]}` on the diagonal, `findShortestPath` otherwise.  The JS object is
only ever read at pairs of relevant nodes; the total function extends it
to all strings with the same defining expressions. -/
def distMatrix (nodes : List Node) (edges : List Edge) :
    String → String → Dist × List String :=
  fun a b =>
    if a = b then ((0 : Dist), [a])
    else findShortestPath a b nodes (adj2Of nodes edges)

/-- The tour constructor (`solveTsp` of the TSP module): degenerate early
return, then pickup phase over the deduplicated warehouses, morning
deliveries, afternoon+any deliveries, and the return leg to the depot
(skipped when its distance is `Infinity`).  The JS also maintains an
`unvisitedCustomers` set that is never read afterwards; it is omitted. -/
def solveTsp (nodes : List Node) (edges : List Edge) (startDepot : String)
    (warehousesToVisit : List String) (customersToVisit : List Customer) :
    List String × Dist :=
  if warehousesToVisit = [] ∧ customersToVisit = [] then
    ([startDepot, startDepot], (0 : Dist))
  else
    let dmat := distMatrix nodes edges
    let w0 := jsDedup warehousesToVisit
    let r1 := greedyRoute dmat (w0.length + 1) w0 startDepot [startDepot] 0
    let m0 := jsDedup ((customersToVisit.filter
      (fun c => c.timeWindow = TimeWindow.morning)).map Customer.address)
    let r2 := greedyRoute dmat (m0.length + 1) m0 r1.2.1 r1.1 r1.2.2
    let a0 := jsDedup ((customersToVisit.filter
      (fun c => c.timeWindow = TimeWindow.afternoon)).map Customer.address)
    let y0 := jsDedup ((customersToVisit.filter
      (fun c => c.timeWindow = TimeWindow.any)).map Customer.address)
    let rem := jsDedup (a0 ++ y0)
    let r3 := greedyRoute dmat (rem.length + 1) rem r2.2.1 r2.1 r2.2.2
    let ret := dmat r3.2.1 startDepot
    if ret.1 ≠ ⊤ then (r3.1 ++ ret.2.drop 1, r3.2.2 + ret.1)
    else (r3.1, r3.2.2)

/-! ## Cost model and strategies (`src/app/checkout/page.tsx`) -/

/-- `$1.50 per kilometer`. -/
def COST_PER_KM : ℚ := 3 / 2

/-- `$50 fixed cost per truck dispatched`. -/
def COST_PER_TRUCK : ℚ := 50

/-- `Max 10 items per truck`. -/
def TRUCK_CAPACITY : ℕ := 10

/-- `(distance * COST_PER_KM) + COST_PER_TRUCK` applied to a possibly
infinite distance (JS `Infinity` arithmetic propagates, as `⊤` does). -/
def jsCost (d : Dist) : Dist :=
  d.map (fun q => q * COST_PER_KM + COST_PER_TRUCK)

/-- The parametric form of the per-truck cost model (spec §4.4): `cost =
distance * kmRate + fixedCost`.  `truckCost COST_PER_KM COST_PER_TRUCK`
is the deployed instance. -/
def truckCost (kmRate fixedCost dist : ℚ) : ℚ :=
  dist * kmRate + fixedCost

/-- A strategy's total cost over the dispatched trucks' route distances. -/
def strategyTotalCost (kmRate fixedCost : ℚ) (dists : List ℚ) : ℚ :=
  (dists.map (truckCost kmRate fixedCost)).sum

/-- A catalog product as used by the checkout page (fields not read by the
optimization are omitted). -/
structure Product where
  id : String
  name : String
  warehouseId : String
deriving DecidableEq, Repr

/-- A simulated order `{id, address, items, timeWindow}`. -/
structure SimulatedOrder where
  id : String
  address : String
  items : List Product
  timeWindow : TimeWindow
deriving DecidableEq, Repr

/-- Strategy 1 grouping: `itemsByWarehouse` built with `if
(!itemsByWarehouse[id]) itemsByWarehouse[id] = []; itemsByWarehouse[id]
.push(item)` — key order is first occurrence, values in encounter order. -/
def itemsByWarehouse (items : List Product) : List (String × List Product) :=
  items.foldl
    (fun m it =>
      objPush (if objHas m it.warehouseId then m else m ++ [(it.warehouseId, [])])
        it.warehouseId it)
    []

/-- One direct-ship shipment record (the display-only `warehouseName` field
is omitted). -/
structure SplitShipment where
  warehouseId : String
  path : Option (List String × Dist)
  items : List Product
  cost : Dist
deriving DecidableEq

/-- The per-(order, warehouse) shipment of strategy 1: invoke `dijkstra`
warehouse → order address; `cost = path ? distance * COST_PER_KM +
COST_PER_TRUCK : 0`.  The outer fuel layer of `dijkstra` collapses via
`getD none`; the proofs show it is never `none` anyway. -/
def mkShipment (nodes : List Node) (edges : List Edge) (address : String)
    (g : String × List Product) : SplitShipment :=
  let path := (dijkstra nodes edges g.1 address).getD none
  { warehouseId := g.1
    path := path
    items := g.2
    cost := match path with
            | none => 0
            | some r => jsCost r.2 }

/-- All shipments of one order under the direct-ship strategy. -/
def orderShipments (nodes : List Node) (edges : List Edge)
    (order : SimulatedOrder) : List SplitShipment :=
  (itemsByWarehouse order.items).map (mkShipment nodes edges order.address)

/-- `totalCost = shipments.reduce((acc, s) => acc + s.cost, 0)`. -/
def orderTotalCost (nodes : List Node) (edges : List Edge)
    (order : SimulatedOrder) : Dist :=
  ((orderShipments nodes edges order).map SplitShipment.cost).sum

/-! ## Strategy 3: warehouse-based batching -/

/-- The chunking loop: `for (i = 0; i < numTrucks; i++) { truckItems =
itemsForTrucks.splice(0, TRUCK_CAPACITY); ... }`. -/
def chunksGo {α : Type} (K : ℕ) : ℕ → List α → List (List α)
  | 0, _ => []
  | i+1, l => l.take K :: chunksGo K i (l.drop K)

/-- The batches of a warehouse's pending items: `numTrucks =
Math.ceil(totalItems / TRUCK_CAPACITY)` consecutive chunks of size at most
`K` (`(N + K - 1) / K` is exactly the ceiling for `K > 0`). -/
def batchChunks {α : Type} (K : ℕ) (l : List α) : List (List α) :=
  chunksGo K ((l.length + K - 1) / K) l

/-- `customerDestinations` of one truck: deduplicated addresses of the
chunk, each with the time window of the first (order, item) pair at that
address (the `find` cannot miss since the address is drawn from the same
list; the `none` branch is dead). -/
def truckCustomers (truckItems : List (Product × SimulatedOrder)) :
    List Customer :=
  (jsDedup (truckItems.map (fun oi => oi.2.address))).map (fun address =>
    match truckItems.find? (fun oi => oi.2.address = address) with
    | some oi => { address := address, timeWindow := oi.2.timeWindow }
    | none => { address := address, timeWindow := TimeWindow.any })

/-- One dispatched truck of the warehouse-batched strategy (the `items`
projection to display names is kept as the raw pairs). -/
structure TruckRoute where
  truck : ℕ
  route : List String × Dist
  customers : List String
  items : List (Product × SimulatedOrder)
  cost : Dist

/-- The trucks dispatched from one warehouse by strategy 3: one per batch,
each routed by `solveTsp` starting at the warehouse with no pickup stops. -/
def warehouseTrucks (nodes : List Node) (edges : List Edge)
    (warehouseId : String) (ordersAndItems : List (Product × SimulatedOrder)) :
    List TruckRoute :=
  ((batchChunks TRUCK_CAPACITY ordersAndItems).enum).map (fun p =>
    let truckItems := p.2
    let custs := truckCustomers truckItems
    let route := solveTsp nodes edges warehouseId [] custs
    { truck := p.1 + 1
      route := route
      customers := custs.map Customer.address
      items := truckItems
      cost := jsCost route.2 })

/-! ## Specification-side walk relations over an adjacency function

The loop invariants of both Dijkstra variants are stated against walks
over the adjacency function `nbrs` actually consulted by the loops; the
lemma `mem_adjOf_iff` (below) transports them to walks over the edge
list. -/

/-- A walk from `a` to `b` of total weight `d` along the adjacency
function. -/
inductive NWalk (nbrs : String → List (String × ℚ)) :
    String → String → ℚ → Prop
  | nil (a : String) : NWalk nbrs a a 0
  | cons {a b c : String} {w d : ℚ} :
      (b, w) ∈ nbrs a → NWalk nbrs b c d → NWalk nbrs a c (w + d)

/-- Reachability along the adjacency function. -/
def NReach (nbrs : String → List (String × ℚ)) (a b : String) : Prop :=
  ∃ d, NWalk nbrs a b d

/-- A walk all of whose vertices except possibly the final one lie in
`S` (the frontier decomposition used by the Dijkstra invariant). -/
inductive WalkIn (nbrs : String → List (String × ℚ)) (S : List String) :
    String → String → ℚ → Prop
  | nil (a : String) : WalkIn nbrs S a a 0
  | cons {a b c : String} {w d : ℚ} :
      a ∈ S → (b, w) ∈ nbrs a → WalkIn nbrs S b c d →
      WalkIn nbrs S a c (w + d)

/-- Well-formedness of an adjacency function over the node-key list
`nkeys`: every neighbor entry names a key and carries a non-negative
weight, and the relation is symmetric (undirected graph). -/
structure NbrsWF (nbrs : String → List (String × ℚ)) (nkeys : List String) :
    Prop where
  closed : ∀ a p, p ∈ nbrs a → p.1 ∈ nkeys
  nonneg : ∀ a p, p ∈ nbrs a → 0 ≤ p.2
  symm : ∀ a b w, (b, w) ∈ nbrs a → (a, w) ∈ nbrs b

/-- The loop invariant of both Dijkstra variants.  `keys` is the key set
of `distances`/`prev`/`pq` at initialization, `po` the list of popped
keys in pop order, `st` the current state. -/
structure DInv (nbrs : String → List (String × ℚ)) (startId : String)
    (keys : List String) (po : List String) (st : DState) : Prop where
  keys_nd : keys.Nodup
  keys_ne : "" ∉ keys
  start_mem : startId ∈ keys
  dk : st.dist.map Prod.fst = keys
  pk : st.prev.map Prod.fst = keys
  qk : ∀ k, k ∈ st.pq.map Prod.fst ↔ (k ∈ keys ∧ k ∉ po)
  q_nd : (st.pq.map Prod.fst).Nodup
  qv : ∀ p ∈ st.pq, objGet st.dist p.1 = some p.2
  po_nd : po.Nodup
  po_sub : ∀ x ∈ po, x ∈ keys
  dstart : dGet st startId = 0
  realiz : ∀ k (q : ℚ), dGet st k = (q : Dist) → NWalk nbrs startId k q
  prev_fin : ∀ k u, pGet st k = some u → ¬ dGet st k = ⊤ ∧ u ∈ po
  chain : ∀ k, ¬ dGet st k = ⊤ →
    ∃ l, chainTo st.prev (po.length + 1) k = some l
      ∧ l.head? = some startId
      ∧ (∀ v ∈ l, ¬ dGet st v = ⊤)
      ∧ (∀ v ∈ l.dropLast, v ∈ po)
      ∧ l.Nodup
  rel : ∀ x ∈ po, ∀ p ∈ nbrs x, dGet st p.1 ≤ dGet st x + (p.2 : Dist)
  pomin : ∀ x ∈ po, ∀ y ∈ st.pq.map Prod.fst, dGet st x ≤ dGet st y

/-- The invariant threaded through the relaxation fold after popping `u`:
`st0` is the state right after the pop, `po` the pop list before `u`
(so the popped set is now `po ++ [u]`). -/
structure RInv (nbrs : String → List (String × ℚ)) (startId : String)
    (keys : List String) (po : List String) (u : String) (du : Dist)
    (st0 st : DState) : Prop where
  dk : st.dist.map Prod.fst = keys
  pk : st.prev.map Prod.fst = keys
  qk : st.pq.map Prod.fst = st0.pq.map Prod.fst
  qv : ∀ p ∈ st.pq, objGet st.dist p.1 = some p.2
  dec : ∀ k, dGet st k ≤ dGet st0 k
  low : ∀ k, dGet st k = dGet st0 k ∨ du ≤ dGet st k
  frozen : ∀ x ∈ po ++ [u], dGet st x = dGet st0 x
  dstart : dGet st startId = 0
  realiz : ∀ k (q : ℚ), dGet st k = (q : Dist) → NWalk nbrs startId k q
  prev_fin : ∀ k u', pGet st k = some u' → ¬ dGet st k = ⊤ ∧ u' ∈ po ++ [u]
  chain : ∀ k, ¬ dGet st k = ⊤ →
    ∃ l, chainTo st.prev (po.length + 2) k = some l
      ∧ l.head? = some startId
      ∧ (∀ v ∈ l, ¬ dGet st v = ⊤)
      ∧ (∀ v ∈ l.dropLast, v ∈ po ++ [u])
      ∧ l.Nodup
  uchain : ¬ du = ⊤ →
    ∃ lu, chainTo st.prev (po.length + 1) u = some lu
      ∧ lu.head? = some startId
      ∧ (∀ v ∈ lu, ¬ dGet st v = ⊤)
      ∧ (∀ v ∈ lu, v ∈ po ++ [u])
      ∧ (∀ v ∈ lu.dropLast, v ∈ po)
      ∧ lu.Nodup

/-- The sequence of stops chosen by one greedy phase of `solveTsp`, in
visit order (the successive values of `currentLoc`). -/
def greedyPicks (dmat : String → String → Dist × List String) :
    ℕ → List String → String → List String
  | 0, _, _ => []
  | fuel+1, cands, cur =>
    if cands = [] then []
    else
      match pickNearest (fun c => (dmat cur c).1) cands with
      | (none, _) => []
      | (some nearest, _) =>
          nearest :: greedyPicks dmat fuel (cands.erase nearest) nearest

/-- The spliced path segments corresponding to a stop sequence. -/
def segsOf (dmat : String → String → Dist × List String) :
    String → List String → List String
  | _, [] => []
  | cur, n :: rest => ((dmat cur n).2).drop 1 ++ segsOf dmat n rest

/-- The three stop sequences (pickup, morning, afternoon+any) chosen by
`solveTsp`, phase by phase. -/
def solveTspPicks (nodes : List Node) (edges : List Edge)
    (startDepot : String) (warehousesToVisit : List String)
    (customersToVisit : List Customer) :
    List String × List String × List String :=
  if warehousesToVisit = [] ∧ customersToVisit = [] then ([], [], [])
  else
    let dmat := distMatrix nodes edges
    let w0 := jsDedup warehousesToVisit
    let wp := greedyPicks dmat (w0.length + 1) w0 startDepot
    let c1 := wp.getLastD startDepot
    let m0 := jsDedup ((customersToVisit.filter
      (fun c => c.timeWindow = TimeWindow.morning)).map Customer.address)
    let mp := greedyPicks dmat (m0.length + 1) m0 c1
    let c2 := mp.getLastD c1
    let a0 := jsDedup ((customersToVisit.filter
      (fun c => c.timeWindow = TimeWindow.afternoon)).map Customer.address)
    let y0 := jsDedup ((customersToVisit.filter
      (fun c => c.timeWindow = TimeWindow.any)).map Customer.address)
    let rem := jsDedup (a0 ++ y0)
    let rp := greedyPicks dmat (rem.length + 1) rem c2
    (wp, mp, rp)

/-! ## Concrete instances used by counterexamples and witnesses -/

/-- A three-node line graph `D – A – M` with unit weights. -/
def lineNodes : List Node :=
  [⟨"D", "D", 0, 0⟩, ⟨"A", "A", 0, 0⟩, ⟨"M", "M", 0, 0⟩]

/-- Its two edges `D–A` and `A–M`. -/
def lineEdges : List Edge :=
  [⟨"D", "A", 1, 5⟩, ⟨"A", "M", 1, 5⟩]

/-- A one-node graph whose only identifier is the empty string. -/
def emptyIdNodes : List Node := [⟨"", "n", 0, 0⟩]

/-- Four nodes `D`, `B`, `A` and the empty-string node, used to exhibit a
tour that cannot close its return leg. -/
def noRetNodes : List Node :=
  [⟨"D", "D", 0, 0⟩, ⟨"B", "B", 0, 0⟩, ⟨"A", "A", 0, 0⟩, ⟨"", "Z", 0, 0⟩]

/-- Two equal-cost routes `D–B–A` (1 then 2) and `D–“”–A` (2 then 1): the
outbound shortest-path tree reaches `A` through `B`, the return tree
reaches `D` through the empty-string node, whose falsiness breaks the
reconstruction. -/
def noRetEdges : List Edge :=
  [⟨"D", "B", 1, 1⟩, ⟨"B", "A", 2, 1⟩, ⟨"D", "", 2, 1⟩, ⟨"", "A", 1, 1⟩]

/-- Three nodes `D`, `A` and the empty-string node; the only route from
`D` to `A` passes through the empty-string node. -/
def skipNodes : List Node :=
  [⟨"D", "D", 0, 0⟩, ⟨"A", "A", 0, 0⟩, ⟨"", "Z", 0, 0⟩]

/-- Edges `D–“”` and `“”–A`, making `A` reachable from `D` only through
the falsy identifier. -/
def skipEdges : List Edge :=
  [⟨"D", "", 1, 1⟩, ⟨"", "A", 1, 1⟩]

/-- The facts about `distances`/`prev` that survive the `findShortestPath`
loop and suffice for its callers: key sets, realizability of every finite
distance, finiteness under a `prev` entry, and the reconstruction chain of
every finite-distance key. -/
structure FspOut (nbrs : String → List (String × ℚ)) (startId : String)
    (keys : List String) (st : DState) : Prop where
  dk : st.dist.map Prod.fst = keys
  pk : st.prev.map Prod.fst = keys
  realiz : ∀ k (q : ℚ), dGet st k = (q : Dist) → NWalk nbrs startId k q
  prev_fin : ∀ k u, pGet st k = some u → ¬ dGet st k = ⊤
  chain : ∀ k, ¬ dGet st k = ⊤ →
    ∃ l, chainTo st.prev (keys.length + 1) k = some l
      ∧ l.head? = some startId
      ∧ (∀ v ∈ l, ¬ dGet st v = ⊤)
      ∧ l.Nodup

/-- A two-node graph with no edges: warehouse `W`, customer `C`. -/
def discNodes : List Node := [⟨"W", "W", 0, 0⟩, ⟨"C", "C", 9, 9⟩]

/-- An order for one item sourced from `W`, delivered at the disconnected
`C`. -/
def discOrder : SimulatedOrder :=
  { id := "o1", address := "C"
    items := [⟨"p1", "p1", "W"⟩]
    timeWindow := TimeWindow.any }

/-! ## Max flow (`src/lib/algorithms/max-flow.ts`)

`edmondsKarp` maps node ids to array indices (a JS `Map` built from
`(id, i)` pairs keeps the last binding of a duplicated key), builds an
`n × n` capacity matrix and adjacency lists (`capacity[u][v] =
capacity[v][u] = edge.capacity`, both directions pushed to `adj`), and
repeatedly augments along BFS paths of the residual network.  Matrices and
arrays indexed by numbers are modelled as functions out of `ℕ`; an
out-of-range JS array access (a missing node id on an edge) would throw,
modelled by `Option`.  Both while-loops are fuel recursions: the BFS
dequeues one vertex per iteration and every enqueued vertex is fresh, so
`n + 1` iterations suffice; the outer loop adds at least `1/D` to the flow
per round (`D` the product of all capacity denominators) and the flow is
bounded by the capacity out of the source, so `n * N * D + 1` rounds
suffice (`N` the sum of all capacity numerators' absolute values). -/

/-- `m[u][v] = x` on a number matrix. -/
def ekUpd2 (m : ℕ → ℕ → ℚ) (u v : ℕ) (x : ℚ) : ℕ → ℕ → ℚ :=
  fun a b => if a = u ∧ b = v then x else m a b

/-- `adj[u].push(v)`. -/
def ekPush (adj : ℕ → List ℕ) (u v : ℕ) : ℕ → List ℕ :=
  fun a => if a = u then adj a ++ [v] else adj a

/-- Position search helper for `ekIdx`: the index (counting from `i`) of
the last occurrence of `id` in `l`. -/
def ekIdxAux (id : String) : List String → ℕ → Option ℕ
  | [], _ => none
  | s :: rest, i =>
    match ekIdxAux id rest (i + 1) with
    | some j => some j
    | none => if s = id then some i else none

/-- `new Map(nodes.map((node, i) => [node.id, i])).get(id)`: the index of
the last node carrying `id`, if any. -/
def ekIdx (nodes : List Node) (id : String) : Option ℕ :=
  ekIdxAux id (nodes.map Node.id) 0

/-- The capacity matrix and adjacency lists built by `edmondsKarp` from the
edge list (`capacity[u][v] = capacity[v][u] = edge.capacity`, overwriting
on duplicates; `adj[u].push(v); adj[v].push(u)`).  `none` models the
`TypeError` the JS would throw on an edge endpoint absent from the node
list. -/
def ekBuild (nodes : List Node) (edges : List Edge) :
    Option ((ℕ → ℕ → ℚ) × (ℕ → List ℕ)) :=
  edges.foldl
    (fun acc e =>
      match acc with
      | none => none
      | some (cap, adj) =>
        match ekIdx nodes e.source, ekIdx nodes e.target with
        | some u, some v =>
            some (ekUpd2 (ekUpd2 cap u v e.capacity) v u e.capacity,
              ekPush (ekPush adj u v) v u)
        | _, _ => none)
    (some (fun _ _ => (0 : ℚ), fun _ => ([] : List ℕ)))

/-- The mutable state of `bfs`: the queue, the `visited` array and the
`parent` array (`-1` at the source). -/
structure BfsSt where
  q : List ℕ
  vis : ℕ → Bool
  par : ℕ → ℤ

/-- The inner `for (const v of adj[u])` of `bfs`: enqueue each unvisited
neighbor with positive residual capacity, record its parent, and return
`true` immediately when the sink is enqueued. -/
def bfsInner (cap : ℕ → ℕ → ℚ) (sink u : ℕ) :
    List ℕ → BfsSt → BfsSt × Bool
  | [], st => (st, false)
  | v :: rest, st =>
    if st.vis v = false ∧ 0 < cap u v then
      let st' : BfsSt :=
        ⟨st.q ++ [v],
         fun a => if a = v then true else st.vis a,
         fun a => if a = v then (u : ℤ) else st.par a⟩
      if v = sink then (st', true) else bfsInner cap sink u rest st'
    else bfsInner cap sink u rest st

/-- The outer `while (queue.length > 0)` of `bfs`: shift the head of the
queue and scan its adjacency list.  `none` on fuel exhaustion (proved
unreachable with fuel `n + 1`). -/
def bfsLoop (cap : ℕ → ℕ → ℚ) (adj : ℕ → List ℕ) (sink : ℕ) :
    ℕ → BfsSt → Option ((ℕ → ℤ) × Bool)
  | 0, _ => none
  | fuel+1, st =>
    match st.q with
    | [] => some (st.par, false)
    | u :: qrest =>
      let r := bfsInner cap sink u (adj u) ⟨qrest, st.vis, st.par⟩
      if r.2 then some (r.1.par, true)
      else bfsLoop cap adj sink fuel r.1

/-- `bfs(capacity, adj, source, sink, parent)`: fresh `visited` array, the
source enqueued and marked, `parent[source] = -1` on the array carried over
from the previous call. -/
def bfs (cap : ℕ → ℕ → ℚ) (adj : ℕ → List ℕ) (source sink : ℕ)
    (par : ℕ → ℤ) (fuel : ℕ) : Option ((ℕ → ℤ) × Bool) :=
  bfsLoop cap adj sink fuel
    ⟨[source],
     fun a => if a = source then true else false,
     fun a => if a = source then (-1 : ℤ) else par a⟩

/-- The vertex sequence `sink, parent[sink], …, source` walked by both
`for (let v = sink; v !== source; v = parent[v])` loops.  `none` on fuel
exhaustion (the parent chain of a completed BFS reaches the source in at
most `n` steps). -/
def parChain (par : ℕ → ℤ) (source : ℕ) : ℕ → ℕ → Option (List ℕ)
  | 0, _ => none
  | fuel+1, v =>
    if v = source then some [v]
    else
      match parChain par source fuel (par v).toNat with
      | some l => some (v :: l)
      | none => none

/-- The `(v, u = parent[v])` pairs visited by those loops: consecutive
pairs of the parent chain. -/
def chainPairs : List ℕ → List (ℕ × ℕ)
  | [] => []
  | [_] => []
  | a :: b :: rest => (a, b) :: chainPairs (b :: rest)

/-- `pathFlow`: starting from `Infinity` (`none`), take the minimum of
`capacity[u][v]` over the pairs. -/
def pairsMin (cap : ℕ → ℕ → ℚ) (l : List (ℕ × ℕ)) : Option ℚ :=
  l.foldl
    (fun m p =>
      match m with
      | none => some (cap p.2 p.1)
      | some q => some (min q (cap p.2 p.1)))
    none

/-- One step of the augmentation loop: `capacity[u][v] -= pathFlow;
capacity[v][u] += pathFlow` for the pair `p = (v, u)`. -/
def augStep (pf : ℚ) (cap : ℕ → ℕ → ℚ) (p : ℕ × ℕ) : ℕ → ℕ → ℚ :=
  ekUpd2 (ekUpd2 cap p.2 p.1 (cap p.2 p.1 - pf)) p.1 p.2
    ((ekUpd2 cap p.2 p.1 (cap p.2 p.1 - pf)) p.1 p.2 + pf)

/-- The whole augmentation pass over the path pairs. -/
def applyAug (cap : ℕ → ℕ → ℚ) (pf : ℚ) (l : List (ℕ × ℕ)) :
    ℕ → ℕ → ℚ :=
  l.foldl (augStep pf) cap

/-- The outer `while (bfs(...))` loop of `edmondsKarp`: on a successful
BFS, walk the parent chain from the sink, take the bottleneck
`pathFlow`, update the residual capacities and accumulate `maxFlow`.
`none` models fuel exhaustion and the unreachable degenerate states (an
empty augmenting path, whose JS `pathFlow` would be `Infinity`). -/
def ekLoop (adj : ℕ → List ℕ) (source sink n : ℕ) :
    ℕ → (ℕ → ℕ → ℚ) → (ℕ → ℤ) → ℚ → Option ℚ
  | 0, _, _, _ => none
  | fuel+1, cap, par, acc =>
    match bfs cap adj source sink par (n + 1) with
    | none => none
    | some (par', found) =>
      if found then
        match parChain par' source (n + 1) sink with
        | none => none
        | some chain =>
          match pairsMin cap (chainPairs chain) with
          | none => none
          | some pf =>
              ekLoop adj source sink n fuel
                (applyAug cap pf (chainPairs chain)) par' (acc + pf)
      else some acc

/-- Fuel for the outer loop: the flow value is bounded by `n * N` and each
augmentation adds at least `1 / D`, for `N` the sum of the absolute values
of the capacity numerators and `D` the product of the capacity
denominators. -/
def ekFuel (nodes : List Node) (edges : List Edge) : ℕ :=
  nodes.length * (edges.map (fun e => e.capacity.num.natAbs)).sum
    * (edges.map (fun e => e.capacity.den)).prod + 1

/-- `edmondsKarp(nodes, edges, sourceId, sinkId)`: resolve the endpoint
indices, build the capacity matrix and adjacency lists, and run the
augmentation loop with `parent` initially all `0` and `maxFlow = 0`.
`none` models the JS `TypeError` on an unknown node id. -/
def edmondsKarp (nodes : List Node) (edges : List Edge)
    (sourceId sinkId : String) : Option ℚ :=
  match ekIdx nodes sourceId, ekIdx nodes sinkId with
  | some source, some sink =>
    match ekBuild nodes edges with
    | some (cap, adj) =>
        ekLoop adj source sink nodes.length (ekFuel nodes edges) cap
          (fun _ => 0) 0
    | none => none
  | _, _ => none

/-! ## The reference notions the max-flow claim compares against

These definitions follow the specification's words (maximum flow,
capacity of a minimum s-t cut of the network in which each undirected
edge's capacity is usable independently in both directions), stated over
the capacity matrix the code builds. -/

/-- The capacity of the cut `(S, range n \ S)`. -/
def cutCap (n : ℕ) (c0 : ℕ → ℕ → ℚ) (S : Finset ℕ) : ℚ :=
  ∑ u ∈ S, ∑ v ∈ Finset.range n \ S, c0 u v

/-- A feasible s-t flow on the directed network with capacities `c0`:
skew-symmetric, capacity-respecting, conserving at internal vertices and
supported on indices below `n`. -/
def IsFlow (n : ℕ) (c0 : ℕ → ℕ → ℚ) (s t : ℕ) (f : ℕ → ℕ → ℚ) : Prop :=
  (∀ u v, f u v = - f v u)
  ∧ (∀ u v, f u v ≤ c0 u v)
  ∧ (∀ v, v < n → ¬ v = s → ¬ v = t →
      ∑ u ∈ Finset.range n, f u v = 0)
  ∧ (∀ u v, n ≤ u ∨ n ≤ v → f u v = 0)

/-- The value of a flow: the net flow out of the source. -/
def flowValue (n : ℕ) (s : ℕ) (f : ℕ → ℕ → ℚ) : ℚ :=
  ∑ v ∈ Finset.range n, f s v

/-- `q` is an integer multiple of `1 / D`.  All residual capacities stay
`Gran D` for `D` the product of the capacity denominators. -/
def Gran (D : ℕ) (q : ℚ) : Prop := ∃ z : ℤ, q * D = z

/-- The augmentation pairs of a duplicate-free parent chain touch pairwise
distinct matrix slots: the ordered pairs are distinct, are off the
diagonal, and no pair occurs together with its reverse. -/
def CleanPairs (l : List (ℕ × ℕ)) : Prop :=
  l.Nodup ∧ (∀ p ∈ l, ¬ p.1 = p.2) ∧ ∀ p ∈ l, (p.2, p.1) ∉ l

/-- Shape of the capacity matrix and adjacency lists produced by
`ekBuild`: positive (indeed, nonzero) capacity slots are adjacency edges,
adjacency entries are in range and symmetric, every matrix entry is `0` or
some edge's capacity, and out-of-range entries vanish. -/
structure EkGraph (n : ℕ) (edges : List Edge) (c0 : ℕ → ℕ → ℚ)
    (adj : ℕ → List ℕ) : Prop where
  adjPos : ∀ u v, ¬ c0 u v = 0 → v ∈ adj u
  adjLt : ∀ u, ∀ v ∈ adj u, v < n
  adjSym : ∀ u v, v ∈ adj u → u ∈ adj v
  entry : ∀ u v, c0 u v = 0 ∨ ∃ e ∈ edges, c0 u v = e.capacity
  supp : ∀ u v, n ≤ u ∨ n ≤ v → c0 u v = 0

/-- Invariant of the BFS outer loop, with `vl` the list of visited
vertices in discovery order: `visited` matches `vl`, discoveries are
distinct in-range vertices, the source is visited and the sink is not,
queued vertices are visited, every visited vertex is either still queued
or fully expanded, and every visited non-source vertex has a
positive-residual parent discovered earlier. -/
structure BInv (cap : ℕ → ℕ → ℚ) (adj : ℕ → List ℕ)
    (source sink n : ℕ) (vl : List ℕ) (st : BfsSt) : Prop where
  vis_iff : ∀ x, st.vis x = true ↔ x ∈ vl
  nodup : vl.Nodup
  bound : ∀ x ∈ vl, x < n
  src_mem : source ∈ vl
  sink_not : sink ∉ vl
  q_sub : ∀ x ∈ st.q, x ∈ vl
  expanded : ∀ u ∈ vl, u ∈ st.q ∨ ∀ v ∈ adj u, 0 < cap u v → v ∈ vl
  par_chain : ∀ v ∈ vl, ¬ v = source →
    ∃ u ∈ vl, st.par v = (u : ℤ) ∧ 0 < cap u v ∧ v ∈ adj u
      ∧ vl.indexOf u < vl.indexOf v

/-- The same invariant while the neighbor list of the dequeued vertex `u0`
is being scanned (`u0` is out of the queue but not yet fully expanded, and
the sink may become visited mid-scan). -/
structure BInner (cap : ℕ → ℕ → ℚ) (adj : ℕ → List ℕ)
    (source sink n u0 : ℕ) (vl : List ℕ) (st : BfsSt) : Prop where
  vis_iff : ∀ x, st.vis x = true ↔ x ∈ vl
  nodup : vl.Nodup
  bound : ∀ x ∈ vl, x < n
  src_mem : source ∈ vl
  q_sub : ∀ x ∈ st.q, x ∈ vl
  expanded : ∀ u ∈ vl, u ∈ st.q ∨ u = u0 ∨
    ∀ v ∈ adj u, 0 < cap u v → v ∈ vl
  par_chain : ∀ v ∈ vl, ¬ v = source →
    ∃ u ∈ vl, st.par v = (u : ℤ) ∧ 0 < cap u v ∧ v ∈ adj u
      ∧ vl.indexOf u < vl.indexOf v

/-- Invariant of the outer augmentation loop: the residual matrix `cap`
pairs with the built matrix `c0` (skew residuals), stays non-negative,
keeps nonzero slots on adjacency edges, agrees with `c0` out of range, is
`1/D`-granular, and differs from `c0` by a flow of value `acc` (the
`maxFlow` accumulator). -/
structure EkInv (n : ℕ) (D : ℕ) (c0 cap : ℕ → ℕ → ℚ)
    (adj : ℕ → List ℕ) (source sink : ℕ) (acc : ℚ) : Prop where
  skew : ∀ u v, cap u v + cap v u = c0 u v + c0 v u
  nonneg : ∀ u v, 0 ≤ cap u v
  adjPos : ∀ u v, ¬ cap u v = 0 → v ∈ adj u
  supp : ∀ u v, n ≤ u ∨ n ≤ v → cap u v = c0 u v
  gran : ∀ u v, Gran D (cap u v)
  conserve : ∀ v, v < n → ¬ v = source → ¬ v = sink →
    ∑ u ∈ Finset.range n, (c0 u v - cap u v) = 0
  val : ∑ v ∈ Finset.range n, (c0 source v - cap source v) = acc

/-- A two-node graph: depot `D` and supplier `S` (E2E scenario B). -/
def mfNodes : List Node := [⟨"D", "D", 0, 0⟩, ⟨"S", "S", 1, 1⟩]

/-- A single edge `D–S` of capacity 8. -/
def mfEdges8 : List Edge := [⟨"D", "S", 1, 8⟩]

/-- A single edge `D–S` of capacity `-1`. -/
def mfEdgesNeg : List Edge := [⟨"D", "S", 1, -1⟩]

/-! # Theorems

From here on the file only states and proves properties of the
definitions above. -/

/-! ## Lemmas about the JS object primitives -/

theorem objGet_nil {α : Type} (k : String) :
    objGet ([] : List (String × α)) k = none := rfl

theorem objGet_cons {α : Type} (p : String × α) (t : List (String × α))
    (k : String) :
    objGet (p :: t) k = if p.1 = k then some p.2 else objGet t k := by
  by_cases hp : p.1 = k
  · rw [if_pos hp]
    unfold objGet
    rw [List.find?_cons_of_pos _ (by simpa using hp)]
    rfl
  · rw [if_neg hp]
    unfold objGet
    rw [List.find?_cons_of_neg _ (by simpa using hp)]

theorem objHas_iff_mem {α : Type} (m : List (String × α)) (k : String) :
    objHas m k = true ↔ k ∈ m.map Prod.fst := by
  induction m with
  | nil => simp [objHas]
  | cons p t ih =>
      simp only [objHas, List.any_cons, List.map_cons, List.mem_cons,
        Bool.or_eq_true, decide_eq_true_eq] at *
      constructor
      · rintro (h | h)
        · exact Or.inl h.symm
        · exact Or.inr (ih.mp h)
      · rintro (h | h)
        · exact Or.inl h.symm
        · exact Or.inr (ih.mpr h)

theorem objGet_eq_none {α : Type} (m : List (String × α)) (k : String) :
    objGet m k = none ↔ k ∉ m.map Prod.fst := by
  induction m with
  | nil => simp [objGet]
  | cons p t ih =>
      rw [objGet_cons]
      by_cases h : p.1 = k
      · simp [h]
      · rw [if_neg h]
        simp only [List.map_cons, List.mem_cons]
        rw [ih]
        constructor
        · intro hn
          rintro (rfl | hmem)
          · exact h rfl
          · exact hn hmem
        · intro hn hmem
          exact hn (Or.inr hmem)

theorem objGet_isSome_iff {α : Type} (m : List (String × α)) (k : String) :
    (objGet m k).isSome = true ↔ k ∈ m.map Prod.fst := by
  rcases h : objGet m k with _ | v
  · simp [(objGet_eq_none m k).mp h]
  · have : k ∈ m.map Prod.fst := by
      by_contra hk
      rw [(objGet_eq_none m k).mpr hk] at h
      cases h
    simp [this]

theorem objGet_mem {α : Type} {m : List (String × α)} {k : String} {v : α}
    (h : objGet m k = some v) : (k, v) ∈ m := by
  induction m with
  | nil => simp [objGet] at h
  | cons p t ih =>
      rw [objGet_cons] at h
      by_cases hp : p.1 = k
      · rw [if_pos hp] at h
        cases h
        exact (by rw [← hp]; exact List.mem_cons_self _ _)
      · rw [if_neg hp] at h
        exact List.mem_cons_of_mem _ (ih h)

theorem objGet_of_mem_nodup {α : Type} {m : List (String × α)} {k : String}
    {v : α} (hnd : (m.map Prod.fst).Nodup) (h : (k, v) ∈ m) :
    objGet m k = some v := by
  induction m with
  | nil => simp at h
  | cons p t ih =>
      simp only [List.map_cons, List.nodup_cons] at hnd
      rw [objGet_cons]
      rcases List.mem_cons.mp h with rfl | hmem
      · simp
      · have hne : ¬ p.1 = k := by
          intro he
          exact hnd.1 (he ▸ (List.mem_map_of_mem Prod.fst hmem))
        rw [if_neg hne]
        exact ih hnd.2 hmem

theorem objGet_mapUpd_self {α : Type} (t : List (String × α)) (k : String)
    (v : α) :
    objGet (t.map (fun p => if p.1 = k then (k, v) else p)) k
      = if k ∈ t.map Prod.fst then some v else none := by
  induction t with
  | nil => simp [objGet]
  | cons p t ih =>
      simp only [List.map_cons, objGet_cons]
      by_cases hp : p.1 = k
      · simp [hp]
      · rw [if_neg hp, if_neg (by simpa using hp), ih]
        simp only [List.mem_cons]
        by_cases hk : k ∈ t.map Prod.fst
        · rw [if_pos hk, if_pos (Or.inr hk)]
        · have hn : ¬ (k = p.1 ∨ k ∈ t.map Prod.fst) := by
            rintro (h | h)
            · exact hp h.symm
            · exact hk h
          rw [if_neg hk, if_neg hn]

theorem objGet_mapUpd_ne {α : Type} (t : List (String × α)) (k k' : String)
    (v : α) (hne : ¬ k' = k) :
    objGet (t.map (fun p => if p.1 = k then (k, v) else p)) k'
      = objGet t k' := by
  induction t with
  | nil => rfl
  | cons p t ih =>
      simp only [List.map_cons]
      by_cases hp : p.1 = k
      · rw [if_pos hp, objGet_cons, objGet_cons,
          if_neg (show ¬ (k, v).1 = k' from fun he => hne he.symm),
          if_neg (show ¬ p.1 = k' from fun he => hne (hp ▸ he.symm))]
        exact ih
      · rw [if_neg hp, objGet_cons, objGet_cons]
        by_cases hp' : p.1 = k'
        · rw [if_pos hp', if_pos hp']
        · rw [if_neg hp', if_neg hp']
          exact ih

theorem objGet_append_single_ne {α : Type} (t : List (String × α))
    (k k' : String) (v : α) (hne : ¬ k' = k) :
    objGet (t ++ [(k, v)]) k' = objGet t k' := by
  induction t with
  | nil =>
      rw [List.nil_append, objGet_cons, if_neg (fun he => hne he.symm)]
  | cons p t ih =>
      rw [List.cons_append, objGet_cons, objGet_cons]
      by_cases hp' : p.1 = k'
      · rw [if_pos hp', if_pos hp']
      · rw [if_neg hp', if_neg hp']
        exact ih

theorem objGet_append_single_self {α : Type} (t : List (String × α))
    (k : String) (v : α) (h : k ∉ t.map Prod.fst) :
    objGet (t ++ [(k, v)]) k = some v := by
  induction t with
  | nil => simp [objGet_cons]
  | cons p t ih =>
      simp only [List.map_cons, List.mem_cons, not_or] at h
      rw [List.cons_append, objGet_cons, if_neg (fun he => h.1 he.symm)]
      exact ih h.2

theorem objGet_objSet_self {α : Type} (m : List (String × α)) (k : String)
    (v : α) : objGet (objSet m k v) k = some v := by
  unfold objSet
  by_cases h : objHas m k = true
  · rw [if_pos h, objGet_mapUpd_self,
      if_pos ((objHas_iff_mem m k).mp h)]
  · rw [if_neg h]
    refine objGet_append_single_self m k v ?_
    rw [Bool.not_eq_true, ← Bool.not_eq_true, objHas_iff_mem] at h
    exact h

theorem objGet_objSet_ne {α : Type} (m : List (String × α)) (k k' : String)
    (v : α) (hne : ¬ k' = k) : objGet (objSet m k v) k' = objGet m k' := by
  unfold objSet
  by_cases h : objHas m k = true
  · rw [if_pos h, objGet_mapUpd_ne m k k' v hne]
  · rw [if_neg h, objGet_append_single_ne m k k' v hne]

theorem objSet_keys_of_mem {α : Type} (m : List (String × α)) (k : String)
    (v : α) (h : k ∈ m.map Prod.fst) :
    (objSet m k v).map Prod.fst = m.map Prod.fst := by
  unfold objSet
  rw [if_pos ((objHas_iff_mem m k).mpr h), List.map_map]
  refine List.map_congr_left ?_
  intro p _
  simp only [Function.comp]
  by_cases hp : p.1 = k
  · simp [hp]
  · simp [hp]

theorem objSet_keys_of_not_mem {α : Type} (m : List (String × α)) (k : String)
    (v : α) (h : k ∉ m.map Prod.fst) :
    (objSet m k v).map Prod.fst = m.map Prod.fst ++ [k] := by
  unfold objSet
  rw [if_neg (by rw [Bool.not_eq_true, ← Bool.not_eq_true, objHas_iff_mem]; exact h)]
  simp

theorem objDel_keys {α : Type} (m : List (String × α)) (k : String) :
    (objDel m k).map Prod.fst
      = (m.map Prod.fst).filter (fun x => ¬ x = k) := by
  unfold objDel
  induction m with
  | nil => rfl
  | cons p t ih =>
      simp only [List.map_cons, List.filter_cons]
      by_cases hp : p.1 = k
      · rw [if_neg (by simp [hp]), if_neg (by simp [hp])]
        exact ih
      · rw [if_pos (by simp [hp]), if_pos (by simp [hp])]
        simp only [List.map_cons]
        rw [ih]

theorem objGet_objDel_self {α : Type} (m : List (String × α)) (k : String) :
    objGet (objDel m k) k = none := by
  rw [objGet_eq_none, objDel_keys]
  simp

theorem objGet_objDel_ne {α : Type} (m : List (String × α)) (k k' : String)
    (hne : ¬ k' = k) : objGet (objDel m k) k' = objGet m k' := by
  unfold objDel
  induction m with
  | nil => rfl
  | cons p t ih =>
      simp only [List.filter_cons]
      by_cases hp : p.1 = k
      · rw [if_neg (by simp [hp])]
        rw [objGet_cons, if_neg (fun he => hne (hp ▸ he.symm))]
        exact ih
      · rw [if_pos (by simp [hp])]
        rw [objGet_cons, objGet_cons]
        by_cases hp' : p.1 = k'
        · rw [if_pos hp', if_pos hp']
        · rw [if_neg hp', if_neg hp']
          exact ih

/-! ## Lemmas about `chainTo` and `prevChain` -/

theorem chainTo_mono (prev : List (String × Option String)) :
    ∀ (f g : ℕ) (k : String) (l : List String), chainTo prev f k = some l →
      f ≤ g → chainTo prev g k = some l := by
  intro f
  induction f with
  | zero => intro g k l h; simp [chainTo] at h
  | succ n ih =>
      intro g k l h hfg
      rcases g with _ | g'
      · omega
      rw [chainTo] at h ⊢
      by_cases hk : k = ""
      · rwa [if_pos hk] at h ⊢
      rw [if_neg hk] at h ⊢
      rcases hu : (objGet prev k).getD none with _ | u
      · rw [hu] at h
        exact h
      · rw [hu] at h
        have h' : Option.map (fun x => x ++ [k]) (chainTo prev n u)
            = some l := h
        show Option.map (fun x => x ++ [k]) (chainTo prev g' u) = some l
        rcases hlu : chainTo prev n u with _ | lu
        · rw [hlu] at h'
          simp at h'
        · rw [hlu] at h'
          rw [ih g' u lu hlu (by omega)]
          exact h'

theorem chainTo_stable (prev prev' : List (String × Option String)) :
    ∀ (f : ℕ) (k : String) (l : List String), chainTo prev f k = some l →
      (∀ v ∈ l, objGet prev' v = objGet prev v) →
      chainTo prev' f k = some l := by
  intro f
  induction f with
  | zero => intro k l h _; simp [chainTo] at h
  | succ n ih =>
      intro k l h hst
      rw [chainTo] at h ⊢
      by_cases hk : k = ""
      · rwa [if_pos hk] at h ⊢
      rw [if_neg hk] at h ⊢
      rcases hu : (objGet prev k).getD none with _ | u
      · rw [hu] at h
        have h' : some [k] = some l := h
        have hl : l = [k] := by
          cases h'
          rfl
        have hkl : k ∈ l := by simp [hl]
        rw [hst k hkl, hu]
        exact h
      · rw [hu] at h
        have h' : Option.map (fun x => x ++ [k]) (chainTo prev n u)
            = some l := h
        rcases hlu : chainTo prev n u with _ | lu
        · rw [hlu] at h'
          simp at h'
        · rw [hlu] at h'
          have hl : l = lu ++ [k] := by
            cases h'
            rfl
          have hkl : k ∈ l := by simp [hl]
          rw [hst k hkl, hu]
          show Option.map (fun x => x ++ [k]) (chainTo prev' n u) = some l
          rw [ih u lu hlu (fun v hv => hst v (by simp [hl, hv]))]
          exact h'

theorem chainTo_to_prevChain (prev : List (String × Option String)) :
    ∀ (f : ℕ) (k : String) (l : List String), chainTo prev f k = some l →
      prevChain prev f k = l := by
  intro f
  induction f with
  | zero => intro k l h; simp [chainTo] at h
  | succ n ih =>
      intro k l h
      rw [chainTo] at h
      rw [prevChain]
      by_cases hk : k = ""
      · rw [if_pos hk] at h ⊢
        cases h
        rfl
      rw [if_neg hk] at h ⊢
      rcases hu : (objGet prev k).getD none with _ | u
      · rw [hu] at h
        have h' : some [k] = some l := h
        cases h'
        rfl
      · rw [hu] at h
        have h' : Option.map (fun x => x ++ [k]) (chainTo prev n u)
            = some l := h
        rcases hlu : chainTo prev n u with _ | lu
        · rw [hlu] at h'
          simp at h'
        · rw [hlu] at h'
          cases h'
          show prevChain prev n u ++ [k] = (fun x => x ++ [k]) lu
          rw [ih u lu hlu]

theorem chainTo_getLast (prev : List (String × Option String)) :
    ∀ (f : ℕ) (k : String) (l : List String), chainTo prev f k = some l →
      ¬ k = "" → l.getLast? = some k := by
  intro f
  induction f with
  | zero => intro k l h _; simp [chainTo] at h
  | succ n ih =>
      intro k l h hk
      rw [chainTo, if_neg hk] at h
      rcases hu : (objGet prev k).getD none with _ | u
      · rw [hu] at h
        have h' : some [k] = some l := h
        cases h'
        rfl
      · rw [hu] at h
        have h' : Option.map (fun x => x ++ [k]) (chainTo prev n u)
            = some l := h
        rcases hlu : chainTo prev n u with _ | lu
        · rw [hlu] at h'
          simp at h'
        · rw [hlu] at h'
          cases h'
          simp

/-! ## The `reduce`-argmin of the JS priority queue -/

theorem foldlMin_mem :
    ∀ (rest : List (String × Dist)) (p : String × Dist),
      (rest.foldl (fun a b => if a.2 < b.2 then a else b) p) ∈ p :: rest := by
  intro rest
  induction rest with
  | nil => intro p; simp
  | cons q t ih =>
      intro p
      simp only [List.foldl_cons]
      by_cases hpq : p.2 < q.2
      · rw [if_pos hpq]
        rcases List.mem_cons.mp (ih p) with h | h
        · simp [h]
        · simp [List.mem_cons_of_mem, h]
      · rw [if_neg hpq]
        rcases List.mem_cons.mp (ih q) with h | h
        · simp [h]
        · simp [List.mem_cons_of_mem, h]

theorem foldlMin_le :
    ∀ (rest : List (String × Dist)) (p : String × Dist),
      ∀ q ∈ p :: rest,
        (rest.foldl (fun a b => if a.2 < b.2 then a else b) p).2 ≤ q.2 := by
  intro rest
  induction rest with
  | nil =>
      intro p q hq
      rcases List.mem_cons.mp hq with rfl | h
      · exact le_refl _
      · simp at h
  | cons r t ih =>
      intro p q hq
      simp only [List.foldl_cons]
      have hmin : (if p.2 < r.2 then p else r).2 ≤ p.2 ∧
          (if p.2 < r.2 then p else r).2 ≤ r.2 := by
        by_cases hpr : p.2 < r.2
        · rw [if_pos hpr]
          exact ⟨le_refl _, le_of_lt hpr⟩
        · rw [if_neg hpr]
          exact ⟨not_lt.mp hpr, le_refl _⟩
      rcases List.mem_cons.mp hq with rfl | hq'
      · exact le_trans
          (ih (if q.2 < r.2 then q else r) _ (List.mem_cons_self _ _)) hmin.1
      rcases List.mem_cons.mp hq' with rfl | hq''
      · exact le_trans
          (ih (if p.2 < q.2 then p else q) _ (List.mem_cons_self _ _)) hmin.2
      · exact ih (if p.2 < r.2 then p else r) q (List.mem_cons_of_mem _ hq'')

theorem jsMinKey_spec (m : List (String × Dist)) (h : ¬ m = []) :
    ∃ p ∈ m, p.1 = jsMinKey m ∧ ∀ q ∈ m, p.2 ≤ q.2 := by
  rcases m with _ | ⟨p, rest⟩
  · exact absurd rfl h
  refine ⟨rest.foldl (fun a b => if a.2 < b.2 then a else b) p,
    foldlMin_mem rest p, ?_, foldlMin_le rest p⟩
  rfl

/-! ## Walk lemmas -/

theorem nwalk_nonneg {nbrs : String → List (String × ℚ)}
    {nkeys : List String} (hwf : NbrsWF nbrs nkeys) {a b : String} {d : ℚ}
    (h : NWalk nbrs a b d) : 0 ≤ d := by
  induction h with
  | nil => exact le_refl 0
  | cons hstep _ ih =>
      exact add_nonneg (hwf.nonneg _ _ hstep) ih

theorem nwalk_snoc {nbrs : String → List (String × ℚ)} {a b c : String}
    {d w : ℚ} (h : NWalk nbrs a b d) (hstep : (c, w) ∈ nbrs b) :
    NWalk nbrs a c (d + w) := by
  induction h with
  | nil =>
      simpa using NWalk.cons hstep (NWalk.nil c)
  | cons hstep' hw ih =>
      have := NWalk.cons hstep' (ih hstep)
      simpa [add_assoc] using this

theorem nwalk_trans {nbrs : String → List (String × ℚ)} {a b c : String}
    {d₁ d₂ : ℚ} (h₁ : NWalk nbrs a b d₁) (h₂ : NWalk nbrs b c d₂) :
    NWalk nbrs a c (d₁ + d₂) := by
  induction h₁ with
  | nil => simpa using h₂
  | cons hstep hw ih =>
      have := NWalk.cons hstep (ih h₂)
      simpa [add_assoc] using this

theorem nwalk_symm {nbrs : String → List (String × ℚ)} {nkeys : List String}
    (hwf : NbrsWF nbrs nkeys) {a b : String} {d : ℚ}
    (h : NWalk nbrs a b d) : ∃ d₂, NWalk nbrs b a d₂ := by
  induction h with
  | nil => exact ⟨0, NWalk.nil _⟩
  | cons hstep _ ih =>
      rcases ih with ⟨d₂, hw⟩
      exact ⟨d₂ + _, nwalk_snoc hw (hwf.symm _ _ _ hstep)⟩

theorem nreach_symm {nbrs : String → List (String × ℚ)} {nkeys : List String}
    (hwf : NbrsWF nbrs nkeys) {a b : String} (h : NReach nbrs a b) :
    NReach nbrs b a := by
  rcases h with ⟨d, hw⟩
  exact nwalk_symm hwf hw

theorem nreach_trans {nbrs : String → List (String × ℚ)} {a b c : String}
    (h₁ : NReach nbrs a b) (h₂ : NReach nbrs b c) : NReach nbrs a c := by
  rcases h₁ with ⟨d₁, h₁⟩
  rcases h₂ with ⟨d₂, h₂⟩
  exact ⟨d₁ + d₂, nwalk_trans h₁ h₂⟩

theorem nwalk_end_mem {nbrs : String → List (String × ℚ)}
    {nkeys : List String} (hwf : NbrsWF nbrs nkeys) {a b : String} {d : ℚ}
    (h : NWalk nbrs a b d) : b = a ∨ b ∈ nkeys := by
  induction h with
  | nil => exact Or.inl rfl
  | cons hstep hw ih =>
      rcases ih with rfl | hmem
      · exact Or.inr (hwf.closed _ _ hstep)
      · exact Or.inr hmem

theorem walkIn_to_nwalk {nbrs : String → List (String × ℚ)}
    {S : List String} {a b : String} {d : ℚ} (h : WalkIn nbrs S a b d) :
    NWalk nbrs a b d := by
  induction h with
  | nil => exact NWalk.nil _
  | cons _ hstep _ ih => exact NWalk.cons hstep ih

theorem walkIn_end_mem {nbrs : String → List (String × ℚ)}
    {nkeys : List String} (hwf : NbrsWF nbrs nkeys) {S : List String}
    {a b : String} {d : ℚ} (h : WalkIn nbrs S a b d) :
    b = a ∨ b ∈ nkeys := by
  induction h with
  | nil => exact Or.inl rfl
  | cons _ hstep hw ih =>
      rcases ih with rfl | hmem
      · exact Or.inr (hwf.closed _ _ hstep)
      · exact Or.inr hmem

/-- Frontier decomposition: a walk from `start` to an unpopped vertex has
a prefix that is a `WalkIn po` walk to an unpopped vertex of no larger
cost. -/
theorem first_exit {nbrs : String → List (String × ℚ)} {nkeys : List String}
    (hwf : NbrsWF nbrs nkeys) (po : List String) :
    ∀ {a y : String} {d : ℚ}, NWalk nbrs a y d → y ∉ po →
      ∃ z dz, z ∉ po ∧ WalkIn nbrs po a z dz ∧ dz ≤ d := by
  intro a y d h
  induction h with
  | nil =>
      intro hy
      exact ⟨_, 0, hy, WalkIn.nil _, le_refl 0⟩
  | cons hstep hw ih =>
      intro hy
      rename_i a' b' c' w' d'
      by_cases ha : a' ∈ po
      · rcases ih hy with ⟨z, dz, hz, hwalk, hle⟩
        exact ⟨z, w' + dz, hz, WalkIn.cons ha hstep hwalk,
          by
            have : (0 : ℚ) ≤ w' := hwf.nonneg _ _ hstep
            linarith⟩
      · refine ⟨a', 0, ha, WalkIn.nil _, ?_⟩
        have h1 : (0 : ℚ) ≤ w' := hwf.nonneg _ _ hstep
        have h2 : (0 : ℚ) ≤ d' := nwalk_nonneg hwf hw
        linarith

/-! ## List-level helper lemmas -/

theorem chunksGo_length {α : Type} (K : ℕ) :
    ∀ (n : ℕ) (l : List α), (chunksGo K n l).length = n := by
  intro n
  induction n with
  | zero => intro l; simp [chunksGo]
  | succ m ih => intro l; simp [chunksGo, ih]

theorem chunksGo_join {α : Type} (K : ℕ) :
    ∀ (n : ℕ) (l : List α), l.length ≤ n * K → (chunksGo K n l).flatten = l := by
  intro n
  induction n with
  | zero =>
      intro l h
      simp only [Nat.zero_mul, Nat.le_zero, List.length_eq_zero] at h
      simp [chunksGo, h]
  | succ m ih =>
      intro l h
      rw [Nat.succ_mul] at h
      have hd : (l.drop K).length ≤ m * K := by
        simp only [List.length_drop]
        omega
      simp [chunksGo, ih (l.drop K) hd]

theorem chunksGo_size {α : Type} (K : ℕ) :
    ∀ (n : ℕ) (l : List α) (c : List α), c ∈ chunksGo K n l → c.length ≤ K := by
  intro n
  induction n with
  | zero => intro l c hc; simp [chunksGo] at hc
  | succ m ih =>
      intro l c hc
      simp only [chunksGo, List.mem_cons] at hc
      rcases hc with h | h
      · subst h; simp [List.length_take]
      · exact ih _ _ h

theorem ceil_div_mul_ge (N K : ℕ) (hK : 0 < K) :
    N ≤ (N + K - 1) / K * K := by
  rcases Nat.eq_zero_or_pos N with h0 | h0
  · simp [h0]
  have h1 : (N + K - 1) % K < K := Nat.mod_lt _ hK
  have h2 : (N + K - 1) / K * K + (N + K - 1) % K = N + K - 1 :=
    Nat.div_add_mod' (N + K - 1) K
  omega

/-- The JS `Math.ceil(N / K)` for natural `N` and positive `K` equals the
natural-number formula `(N + K - 1) / K` used throughout. -/
theorem ceil_div_eq_rat_ceil (N K : ℕ) (hK : 0 < K) :
    ((N + K - 1) / K : ℕ) = ⌈(N : ℚ) / (K : ℚ)⌉ := by
  have hKQ : (0 : ℚ) < (K : ℚ) := by exact_mod_cast hK
  rw [eq_comm, Int.ceil_eq_iff]
  refine ⟨?_, ?_⟩
  · rw [lt_div_iff₀ hKQ, Int.cast_natCast]
    have hql : (N + K - 1) / K * K ≤ N + K - 1 := Nat.div_mul_le_self _ _
    have h2 : ((N + K - 1) / K * K : ℕ) < N + K := by omega
    have h3 : (((N + K - 1) / K : ℕ) : ℚ) * K < (N : ℚ) + K := by
      exact_mod_cast h2
    nlinarith
  · rw [div_le_iff₀ hKQ, Int.cast_natCast]
    have := ceil_div_mul_ge N K hK
    exact_mod_cast this

theorem batchChunks_length {α : Type} (K : ℕ) (l : List α) :
    (batchChunks K l).length = (l.length + K - 1) / K := by
  simp [batchChunks, chunksGo_length]

theorem batchChunks_join {α : Type} (K : ℕ) (hK : 0 < K) (l : List α) :
    (batchChunks K l).flatten = l :=
  chunksGo_join K _ l (by simpa [Nat.mul_comm] using ceil_div_mul_ge l.length K hK)

theorem batchChunks_size {α : Type} (K : ℕ) (l : List α) :
    ∀ c ∈ batchChunks K l, c.length ≤ K := fun c hc =>
  chunksGo_size K _ l c hc

theorem warehouseTrucks_items (nodes : List Node) (edges : List Edge)
    (wid : String) (l : List (Product × SimulatedOrder)) :
    (warehouseTrucks nodes edges wid l).map TruckRoute.items
      = batchChunks TRUCK_CAPACITY l := by
  have h : ∀ (cl : List (List (Product × SimulatedOrder))),
      cl.enum.map (fun p => p.2) = cl := by
    intro cl
    simp [List.enum_map_snd cl]
  simp only [warehouseTrucks, List.map_map]
  exact h _

/-- **C4**: in the warehouse-batched strategy, a warehouse with `N` pending
(order, item) pairs and truck capacity `K = TRUCK_CAPACITY` dispatches
exactly `⌈N/K⌉` trucks; the pending pairs are split into consecutive
chunks each of size at most `K`; and for `N = 12` the batch sizes are
`[10, 2]`. -/
theorem warehouseTrucks_batching (nodes : List Node) (edges : List Edge)
    (wid : String) (l : List (Product × SimulatedOrder)) :
    ((warehouseTrucks nodes edges wid l).length : ℤ)
        = ⌈(l.length : ℚ) / (TRUCK_CAPACITY : ℚ)⌉
    ∧ ((warehouseTrucks nodes edges wid l).map TruckRoute.items).flatten = l
    ∧ (∀ t ∈ warehouseTrucks nodes edges wid l,
        t.items.length ≤ TRUCK_CAPACITY)
    ∧ (l.length = 12 →
        (warehouseTrucks nodes edges wid l).map (fun t => t.items.length)
          = [10, 2]) := by
  have hK : 0 < TRUCK_CAPACITY := by norm_num [TRUCK_CAPACITY]
  have hitems := warehouseTrucks_items nodes edges wid l
  refine ⟨?_, ?_, ?_, ?_⟩
  · have hlen : (warehouseTrucks nodes edges wid l).length
        = (l.length + TRUCK_CAPACITY - 1) / TRUCK_CAPACITY := by
      have := congrArg List.length hitems
      simpa [batchChunks_length] using this
    rw [hlen, ceil_div_eq_rat_ceil _ _ hK]
  · rw [hitems]
    exact batchChunks_join _ hK l
  · intro t ht
    have : t.items ∈ batchChunks TRUCK_CAPACITY l := by
      rw [← hitems]
      exact List.mem_map_of_mem _ ht
    exact batchChunks_size _ l _ this
  · intro h12
    have : (warehouseTrucks nodes edges wid l).map (fun t => t.items.length)
        = (batchChunks TRUCK_CAPACITY l).map List.length := by
      rw [← hitems, List.map_map]
      rfl
    rw [this]
    have h2 : (l.length + TRUCK_CAPACITY - 1) / TRUCK_CAPACITY = 2 := by
      rw [h12]; rfl
    simp only [batchChunks, h2, chunksGo, List.map_cons, List.map_nil,
      List.length_take, List.length_drop, h12]
    rfl

/-- **C4 witness**: twelve pending pairs at one warehouse produce batch
sizes `[10, 2]`. -/
theorem warehouseTrucks_batching_witness :
    (warehouseTrucks [] [] "W"
        (List.replicate 12 (⟨"p", "p", "W"⟩, ⟨"o", "C", [], TimeWindow.any⟩))).map
        (fun t => t.items.length) = [10, 2] :=
  (warehouseTrucks_batching [] [] "W" _).2.2.2 (by simp)

/-- The closed form of the strategy total: `Σd * kmRate + #trucks *
fixedCost`. -/
theorem strategyTotalCost_closed (kmRate fixedCost : ℚ) (ds : List ℚ) :
    strategyTotalCost kmRate fixedCost ds
      = ds.sum * kmRate + ds.length * fixedCost := by
  induction ds with
  | nil => simp [strategyTotalCost]
  | cons d t ih =>
      simp only [strategyTotalCost, List.map_cons, List.sum_cons,
        List.length_cons] at *
      rw [ih]
      unfold truckCost
      push_cast
      ring

/-- **C7 counterexample**: with one dispatched truck of route distance 0,
raising the per-km rate from the deployed `3/2` to `5/2` leaves the
strategy total unchanged, so the total does not strictly increase in the
per-km rate. -/
theorem strategyCost_strict_cex :
    COST_PER_KM < 5 / 2
    ∧ strategyTotalCost COST_PER_KM COST_PER_TRUCK [0]
        = strategyTotalCost (5 / 2) COST_PER_TRUCK [0] := by
  constructor
  · norm_num [COST_PER_KM]
  · norm_num [strategyTotalCost, truckCost]

/-- **C7 (amended)**: with route distances and truck count held fixed, the
strategy total cost is monotone in the per-km rate and the fixed per-truck
cost; it increases strictly in the per-km rate whenever the total route
distance is positive, and strictly in the fixed cost whenever at least one
truck is dispatched. -/
theorem strategyCost_monotone (r1 r2 f1 f2 : ℚ) (ds : List ℚ) :
    (r1 < r2 → 0 < ds.sum →
      strategyTotalCost r1 f1 ds < strategyTotalCost r2 f1 ds)
    ∧ (f1 < f2 → ds ≠ [] →
      strategyTotalCost r1 f1 ds < strategyTotalCost r1 f2 ds)
    ∧ (r1 ≤ r2 → f1 ≤ f2 → (∀ d ∈ ds, 0 ≤ d) →
      strategyTotalCost r1 f1 ds ≤ strategyTotalCost r2 f2 ds) := by
  refine ⟨?_, ?_, ?_⟩
  · intro hr hs
    rw [strategyTotalCost_closed, strategyTotalCost_closed]
    nlinarith
  · intro hf hne
    rw [strategyTotalCost_closed, strategyTotalCost_closed]
    have hlen : 0 < (ds.length : ℚ) := by
      have : 0 < ds.length := List.length_pos.mpr hne
      exact_mod_cast this
    nlinarith
  · intro hr hf hd
    rw [strategyTotalCost_closed, strategyTotalCost_closed]
    have hsum : 0 ≤ ds.sum := List.sum_nonneg hd
    have hlen : 0 ≤ (ds.length : ℚ) := by positivity
    nlinarith

/-- **C7 witness**: a single truck with distance 4: the total strictly
increases from rate 3/2 to 5/2 and from fixed cost 50 to 60. -/
theorem strategyCost_monotone_witness :
    strategyTotalCost (3 / 2) 50 [4] < strategyTotalCost (5 / 2) 50 [4]
    ∧ strategyTotalCost (3 / 2) 50 [4] < strategyTotalCost (3 / 2) 60 [4] :=
  ⟨(strategyCost_monotone (3 / 2) (5 / 2) 50 50 [4]).1 (by norm_num)
      (by norm_num),
   (strategyCost_monotone (3 / 2) (3 / 2) 50 60 [4]).2.1 (by norm_num)
      (by simp)⟩

/-- **C9**: the tour constructor returns the trivial round trip
`{path: [depot, depot], distance: 0}` on an empty warehouse set and an
empty customer list, for every graph and depot. -/
theorem solveTsp_degenerate (nodes : List Node) (edges : List Edge)
    (depot : String) :
    solveTsp nodes edges depot [] [] = ([depot, depot], 0) := by
  simp [solveTsp]

/-- Summing a map is unchanged by dropping elements mapped to `0`. -/
theorem sum_map_filter_of_zero (l : List SplitShipment)
    (p : SplitShipment → Bool)
    (h : ∀ x ∈ l, p x = false → x.cost = 0) :
    (l.map SplitShipment.cost).sum =
      ((l.filter p).map SplitShipment.cost).sum := by
  induction l with
  | nil => rfl
  | cons a t ih =>
      have ht : ∀ x ∈ t, p x = false → x.cost = 0 := fun x hx =>
        h x (List.mem_cons_of_mem a hx)
      by_cases hp : p a
      · simp [List.filter_cons, hp, ih ht]
      · have : a.cost = 0 := h a (List.mem_cons_self a t) (by simpa using hp)
        simp [List.filter_cons, hp, this, ih ht]

theorem mkShipment_path_none (nodes : List Node) (edges : List Edge)
    (address : String) (g : String × List Product)
    (h : (mkShipment nodes edges address g).path = none) :
    (mkShipment nodes edges address g).cost = 0 := by
  simp only [mkShipment] at h ⊢
  rw [h]

/-- **C10**: in the direct-ship strategy, a shipment whose source
warehouse has no path to the order's destination has `path = none` and
contributes cost `0` (no fixed per-truck cost), and the order's total cost
is the sum over the shipments that do have a path. -/
theorem directShip_unreachable_zero_cost (nodes : List Node)
    (edges : List Edge) (o : SimulatedOrder) :
    (∀ s ∈ orderShipments nodes edges o, s.path = none → s.cost = 0)
    ∧ orderTotalCost nodes edges o
      = (((orderShipments nodes edges o).filter
          (fun s => s.path.isSome)).map SplitShipment.cost).sum := by
  constructor
  · intro s hs hnone
    rcases List.mem_map.mp hs with ⟨g, _, rfl⟩
    exact mkShipment_path_none _ _ _ _ hnone
  · unfold orderTotalCost
    refine sum_map_filter_of_zero _ _ ?_
    intro s hs hfalse
    rcases List.mem_map.mp hs with ⟨g, _, rfl⟩
    refine mkShipment_path_none _ _ _ _ ?_
    rcases h : (mkShipment nodes edges o.address g).path with _ | v
    · rfl
    · rw [h] at hfalse
      simp at hfalse

/-- **C10 witness**: the disconnected two-node graph: the single shipment
of the order has no path and cost 0. -/
theorem directShip_unreachable_zero_cost_witness :
    (mkShipment discNodes [] discOrder.address ("W", [⟨"p1", "p1", "W"⟩])).cost
      = 0 :=
  (directShip_unreachable_zero_cost discNodes [] discOrder).1
    (mkShipment discNodes [] discOrder.address ("W", [⟨"p1", "p1", "W"⟩]))
    (by simp [orderShipments, itemsByWarehouse, discOrder, objHas, objPush])
    (by decide)

/-- **C1 counterexample**: on the one-node graph whose identifier is the
empty string (falsy in JS), `dijkstra` returns the `null` NotFound value
for the pair (start = end = that node) although the node is trivially
reachable from itself with distance 0: the JS reconstruction loop
`while (current)` stops on the empty string. -/
theorem dijkstra_empty_id_cex :
    dijkstra emptyIdNodes [] "" "" = some none ∧ EWalk [] "" "" 0 :=
  ⟨by decide, EWalk.nil ""⟩

/-- **C5 counterexample**: with a start identifier absent from the node
set, `dijkstra` returns the `null` NotFound value; no `UnknownNode` hard
error exists in the code (the function is total and never throws). -/
theorem dijkstra_unknown_cex :
    dijkstra discNodes [] "ghost" "W" = some none
    ∧ "ghost" ∉ discNodes.map Node.id :=
  ⟨by decide, by decide⟩

unseal Nat.gcd Rat.add in
theorem solveTsp_line_eval :
    solveTsp lineNodes lineEdges "D" []
        [⟨"M", TimeWindow.morning⟩, ⟨"A", TimeWindow.afternoon⟩]
      = (["D", "A", "M", "A", "D"], ((4 : ℚ) : Dist)) := rfl

/-- **C3 counterexample**: on the line graph `D–A–M`, with `M` tagged
morning and `A` tagged afternoon, both reachable from the depot `D`, the
output path is `[D, A, M, A, D]`: the afternoon stop `A` occurs (as a
pass-through node of the spliced segment `D→A→M`) strictly before the
morning stop `M`, so the morning stop does not appear strictly before the
afternoon stop in the output path. -/
theorem solveTsp_passthrough_cex :
    (solveTsp lineNodes lineEdges "D" []
        [⟨"M", TimeWindow.morning⟩, ⟨"A", TimeWindow.afternoon⟩]).1
      = ["D", "A", "M", "A", "D"]
    ∧ EReach lineEdges "D" "M"
    ∧ EReach lineEdges "D" "A"
    ∧ List.indexOf "A"
        (solveTsp lineNodes lineEdges "D" []
          [⟨"M", TimeWindow.morning⟩, ⟨"A", TimeWindow.afternoon⟩]).1
      < List.indexOf "M"
        (solveTsp lineNodes lineEdges "D" []
          [⟨"M", TimeWindow.morning⟩, ⟨"A", TimeWindow.afternoon⟩]).1 := by
  have hpath : (solveTsp lineNodes lineEdges "D" []
      [⟨"M", TimeWindow.morning⟩, ⟨"A", TimeWindow.afternoon⟩]).1
      = ["D", "A", "M", "A", "D"] := by rw [solveTsp_line_eval]
  refine ⟨hpath, ⟨1 + (1 + 0), ?_⟩, ⟨1 + 0, ?_⟩, ?_⟩
  · exact EWalk.cons
      ⟨⟨"D", "A", 1, 5⟩, by simp [lineEdges], rfl, Or.inl ⟨rfl, rfl⟩⟩
      (EWalk.cons
        ⟨⟨"A", "M", 1, 5⟩, by simp [lineEdges], rfl, Or.inl ⟨rfl, rfl⟩⟩
        (EWalk.nil "M"))
  · exact EWalk.cons
      ⟨⟨"D", "A", 1, 5⟩, by simp [lineEdges], rfl, Or.inl ⟨rfl, rfl⟩⟩
      (EWalk.nil "A")
  · rw [hpath]
    decide

/-! ## Dijkstra invariant: derived facts -/

theorem mem_objSet {α : Type} {m : List (String × α)} {k : String} {v : α}
    {p : String × α} (h : p ∈ objSet m k v) :
    p = (k, v) ∨ (p ∈ m ∧ ¬ p.1 = k) := by
  unfold objSet at h
  by_cases hm : objHas m k = true
  · rw [if_pos hm] at h
    rcases List.mem_map.mp h with ⟨q, hq, hqe⟩
    by_cases hqk : q.1 = k
    · rw [if_pos hqk] at hqe
      exact Or.inl hqe.symm
    · rw [if_neg hqk] at hqe
      exact Or.inr ⟨hqe ▸ hq, hqe ▸ hqk⟩
  · rw [if_neg hm] at h
    rcases List.mem_append.mp h with h | h
    · right
      refine ⟨h, fun hk => ?_⟩
      rw [Bool.not_eq_true, ← Bool.not_eq_true, objHas_iff_mem] at hm
      exact hm (hk ▸ List.mem_map_of_mem Prod.fst h)
    · exact Or.inl (List.mem_singleton.mp h)

theorem dGet_objSet_self (st : List (String × Dist)) (k : String) (v : Dist) :
    (objGet (objSet st k v) k).getD ⊤ = v := by
  rw [objGet_objSet_self]
  rfl

theorem nodup_length_le {l l' : List String} (hnd : l.Nodup) (h : l ⊆ l') :
    l.length ≤ l'.length := by
  classical
  have h1 : l.toFinset.card = l.length := List.toFinset_card_of_nodup hnd
  have h2 : l.toFinset ⊆ l'.toFinset := by
    intro x hx
    rw [List.mem_toFinset] at *
    exact h hx
  have h3 : l'.toFinset.card ≤ l'.length := l'.toFinset_card_le
  have := Finset.card_le_card h2
  omega

namespace DInv

variable {nbrs : String → List (String × ℚ)} {startId : String}
variable {keys po : List String} {st : DState}

theorem dist_mem (hI : DInv nbrs startId keys po st) {k : String}
    (h : ¬ dGet st k = ⊤) : k ∈ keys := by
  by_contra hk
  rw [← hI.dk] at hk
  have := (objGet_eq_none st.dist k).mpr hk
  unfold dGet at h
  rw [this] at h
  exact h rfl

theorem dGet_nonneg {nkeys : List String} (hwf : NbrsWF nbrs nkeys)
    (hI : DInv nbrs startId keys po st) (k : String) :
    (0 : Dist) ≤ dGet st k := by
  rcases hd : dGet st k with _ | q
  · exact le_top
  · have := hI.realiz k q hd
    have h0 : (0 : ℚ) ≤ q := nwalk_nonneg hwf this
    exact WithTop.coe_le_coe.mpr h0

theorem lb_aux (hI : DInv nbrs startId keys po st) :
    ∀ {a y : String} {d : ℚ}, WalkIn nbrs po a y d →
      dGet st y ≤ dGet st a + (d : Dist) := by
  intro a y d h
  induction h with
  | nil => simp
  | @cons a' b' c' w' d' ha hstep _ ih =>
      have h1 : dGet st b' ≤ dGet st a' + (w' : Dist) :=
        hI.rel a' ha (b', w') hstep
      calc dGet st c' ≤ dGet st b' + (d' : Dist) := ih
        _ ≤ dGet st a' + (w' : Dist) + (d' : Dist) := add_le_add_right h1 _
        _ = dGet st a' + ((w' + d' : ℚ) : Dist) := by
              rw [add_assoc]
              norm_cast

theorem lb (hI : DInv nbrs startId keys po st) {y : String} {d : ℚ}
    (h : WalkIn nbrs po startId y d) : dGet st y ≤ (d : Dist) := by
  have := hI.lb_aux h
  rwa [hI.dstart, zero_add] at this

theorem min_mem (hI : DInv nbrs startId keys po st) (h : ¬ st.pq = []) :
    jsMinKey st.pq ∈ st.pq.map Prod.fst := by
  rcases jsMinKey_spec st.pq h with ⟨p, hp, hpk, _⟩
  exact hpk ▸ List.mem_map_of_mem Prod.fst hp

theorem min_le (hI : DInv nbrs startId keys po st) (h : ¬ st.pq = []) :
    ∀ y ∈ st.pq.map Prod.fst, dGet st (jsMinKey st.pq) ≤ dGet st y := by
  rcases jsMinKey_spec st.pq h with ⟨p, hp, hpk, hmin⟩
  intro y hy
  rcases List.mem_map.mp hy with ⟨q, hq, rfl⟩
  have h1 : dGet st (jsMinKey st.pq) = p.2 := by
    rw [← hpk]
    unfold dGet
    rw [hI.qv p hp]
    rfl
  have h2 : dGet st q.1 = q.2 := by
    unfold dGet
    rw [hI.qv q hq]
    rfl
  rw [h1, h2]
  exact hmin q hq

/-- The distance of the key about to be popped is already optimal: no walk
from the start reaches it more cheaply. -/
theorem pop_opt {nkeys : List String} (hwf : NbrsWF nbrs nkeys)
    (hsub : ∀ x ∈ nkeys, x ∈ keys)
    (hI : DInv nbrs startId keys po st) (h : ¬ st.pq = []) {d : ℚ}
    (hw : NWalk nbrs startId (jsMinKey st.pq) d) :
    dGet st (jsMinKey st.pq) ≤ (d : Dist) := by
  have humem := hI.min_mem h
  have hupo : jsMinKey st.pq ∉ po := ((hI.qk _).mp humem).2
  rcases first_exit hwf po hw hupo with ⟨z, dz, hz, hwalk, hle⟩
  have hzkeys : z ∈ keys := by
    rcases walkIn_end_mem hwf hwalk with rfl | hmem
    · exact hI.start_mem
    · exact hsub z hmem
  have hzpq : z ∈ st.pq.map Prod.fst := (hI.qk z).mpr ⟨hzkeys, hz⟩
  calc dGet st (jsMinKey st.pq) ≤ dGet st z := hI.min_le h z hzpq
    _ ≤ (dz : Dist) := hI.lb hwalk
    _ ≤ (d : Dist) := by exact_mod_cast hle

/-- If the popped key has infinite distance, every unpopped key is
unreachable from the start. -/
theorem pop_top_unreach {nkeys : List String} (hwf : NbrsWF nbrs nkeys)
    (hsub : ∀ x ∈ nkeys, x ∈ keys)
    (hI : DInv nbrs startId keys po st) (h : ¬ st.pq = [])
    (htop : dGet st (jsMinKey st.pq) = ⊤) {t : String}
    (ht : t ∉ po) : ¬ NReach nbrs startId t := by
  rintro ⟨d, hw⟩
  rcases first_exit hwf po hw ht with ⟨z, dz, hz, hwalk, _⟩
  have hzkeys : z ∈ keys := by
    rcases walkIn_end_mem hwf hwalk with rfl | hmem
    · exact hI.start_mem
    · exact hsub z hmem
  have hzpq : z ∈ st.pq.map Prod.fst := (hI.qk z).mpr ⟨hzkeys, hz⟩
  have h1 : dGet st (jsMinKey st.pq) ≤ dGet st z := hI.min_le h z hzpq
  have h2 : dGet st z ≤ (dz : Dist) := hI.lb hwalk
  rw [htop] at h1
  have h3 : dGet st z = ⊤ := top_le_iff.mp h1
  rw [h3] at h2
  exact absurd (top_le_iff.mp h2) (by simp)

end DInv

/-! ## Invariant maintenance through one pop-and-relax iteration -/

theorem dGet_mem_of_ne_top {st : DState} {keys : List String}
    (hdk : st.dist.map Prod.fst = keys) {k : String}
    (h : ¬ dGet st k = ⊤) : k ∈ keys := by
  by_contra hk
  rw [← hdk] at hk
  have := (objGet_eq_none st.dist k).mpr hk
  unfold dGet at h
  rw [this] at h
  exact h rfl

theorem mem_split_last :
    ∀ (l : List String) (v k : String), l.getLast? = some k → v ∈ l →
      v ∈ l.dropLast ∨ v = k := by
  intro l
  induction l with
  | nil => intro v k _ hv; simp at hv
  | cons a t ih =>
      intro v k hlast hv
      rcases t with _ | ⟨b, t'⟩
      · simp at hlast
        simp at hv
        right
        rw [hv, hlast]
      · rw [List.getLast?_cons_cons] at hlast
        rcases List.mem_cons.mp hv with rfl | hv'
        · left
          rw [List.dropLast_cons₂]
          exact List.mem_cons_self _ _
        · rcases ih v k hlast hv' with h | h
          · left
            rw [List.dropLast_cons₂]
            exact List.mem_cons_of_mem _ h
          · right
            exact h

theorem relaxUpd_dGet_self (st : DState) (y : String) (alt : Dist)
    (u : String) :
    dGet (DState.mk (objSet st.dist y alt) (objSet st.prev y (some u))
      (objSet st.pq y alt)) y = alt := by
  show (objGet (objSet st.dist y alt) y).getD ⊤ = alt
  rw [objGet_objSet_self]
  rfl

theorem relaxUpd_dGet_ne (st : DState) (y : String) (alt : Dist)
    (u : String) {k : String} (hk : ¬ k = y) :
    dGet (DState.mk (objSet st.dist y alt) (objSet st.prev y (some u))
      (objSet st.pq y alt)) k = dGet st k := by
  show (objGet (objSet st.dist y alt) k).getD ⊤ = _
  rw [objGet_objSet_ne _ _ _ _ hk]
  rfl

theorem relaxUpd_pGet_self (st : DState) (y : String) (alt : Dist)
    (u : String) :
    pGet (DState.mk (objSet st.dist y alt) (objSet st.prev y (some u))
      (objSet st.pq y alt)) y = some u := by
  show (objGet (objSet st.prev y (some u)) y).getD none = some u
  rw [objGet_objSet_self]
  rfl

theorem relaxUpd_pGet_ne (st : DState) (y : String) (alt : Dist)
    (u : String) {k : String} (hk : ¬ k = y) :
    pGet (DState.mk (objSet st.dist y alt) (objSet st.prev y (some u))
      (objSet st.pq y alt)) k = pGet st k := by
  show (objGet (objSet st.prev y (some u)) k).getD none = _
  rw [objGet_objSet_ne _ _ _ _ hk]
  rfl

theorem relaxStep_dec (u : String) (st : DState) (nb : String × ℚ)
    (k : String) : dGet (relaxStep u st nb) k ≤ dGet st k := by
  unfold relaxStep
  by_cases hupd : dGet st u + (nb.2 : Dist) < dGet st nb.1
  · rw [if_pos hupd]
    by_cases hk : k = nb.1
    · rw [hk]
      rw [relaxUpd_dGet_self st nb.1 (dGet st u + (nb.2 : Dist)) u]
      exact le_of_lt hupd
    · rw [relaxUpd_dGet_ne st nb.1 (dGet st u + (nb.2 : Dist)) u hk]
  · rw [if_neg hupd]

theorem relaxFold_dec (u : String) :
    ∀ (rest : List (String × ℚ)) (st : DState) (k : String),
      dGet (rest.foldl (relaxStep u) st) k ≤ dGet st k := by
  intro rest
  induction rest with
  | nil => intro st k; exact le_refl _
  | cons nb rest' ih =>
      intro st k
      calc dGet (rest'.foldl (relaxStep u) (relaxStep u st nb)) k
          ≤ dGet (relaxStep u st nb) k := ih _ k
        _ ≤ dGet st k := relaxStep_dec u st nb k

theorem rinv_step {nbrs : String → List (String × ℚ)} {startId : String}
    {keys po : List String} {u : String} {du : Dist} {st0 st : DState}
    (hwf : NbrsWF nbrs keys)
    (hkeys_ne : "" ∉ keys)
    (hq0 : ∀ k, k ∈ st0.pq.map Prod.fst ↔ (k ∈ keys ∧ k ∉ po ++ [u]))
    (hq0nd : (st0.pq.map Prod.fst).Nodup)
    (hpomin0 : ∀ x ∈ po ++ [u], dGet st0 x ≤ du)
    (hdu0 : dGet st0 u = du)
    (hI : RInv nbrs startId keys po u du st0 st)
    (nb : String × ℚ) (hnb : nb ∈ nbrs u) :
    RInv nbrs startId keys po u du st0 (relaxStep u st nb)
    ∧ dGet (relaxStep u st nb) nb.1 ≤ du + (nb.2 : Dist) := by
  obtain ⟨y, w⟩ := nb
  have hyk : y ∈ keys := hwf.closed u (y, w) hnb
  have hw0 : (0 : ℚ) ≤ w := hwf.nonneg u (y, w) hnb
  have hwD : (0 : Dist) ≤ (w : Dist) := WithTop.coe_le_coe.mpr hw0
  have humem : u ∈ po ++ [u] := by simp
  have hdu_eq : dGet st u = du := by
    rw [hI.frozen u humem, hdu0]
  unfold relaxStep
  dsimp only
  rw [hdu_eq]
  by_cases hupd : du + (w : Dist) < dGet st y
  swap
  · rw [if_neg hupd]
    exact ⟨hI, not_lt.mp hupd⟩
  rw [if_pos hupd]
  have hdu_ne : ¬ du = ⊤ := by
    intro h
    rw [h, top_add] at hupd
    exact absurd hupd not_top_lt
  obtain ⟨qu, hqu⟩ : ∃ qu : ℚ, du = (qu : Dist) := by
    rcases du with _ | qu
    · exact absurd rfl hdu_ne
    · exact ⟨qu, rfl⟩
  have halt : du + (w : Dist) = ((qu + w : ℚ) : Dist) := by
    rw [hqu]
    norm_cast
  have hwalku : NWalk nbrs startId u qu := by
    refine hI.realiz u qu ?_
    rw [hdu_eq, hqu]
  have hqu0 : (0 : ℚ) ≤ qu := nwalk_nonneg hwf hwalku
  have hy_start : ¬ y = startId := by
    rintro rfl
    rw [hI.dstart, halt] at hupd
    have : qu + w < 0 := by exact_mod_cast hupd
    linarith
  have hy_po : y ∉ po ++ [u] := by
    intro hy
    have h1 : dGet st y = dGet st0 y := hI.frozen y hy
    have h2 : dGet st0 y ≤ du := hpomin0 y hy
    have h3 : du ≤ du + (w : Dist) := le_add_of_nonneg_right hwD
    rw [h1] at hupd
    exact absurd hupd (not_lt.mpr (le_trans h2 h3))
  have hy_ne_u : ¬ y = u := fun h => hy_po (h ▸ humem)
  have hy_ne : ¬ y = "" := fun h => hkeys_ne (h ▸ hyk)
  have hy_pq : y ∈ st.pq.map Prod.fst := by
    rw [hI.qk]
    exact (hq0 y).mpr ⟨hyk, hy_po⟩
  have hy_dk : y ∈ st.dist.map Prod.fst := by rw [hI.dk]; exact hyk
  have hy_pk : y ∈ st.prev.map Prod.fst := by rw [hI.pk]; exact hyk
  -- distance and prev reads in the new state
  have hdist' := fun {k} (hk : ¬ k = y) =>
    relaxUpd_dGet_ne st y (du + (w : Dist)) u hk
  have hdisty := relaxUpd_dGet_self st y (du + (w : Dist)) u
  have hprev' := fun {k} (hk : ¬ k = y) =>
    relaxUpd_pGet_ne st y (du + (w : Dist)) u hk
  have hprevy := relaxUpd_pGet_self st y (du + (w : Dist)) u
  have hprevstable : ∀ v, ¬ v = y →
      objGet (objSet st.prev y (some u)) v = objGet st.prev v := by
    intro v hv
    exact objGet_objSet_ne _ _ _ _ hv
  refine ⟨⟨?_, ?_, ?_, ?_, ?_, ?_, ?_, ?_, ?_, ?_, ?_, ?_⟩, ?_⟩
  · -- dk
    show (objSet st.dist y _).map Prod.fst = keys
    rw [objSet_keys_of_mem _ _ _ hy_dk, hI.dk]
  · -- pk
    show (objSet st.prev y _).map Prod.fst = keys
    rw [objSet_keys_of_mem _ _ _ hy_pk, hI.pk]
  · -- qk
    show (objSet st.pq y _).map Prod.fst = st0.pq.map Prod.fst
    rw [objSet_keys_of_mem _ _ _ hy_pq, hI.qk]
  · -- qv
    intro p hp
    rcases mem_objSet hp with rfl | ⟨hpmem, hpne⟩
    · show objGet (objSet st.dist y _) y = _
      rw [objGet_objSet_self]
    · show objGet (objSet st.dist y _) p.1 = some p.2
      rw [objGet_objSet_ne _ _ _ _ hpne]
      exact hI.qv p hpmem
  · -- dec
    intro k
    by_cases hk : k = y
    · rw [hk, hdisty]
      exact le_trans (le_of_lt hupd) (hI.dec y)
    · rw [hdist' hk]
      exact hI.dec k
  · -- low
    intro k
    by_cases hk : k = y
    · rw [hk, hdisty]
      exact Or.inr (le_add_of_nonneg_right hwD)
    · rw [hdist' hk]
      exact hI.low k
  · -- frozen
    intro x hx
    rw [hdist' (fun h => hy_po (h ▸ hx))]
    exact hI.frozen x hx
  · -- dstart
    rw [hdist' (fun h => hy_start h.symm)]
    exact hI.dstart
  · -- realiz
    intro k q hk
    by_cases hky : k = y
    · rw [hky, hdisty, halt] at hk
      have hqe : qu + w = q := by exact_mod_cast hk
      rw [hky, ← hqe]
      exact nwalk_snoc hwalku hnb
    · rw [hdist' hky] at hk
      exact hI.realiz k q hk
  · -- prev_fin
    intro k u' hk
    by_cases hky : k = y
    · rw [hky, hprevy] at hk
      cases hk
      rw [hky]
      refine ⟨?_, humem⟩
      rw [hdisty, halt]
      simp
    · rw [hprev' hky] at hk
      rcases hI.prev_fin k u' hk with ⟨h1, h2⟩
      refine ⟨?_, h2⟩
      rwa [hdist' hky]
  · -- chain
    intro k hk
    by_cases hky : k = y
    · rw [hky]
      rcases hI.uchain hdu_ne with
        ⟨lu, hlu, hluh, hlufin, hluelem, _, hlund⟩
      have hynotlu : y ∉ lu := fun h => hy_po (hluelem y h)
      have hlustable : chainTo (objSet st.prev y (some u))
          (po.length + 1) u = some lu :=
        chainTo_stable _ _ _ _ _ hlu
          (fun v hv => hprevstable v (fun he => hynotlu (he ▸ hv)))
      refine ⟨lu ++ [y], ?_, ?_, ?_, ?_, ?_⟩
      · show chainTo (objSet st.prev y (some u)) (po.length + 1 + 1) y = _
        rw [chainTo, if_neg hy_ne]
        have hg : (objGet (objSet st.prev y (some u)) y).getD none
            = some u := by
          rw [objGet_objSet_self]
          rfl
        rw [hg]
        show Option.map (fun x => x ++ [y])
          (chainTo (objSet st.prev y (some u)) (po.length + 1) u)
          = some (lu ++ [y])
        rw [hlustable]
        rfl
      · have hlu_ne : ¬ lu = [] := by
          intro h
          rw [h] at hluh
          simp at hluh
        rw [List.head?_append_of_ne_nil _ hlu_ne]
        exact hluh
      · intro v hv
        rcases List.mem_append.mp hv with hv | hv
        · rw [hdist' (fun he => hynotlu (he ▸ hv))]
          exact hlufin v hv
        · rw [List.mem_singleton.mp hv, hdisty, halt]
          simp
      · rw [List.dropLast_concat]
        exact hluelem
      · rw [List.nodup_append]
        refine ⟨hlund, List.nodup_singleton _, ?_⟩
        intro a ha hb
        rw [List.mem_singleton.mp hb] at ha
        exact hynotlu ha
    · rw [hdist' hky] at hk
      rcases hI.chain k hk with ⟨l, hl, hlh, hlfin, hldrop, hlnd⟩
      have hk_keys : k ∈ keys := dGet_mem_of_ne_top hI.dk hk
      have hk_ne : ¬ k = "" := fun h => hkeys_ne (h ▸ hk_keys)
      have hllast : l.getLast? = some k := chainTo_getLast _ _ _ _ hl hk_ne
      have hstable : ∀ v ∈ l, ¬ v = y := by
        intro v hv
        rcases mem_split_last l v k hllast hv with hvd | rfl
        · exact fun he => hy_po (he ▸ hldrop v hvd)
        · exact hky
      refine ⟨l, chainTo_stable _ _ _ _ _ hl
        (fun v hv => hprevstable v (hstable v hv)), hlh, ?_, hldrop, hlnd⟩
      intro v hv
      rw [hdist' (hstable v hv)]
      exact hlfin v hv
  · -- uchain
    intro hdu
    rcases hI.uchain hdu with ⟨lu, hlu, hluh, hlufin, hluelem, hludrop, hlund⟩
    have hynotlu : y ∉ lu := fun h => hy_po (hluelem y h)
    refine ⟨lu, chainTo_stable _ _ _ _ _ hlu
      (fun v hv => hprevstable v (fun he => hynotlu (he ▸ hv))),
      hluh, ?_, hluelem, hludrop, hlund⟩
    intro v hv
    rw [hdist' (fun he => hynotlu (he ▸ hv))]
    exact hlufin v hv
  · -- the relaxedness bound for this neighbor
    rw [hdisty]

theorem rinv_fold {nbrs : String → List (String × ℚ)} {startId : String}
    {keys po : List String} {u : String} {du : Dist} {st0 : DState}
    (hwf : NbrsWF nbrs keys)
    (hkeys_ne : "" ∉ keys)
    (hq0 : ∀ k, k ∈ st0.pq.map Prod.fst ↔ (k ∈ keys ∧ k ∉ po ++ [u]))
    (hq0nd : (st0.pq.map Prod.fst).Nodup)
    (hpomin0 : ∀ x ∈ po ++ [u], dGet st0 x ≤ du)
    (hdu0 : dGet st0 u = du) :
    ∀ (nbl : List (String × ℚ)) (st : DState),
      (∀ nb ∈ nbl, nb ∈ nbrs u) →
      RInv nbrs startId keys po u du st0 st →
      RInv nbrs startId keys po u du st0 (nbl.foldl (relaxStep u) st)
      ∧ ∀ nb ∈ nbl,
          dGet (nbl.foldl (relaxStep u) st) nb.1 ≤ du + (nb.2 : Dist) := by
  intro nbl
  induction nbl with
  | nil =>
    intro st _ hI
    exact ⟨hI, by intro nb h; cases h⟩
  | cons nb rest ih =>
    intro st hmem hI
    simp only [List.foldl_cons]
    have hnb : nb ∈ nbrs u := hmem nb (List.mem_cons_self _ _)
    obtain ⟨hI1, hb1⟩ :=
      rinv_step hwf hkeys_ne hq0 hq0nd hpomin0 hdu0 hI nb hnb
    obtain ⟨hI2, hb2⟩ := ih (relaxStep u st nb)
      (fun p hp => hmem p (List.mem_cons_of_mem _ hp)) hI1
    refine ⟨hI2, ?_⟩
    intro p hp
    rcases List.mem_cons.mp hp with rfl | hp'
    · exact le_trans (relaxFold_dec u rest (relaxStep u st p) p.1) hb1
    · exact hb2 p hp'

theorem dinv_step {nbrs : String → List (String × ℚ)} {startId : String}
    {keys po : List String} {st : DState} {u : String}
    (hwf : NbrsWF nbrs keys)
    (hI : DInv nbrs startId keys po st) (hne : ¬ st.pq = [])
    (hu : u = jsMinKey st.pq) :
    DInv nbrs startId keys (po ++ [u])
      (relaxAll nbrs u (DState.mk st.dist st.prev (objDel st.pq u)))
    ∧ (relaxAll nbrs u
        (DState.mk st.dist st.prev (objDel st.pq u))).pq.map Prod.fst
      = (objDel st.pq u).map Prod.fst := by
  have humem_pq : u ∈ st.pq.map Prod.fst := by
    rw [hu]
    exact hI.min_mem hne
  have hukeys : u ∈ keys := ((hI.qk u).mp humem_pq).1
  have hupo : u ∉ po := ((hI.qk u).mp humem_pq).2
  have hu_ne : ¬ u = "" := fun h => hI.keys_ne (h ▸ hukeys)
  have humem2 : u ∈ po ++ [u] := by simp
  have hq0 : ∀ k,
      k ∈ (DState.mk st.dist st.prev (objDel st.pq u)).pq.map Prod.fst
        ↔ (k ∈ keys ∧ k ∉ po ++ [u]) := by
    intro k
    show k ∈ (objDel st.pq u).map Prod.fst ↔ _
    rw [objDel_keys, List.mem_filter]
    constructor
    · rintro ⟨hk, hkd⟩
      have hkne : ¬ k = u := by simpa using hkd
      have h2 := (hI.qk k).mp hk
      refine ⟨h2.1, ?_⟩
      intro hmem
      rcases List.mem_append.mp hmem with h | h
      · exact h2.2 h
      · exact hkne (List.mem_singleton.mp h)
    · rintro ⟨hk1, hk2⟩
      have hknp : k ∉ po := fun h => hk2 (List.mem_append.mpr (Or.inl h))
      have hkne : ¬ k = u := fun h => hk2 (List.mem_append.mpr (Or.inr (by
        rw [h]
        exact List.mem_singleton_self u)))
      exact ⟨(hI.qk k).mpr ⟨hk1, hknp⟩, by simpa using hkne⟩
  have hq0nd :
      ((DState.mk st.dist st.prev (objDel st.pq u)).pq.map Prod.fst).Nodup := by
    show ((objDel st.pq u).map Prod.fst).Nodup
    rw [objDel_keys]
    exact hI.q_nd.filter _
  have hpomin0 : ∀ x ∈ po ++ [u],
      dGet (DState.mk st.dist st.prev (objDel st.pq u)) x ≤ dGet st u := by
    intro x hx
    rcases List.mem_append.mp hx with h | h
    · exact hI.pomin x h u humem_pq
    · rw [List.mem_singleton.mp h]
      exact le_refl _
  have hR0 : RInv nbrs startId keys po u (dGet st u)
      (DState.mk st.dist st.prev (objDel st.pq u))
      (DState.mk st.dist st.prev (objDel st.pq u)) := by
    refine ⟨hI.dk, hI.pk, rfl, ?_, fun k => le_refl _, fun k => Or.inl rfl,
      fun x _ => rfl, hI.dstart, hI.realiz, ?_, ?_, ?_⟩
    · intro p hp
      exact hI.qv p (List.mem_of_mem_filter hp)
    · intro k u' hk
      rcases hI.prev_fin k u' hk with ⟨h1, h2⟩
      exact ⟨h1, List.mem_append.mpr (Or.inl h2)⟩
    · intro k hk
      rcases hI.chain k hk with ⟨l, hl, hlh, hlfin, hldrop, hlnd⟩
      exact ⟨l, chainTo_mono _ _ _ _ _ hl (by omega), hlh, hlfin,
        fun v hv => List.mem_append.mpr (Or.inl (hldrop v hv)), hlnd⟩
    · intro hdu
      rcases hI.chain u hdu with ⟨l, hl, hlh, hlfin, hldrop, hlnd⟩
      have hlast : l.getLast? = some u := chainTo_getLast _ _ _ _ hl hu_ne
      refine ⟨l, hl, hlh, hlfin, ?_, hldrop, hlnd⟩
      intro v hv
      rcases mem_split_last l v u hlast hv with h | rfl
      · exact List.mem_append.mpr (Or.inl (hldrop v h))
      · exact humem2
  obtain ⟨hR, hbnds⟩ := rinv_fold hwf hI.keys_ne hq0 hq0nd hpomin0 rfl
    (nbrs u) (DState.mk st.dist st.prev (objDel st.pq u))
    (fun nb hnb => hnb) hR0
  show DInv nbrs startId keys (po ++ [u])
      ((nbrs u).foldl (relaxStep u)
        (DState.mk st.dist st.prev (objDel st.pq u)))
    ∧ ((nbrs u).foldl (relaxStep u)
        (DState.mk st.dist st.prev (objDel st.pq u))).pq.map Prod.fst
      = (objDel st.pq u).map Prod.fst
  refine ⟨⟨hI.keys_nd, hI.keys_ne, hI.start_mem, hR.dk, hR.pk, ?_, ?_, hR.qv,
    ?_, ?_, hR.dstart, hR.realiz, hR.prev_fin, ?_, ?_, ?_⟩, hR.qk⟩
  · -- qk
    intro k
    rw [hR.qk]
    exact hq0 k
  · -- q_nd
    rw [hR.qk]
    exact hq0nd
  · -- po_nd
    rw [List.nodup_append]
    refine ⟨hI.po_nd, List.nodup_singleton _, ?_⟩
    intro a ha hb
    exact hupo ((List.mem_singleton.mp hb) ▸ ha)
  · -- po_sub
    intro x hx
    rcases List.mem_append.mp hx with h | h
    · exact hI.po_sub x h
    · rw [List.mem_singleton.mp h]
      exact hukeys
  · -- chain
    intro k hk
    rcases hR.chain k hk with ⟨l, hl, hlh, hlfin, hldrop, hlnd⟩
    refine ⟨l, ?_, hlh, hlfin, hldrop, hlnd⟩
    have hlen : (po ++ [u]).length + 1 = po.length + 2 := by
      simp
    rw [hlen]
    exact hl
  · -- rel
    intro x hx p hp
    rcases List.mem_append.mp hx with h | h
    · have h1 := hR.dec p.1
      have h2 := hI.rel x h p hp
      have h3 := le_trans h1 h2
      have hfr := hR.frozen x (List.mem_append.mpr (Or.inl h))
      rw [hfr]
      exact h3
    · have hxu : x = u := List.mem_singleton.mp h
      subst hxu
      have hfr := hR.frozen x humem2
      rw [hfr]
      exact hbnds p hp
  · -- pomin
    intro x hx y hy
    rw [hR.qk] at hy
    have hy' := (hq0 y).mp hy
    have hypq : y ∈ st.pq.map Prod.fst := (hI.qk y).mpr
      ⟨hy'.1, fun h => hy'.2 (List.mem_append.mpr (Or.inl h))⟩
    have hfr := hR.frozen x hx
    have hxle := hpomin0 x hx
    rcases hR.low y with hl | hl
    · have hxy : dGet st x ≤ dGet st y := by
        rcases List.mem_append.mp hx with h | h
        · exact hI.pomin x h y hypq
        · rw [List.mem_singleton.mp h, hu]
          exact hI.min_le hne y hypq
      rw [hfr, hl]
      exact hxy
    · rw [hfr]
      exact le_trans hxle hl

/-! ## Initialization lemmas -/

theorem foldl_objSet_get {α : Type} (v0 : α) :
    ∀ (ks : List String) (m : List (String × α)) (k : String),
      objGet (ks.foldl (fun m' x => objSet m' x v0) m) k
        = if k ∈ ks then some v0 else objGet m k := by
  intro ks
  induction ks with
  | nil =>
    intro m k
    rw [List.foldl_nil, if_neg (List.not_mem_nil k)]
  | cons x t ih =>
    intro m k
    rw [List.foldl_cons, ih]
    by_cases hkt : k ∈ t
    · rw [if_pos hkt, if_pos (List.mem_cons_of_mem _ hkt)]
    · rw [if_neg hkt]
      by_cases hkx : k = x
      · rw [hkx, objGet_objSet_self, if_pos (List.mem_cons_self _ _)]
      · have hnotin : k ∉ x :: t := by
          intro hmem
          rcases List.mem_cons.mp hmem with h | h
          · exact hkx h
          · exact hkt h
        rw [objGet_objSet_ne m x k v0 hkx, if_neg hnotin]

theorem foldl_objSet_keys {α : Type} (v0 : α) :
    ∀ (ks : List String) (m : List (String × α)), ks.Nodup →
      (∀ x ∈ ks, x ∉ m.map Prod.fst) →
      (ks.foldl (fun m' x => objSet m' x v0) m).map Prod.fst
        = m.map Prod.fst ++ ks := by
  intro ks
  induction ks with
  | nil =>
    intro m _ _
    rw [List.foldl_nil, List.append_nil]
  | cons x t ih =>
    intro m hnd hdisj
    rw [List.foldl_cons]
    have hx : x ∉ m.map Prod.fst := hdisj x (List.mem_cons_self _ _)
    have h1 : (objSet m x v0).map Prod.fst = m.map Prod.fst ++ [x] :=
      objSet_keys_of_not_mem m x v0 hx
    have hdisj' : ∀ y ∈ t, y ∉ (objSet m x v0).map Prod.fst := by
      intro y hy
      rw [h1]
      intro hmem
      rcases List.mem_append.mp hmem with h | h
      · exact hdisj y (List.mem_cons_of_mem _ hy) h
      · exact (List.nodup_cons.mp hnd).1 (List.mem_singleton.mp h ▸ hy)
    rw [ih (objSet m x v0) (List.nodup_cons.mp hnd).2 hdisj', h1,
      List.append_assoc]
    rfl

theorem foldl_objSet_mem {α : Type} (v0 : α) :
    ∀ (ks : List String) (m : List (String × α)) (p : String × α),
      p ∈ ks.foldl (fun m' x => objSet m' x v0) m →
      p ∈ m ∨ p.2 = v0 := by
  intro ks
  induction ks with
  | nil =>
    intro m p hp
    exact Or.inl hp
  | cons x t ih =>
    intro m p hp
    rw [List.foldl_cons] at hp
    rcases ih (objSet m x v0) p hp with h | h
    · rcases mem_objSet h with rfl | ⟨h1, _⟩
      · exact Or.inr rfl
      · exact Or.inl h1
    · exact Or.inr h

theorem nodes_foldl_objSet_get {α : Type} (v0 : α) (nodes : List Node)
    (k : String) :
    objGet (nodes.foldl (fun m n => objSet m n.id v0) []) k
      = if k ∈ nodes.map Node.id then some v0 else none := by
  have h := foldl_objSet_get v0 (nodes.map Node.id) [] k
  rw [List.foldl_map] at h
  rw [h]
  by_cases hk : k ∈ nodes.map Node.id
  · rw [if_pos hk, if_pos hk]
  · rw [if_neg hk, if_neg hk]
    rfl

theorem nodes_foldl_objSet_keys {α : Type} (v0 : α) (nodes : List Node)
    (hnd : (nodes.map Node.id).Nodup) :
    (nodes.foldl (fun m n => objSet m n.id v0) []).map Prod.fst
      = nodes.map Node.id := by
  have h := foldl_objSet_keys v0 (nodes.map Node.id) [] hnd
    (fun x _ => List.not_mem_nil x)
  rw [List.foldl_map] at h
  rw [h]
  rfl

theorem nodes_foldl_objSet_val {α : Type} (v0 : α) (nodes : List Node)
    (p : String × α)
    (hp : p ∈ nodes.foldl (fun m n => objSet m n.id v0) []) : p.2 = v0 := by
  have h := foldl_objSet_mem v0 (nodes.map Node.id) [] p
  rw [List.foldl_map] at h
  rcases h hp with h | h
  · exact absurd h (List.not_mem_nil p)
  · exact h

/-- The initial state of both Dijkstra variants satisfies the loop
invariant with an empty popped list, for any adjacency function. -/
theorem dinv_init {nodes : List Node} {nbrs : String → List (String × ℚ)}
    {startId : String}
    (hnd : (nodes.map Node.id).Nodup)
    (hne : "" ∉ nodes.map Node.id)
    (hmem : startId ∈ nodes.map Node.id) :
    DInv nbrs startId (nodes.map Node.id) [] (dijkstraInit nodes startId) := by
  have hdk0 : (fspInit nodes).dist.map Prod.fst = nodes.map Node.id :=
    nodes_foldl_objSet_keys _ nodes hnd
  have hpk0 : (fspInit nodes).prev.map Prod.fst = nodes.map Node.id :=
    nodes_foldl_objSet_keys _ nodes hnd
  have hqk0 : (fspInit nodes).pq.map Prod.fst = nodes.map Node.id :=
    nodes_foldl_objSet_keys _ nodes hnd
  have hstart_ne : ¬ startId = "" := fun h => hne (h ▸ hmem)
  have hdget : ∀ k, ¬ k = startId →
      dGet (dijkstraInit nodes startId) k = ⊤ := by
    intro k hk
    show (objGet (objSet (fspInit nodes).dist startId 0) k).getD ⊤ = ⊤
    rw [objGet_objSet_ne _ _ _ _ hk]
    show (objGet (nodes.foldl (fun m n => objSet m n.id (⊤ : Dist)) []) k).getD
      ⊤ = ⊤
    rw [nodes_foldl_objSet_get]
    by_cases hkm : k ∈ nodes.map Node.id
    · rw [if_pos hkm]
      rfl
    · rw [if_neg hkm]
      rfl
  have hdstart : dGet (dijkstraInit nodes startId) startId = 0 := by
    show (objGet (objSet (fspInit nodes).dist startId 0) startId).getD ⊤ = 0
    rw [objGet_objSet_self]
    rfl
  have hprev : ∀ k, pGet (dijkstraInit nodes startId) k = none := by
    intro k
    show (objGet (nodes.foldl
      (fun m n => objSet m n.id (none : Option String)) []) k).getD none
      = none
    rw [nodes_foldl_objSet_get]
    by_cases hkm : k ∈ nodes.map Node.id
    · rw [if_pos hkm]
      rfl
    · rw [if_neg hkm]
      rfl
  refine ⟨hnd, hne, hmem, ?_, ?_, ?_, ?_, ?_, List.nodup_nil,
    ?_, hdstart, ?_, ?_, ?_, ?_, ?_⟩
  · -- dk
    show (objSet (fspInit nodes).dist startId 0).map Prod.fst = _
    rw [objSet_keys_of_mem _ _ _ (hdk0 ▸ hmem), hdk0]
  · -- pk
    exact hpk0
  · -- qk
    intro k
    show k ∈ (objSet (fspInit nodes).pq startId 0).map Prod.fst ↔ _
    rw [objSet_keys_of_mem _ _ _ (hqk0 ▸ hmem), hqk0]
    constructor
    · intro h
      exact ⟨h, List.not_mem_nil k⟩
    · intro h
      exact h.1
  · -- q_nd
    show ((objSet (fspInit nodes).pq startId 0).map Prod.fst).Nodup
    rw [objSet_keys_of_mem _ _ _ (hqk0 ▸ hmem), hqk0]
    exact hnd
  · -- qv
    intro p hp
    rcases mem_objSet hp with rfl | ⟨h1, h2⟩
    · show objGet (objSet (fspInit nodes).dist startId 0) startId = some 0
      rw [objGet_objSet_self]
    · have hval : p.2 = ⊤ := nodes_foldl_objSet_val _ nodes p h1
      have hkm : p.1 ∈ nodes.map Node.id := by
        rw [← hqk0]
        exact List.mem_map_of_mem Prod.fst h1
      show objGet (objSet (fspInit nodes).dist startId 0) p.1 = some p.2
      rw [objGet_objSet_ne _ _ _ _ h2]
      show objGet (nodes.foldl (fun m n => objSet m n.id (⊤ : Dist)) []) p.1
        = some p.2
      rw [nodes_foldl_objSet_get, if_pos hkm, hval]
  · -- po_sub
    intro x hx
    exact absurd hx (List.not_mem_nil x)
  · -- realiz
    intro k q hk
    by_cases hks : k = startId
    · rw [hks, hdstart] at hk
      have hq0 : q = 0 := by exact_mod_cast hk.symm
      rw [hks, hq0]
      exact NWalk.nil startId
    · rw [hdget k hks] at hk
      exact absurd hk.symm (by simp)
  · -- prev_fin
    intro k u hk
    rw [hprev k] at hk
    cases hk
  · -- chain
    intro k hk
    have hks : k = startId := by
      by_contra hks
      exact hk (hdget k hks)
    rw [hks]
    refine ⟨[startId], ?_, rfl, ?_, ?_, List.nodup_singleton _⟩
    · rw [chainTo, if_neg hstart_ne]
      have hp : (objGet (dijkstraInit nodes startId).prev startId).getD none
          = none := hprev startId
      rw [hp]
    · intro v hv
      rw [List.mem_singleton.mp hv, hdstart]
      simp
    · intro v hv
      simp at hv
  · -- rel
    intro x hx
    exact absurd hx (List.not_mem_nil x)
  · -- pomin
    intro x hx
    exact absurd hx (List.not_mem_nil x)

/-! ## The main loop theorem of `dijkstra.ts` -/

theorem length_filter_ne {u : String} :
    ∀ {l : List String}, l.Nodup → u ∈ l →
      (l.filter (fun x => ¬ x = u)).length + 1 = l.length := by
  intro l
  induction l with
  | nil =>
    intro _ h
    cases h
  | cons x t ih =>
    intro hnd hmem
    rw [List.filter_cons]
    by_cases hx : x = u
    · rw [if_neg (by simp [hx])]
      have hut : u ∉ t := hx ▸ (List.nodup_cons.mp hnd).1
      have hft : t.filter (fun x => ¬ x = u) = t := by
        rw [List.filter_eq_self]
        intro a ha
        simp only [decide_eq_true_eq]
        exact fun he => hut (he ▸ ha)
      rw [hft, List.length_cons]
    · rw [if_pos (by simp [hx])]
      have hmem' : u ∈ t := by
        rcases List.mem_cons.mp hmem with h | h
        · exact absurd h.symm hx
        · exact h
      have hih := ih (List.nodup_cons.mp hnd).2 hmem'
      simp only [List.length_cons]
      omega

theorem dijkstraLoop_succ (nbrs : String → List (String × ℚ))
    (startId endId : String) (fuel : ℕ) (st : DState) :
    dijkstraLoop nbrs startId endId (fuel + 1) st
      = if st.pq = [] then some none
        else if jsMinKey st.pq = endId then
          (if (prevChain st.prev (st.prev.length + 1) endId).head?
              = some startId
           then some (some (prevChain st.prev (st.prev.length + 1) endId,
             dGet st endId))
           else some none)
        else if dGet st (jsMinKey st.pq) = ⊤ then some none
        else dijkstraLoop nbrs startId endId fuel
          (relaxAll nbrs (jsMinKey st.pq)
            (DState.mk st.dist st.prev (objDel st.pq (jsMinKey st.pq)))) := by
  rw [dijkstraLoop]
  rfl

/-- The full behavior of the `dijkstra.ts` main loop, under the loop
invariant: it never exhausts its fuel, and returns either a path whose
distance is realized by a walk to `endId` and lower-bounds every walk to
`endId`, or `null` exactly when `endId` is unreachable. -/
theorem dijkstraLoop_spec {nbrs : String → List (String × ℚ)}
    {startId endId : String} {keys : List String}
    (hwf : NbrsWF nbrs keys) (hend : endId ∈ keys) :
    ∀ (fuel : ℕ) (po : List String) (st : DState),
      DInv nbrs startId keys po st → endId ∉ po →
      st.pq.length < fuel →
      ∃ res, dijkstraLoop nbrs startId endId fuel st = some res ∧
        ((∃ (p : List String) (d : ℚ), res = some (p, (d : Dist))
            ∧ NWalk nbrs startId endId d
            ∧ ∀ d', NWalk nbrs startId endId d' → d ≤ d')
         ∨ (res = none ∧ ¬ NReach nbrs startId endId)) := by
  intro fuel
  induction fuel with
  | zero =>
    intro po st _ _ hlen
    omega
  | succ fuel ih =>
    intro po st hI hendpo hlen
    have hend_ne : ¬ endId = "" := fun h => hI.keys_ne (h ▸ hend)
    have hpqne : ¬ st.pq = [] := by
      intro hpq
      have hmemq : endId ∈ st.pq.map Prod.fst :=
        (hI.qk endId).mpr ⟨hend, hendpo⟩
      rw [hpq] at hmemq
      exact absurd hmemq (List.not_mem_nil endId)
    rw [dijkstraLoop_succ, if_neg hpqne]
    by_cases hu : jsMinKey st.pq = endId
    · rw [if_pos hu]
      by_cases hfin : dGet st endId = ⊤
      · -- the end key was popped at infinite distance: unreachable
        have hnr : ¬ NReach nbrs startId endId := by
          refine DInv.pop_top_unreach hwf (fun x h => h) hI hpqne ?_ hendpo
          rw [hu]
          exact hfin
        have hse : ¬ endId = startId := by
          intro h
          rw [h, hI.dstart] at hfin
          exact absurd hfin (by simp)
        have hpget : pGet st endId = none := by
          rcases hp : pGet st endId with _ | u'
          · rfl
          · exact absurd hfin (hI.prev_fin endId u' hp).1
        have hchain : prevChain st.prev (st.prev.length + 1) endId
            = [endId] := by
          rw [prevChain, if_neg hend_ne]
          have hp2 : (objGet st.prev endId).getD none = none := hpget
          rw [hp2]
        rw [hchain]
        rw [if_neg (by
          simp only [List.head?_cons, Option.some.injEq]
          exact hse)]
        exact ⟨none, rfl, Or.inr ⟨rfl, hnr⟩⟩
      · -- the end key was popped at a finite, already-optimal distance
        rcases hd : dGet st endId with _ | q
        · exact absurd hd hfin
        have hwalk : NWalk nbrs startId endId q := hI.realiz endId q hd
        have hmin : ∀ d', NWalk nbrs startId endId d' → q ≤ d' := by
          intro d' hw'
          have h2 : dGet st (jsMinKey st.pq) ≤ (d' : Dist) := by
            refine DInv.pop_opt hwf (fun x h => h) hI hpqne ?_
            rw [hu]
            exact hw'
          rw [hu, hd] at h2
          have h3 : (q : Dist) ≤ (d' : Dist) := h2
          exact_mod_cast h3
        rcases hI.chain endId hfin with ⟨l, hl, hlh, _, _, _⟩
        have hpo_len : po.length ≤ st.prev.length := by
          have h1 : po.length ≤ keys.length :=
            nodup_length_le hI.po_nd (fun x hx => hI.po_sub x hx)
          have h2 : (st.prev.map Prod.fst).length = st.prev.length := by
            simp
          rw [hI.pk] at h2
          omega
        have hl' : chainTo st.prev (st.prev.length + 1) endId = some l :=
          chainTo_mono _ _ _ _ _ hl (by omega)
        have hpc : prevChain st.prev (st.prev.length + 1) endId = l :=
          chainTo_to_prevChain _ _ _ _ hl'
        rw [hpc, if_pos hlh]
        exact ⟨some (l, (q : Dist)), rfl, Or.inl ⟨l, q, rfl, hwalk, hmin⟩⟩
    · rw [if_neg hu]
      by_cases htop : dGet st (jsMinKey st.pq) = ⊤
      · rw [if_pos htop]
        have hnr :=
          DInv.pop_top_unreach hwf (fun x h => h) hI hpqne htop hendpo
        exact ⟨none, rfl, Or.inr ⟨rfl, hnr⟩⟩
      · rw [if_neg htop]
        obtain ⟨hI', hkeys'⟩ := dinv_step hwf hI hpqne rfl
        have hendpo' : endId ∉ po ++ [jsMinKey st.pq] := by
          intro h
          rcases List.mem_append.mp h with h | h
          · exact hendpo h
          · exact hu (List.mem_singleton.mp h).symm
        have humem : jsMinKey st.pq ∈ st.pq.map Prod.fst := hI.min_mem hpqne
        have hlen1 := length_filter_ne hI.q_nd humem
        have hlen' : (relaxAll nbrs (jsMinKey st.pq)
            (DState.mk st.dist st.prev
              (objDel st.pq (jsMinKey st.pq)))).pq.length < fuel := by
          have e1 : (relaxAll nbrs (jsMinKey st.pq)
              (DState.mk st.dist st.prev
                (objDel st.pq (jsMinKey st.pq)))).pq.length
              = ((relaxAll nbrs (jsMinKey st.pq)
                (DState.mk st.dist st.prev
                  (objDel st.pq (jsMinKey st.pq)))).pq.map Prod.fst).length :=
            by simp
          have e2 : (st.pq.map Prod.fst).length = st.pq.length := by simp
          rw [e1, hkeys', objDel_keys]
          omega
        exact ih (po ++ [jsMinKey st.pq]) _ hI' hendpo' hlen'

/-! ## The adjacency object of `dijkstra.ts` realizes exactly the edge
steps of the graph -/

theorem objPush_keys {α : Type} (m : List (String × List α)) (k : String)
    (v : α) : (objPush m k v).map Prod.fst = m.map Prod.fst := by
  unfold objPush
  rw [List.map_map]
  refine List.map_congr_left ?_
  intro p _
  by_cases hp : p.1 = k
  · simp [Function.comp, hp]
  · simp [Function.comp, hp]

theorem objGet_objPush_self {α : Type} (m : List (String × List α))
    (k : String) (v : α) :
    objGet (objPush m k v) k = (objGet m k).map (fun l => l ++ [v]) := by
  induction m with
  | nil => rfl
  | cons p t ih =>
    show objGet ((if p.1 = k then (p.1, p.2 ++ [v]) else p) :: objPush t k v) k
      = (objGet (p :: t) k).map (fun l => l ++ [v])
    by_cases hp : p.1 = k
    · simp [objGet_cons, hp]
    · simp [objGet_cons, hp, ih]

theorem objGet_objPush_ne {α : Type} (m : List (String × List α))
    (k k' : String) (v : α) (hne : ¬ k' = k) :
    objGet (objPush m k v) k' = objGet m k' := by
  induction m with
  | nil => rfl
  | cons p t ih =>
    show objGet ((if p.1 = k then (p.1, p.2 ++ [v]) else p) :: objPush t k v) k'
      = objGet (p :: t) k'
    by_cases hp : p.1 = k
    · have h1 : ¬ p.1 = k' := fun h => hne (h.symm.trans hp)
      have h2 : ¬ k = k' := fun h => hne h.symm
      simp [objGet_cons, hp, h1, h2, ih]
    · by_cases hp' : p.1 = k'
      · simp [objGet_cons, hp, hp', hne]
      · simp [objGet_cons, hp, hp', ih]

theorem estep_cons {e : Edge} {es : List Edge} {a b : String} {w : ℚ} :
    EStep (e :: es) a b w ↔
      (e.weight = w ∧ ((e.source = a ∧ e.target = b)
        ∨ (e.source = b ∧ e.target = a)))
      ∨ EStep es a b w := by
  unfold EStep
  constructor
  · rintro ⟨e', he', hw, hor⟩
    rcases List.mem_cons.mp he' with rfl | he'
    · exact Or.inl ⟨hw, hor⟩
    · exact Or.inr ⟨e', he', hw, hor⟩
  · rintro (⟨hw, hor⟩ | ⟨e', he', hw, hor⟩)
    · exact ⟨e, List.mem_cons_self _ _, hw, hor⟩
    · exact ⟨e', List.mem_cons_of_mem _ he', hw, hor⟩

theorem objGet_some_of_mem_keys {α : Type} {m : List (String × α)}
    {k : String} (h : k ∈ m.map Prod.fst) : ∃ v, objGet m k = some v := by
  rcases ho : objGet m k with _ | v
  · exact absurd h ((objGet_eq_none _ _).mp ho)
  · exact ⟨v, rfl⟩

theorem buildAdj_fold_mem :
    ∀ (es : List Edge) (m : List (String × List (String × ℚ))),
      (∀ e ∈ es, e.source ∈ m.map Prod.fst ∧ e.target ∈ m.map Prod.fst) →
      ∀ (a b : String) (w : ℚ),
      ((b, w) ∈ (objGet (es.foldl (fun m' e =>
          objPush (objPush m' e.source (e.target, e.weight))
            e.target (e.source, e.weight)) m) a).getD []
        ↔ ((b, w) ∈ (objGet m a).getD [] ∨ EStep es a b w)) := by
  intro es
  induction es with
  | nil =>
    intro m _ a b w
    rw [List.foldl_nil]
    constructor
    · exact Or.inl
    · rintro (h | ⟨e, he, _⟩)
      · exact h
      · exact absurd he (List.not_mem_nil e)
  | cons e es' ih =>
    intro m hkeys a b w
    rw [List.foldl_cons]
    have hkeym1 : (objPush (objPush m e.source (e.target, e.weight))
        e.target (e.source, e.weight)).map Prod.fst = m.map Prod.fst := by
      rw [objPush_keys, objPush_keys]
    have hkeys' : ∀ e' ∈ es',
        e'.source ∈ (objPush (objPush m e.source (e.target, e.weight))
            e.target (e.source, e.weight)).map Prod.fst
        ∧ e'.target ∈ (objPush (objPush m e.source (e.target, e.weight))
            e.target (e.source, e.weight)).map Prod.fst := by
      intro e' he'
      rw [hkeym1]
      exact hkeys e' (List.mem_cons_of_mem _ he')
    rw [ih _ hkeys' a b w, estep_cons]
    have hS : e.source ∈ m.map Prod.fst := (hkeys e (List.mem_cons_self _ _)).1
    have hT : e.target ∈ m.map Prod.fst := (hkeys e (List.mem_cons_self _ _)).2
    by_cases haT : a = e.target
    · by_cases haST : e.source = e.target
      · -- a coincides with both endpoints (self-loop edge)
        obtain ⟨l, hl⟩ := objGet_some_of_mem_keys hS
        have h2 : objGet (objPush m e.source (e.target, e.weight)) e.target
            = some (l ++ [(e.target, e.weight)]) := by
          rw [← haST, objGet_objPush_self, hl]
          rfl
        have hl' : objGet m e.target = some l := by
          rw [← haST]
          exact hl
        rw [haT, objGet_objPush_self, h2, hl']
        simp only [Option.map_some', Option.getD_some, List.mem_append,
          List.mem_singleton, Prod.mk.injEq]
        constructor
        · rintro (((h | ⟨hb, hw⟩) | ⟨hb, hw⟩) | h)
          · exact Or.inl h
          · exact Or.inr (Or.inl ⟨hw.symm, Or.inl ⟨haST, hb.symm⟩⟩)
          · exact Or.inr (Or.inl ⟨hw.symm, Or.inr ⟨hb.symm, trivial⟩⟩)
          · exact Or.inr (Or.inr h)
        · rintro (h | (⟨hw, (⟨h1, h2⟩ | ⟨h1, h2⟩)⟩ | h))
          · exact Or.inl (Or.inl (Or.inl h))
          · exact Or.inl (Or.inl (Or.inr ⟨h2.symm, hw.symm⟩))
          · exact Or.inl (Or.inr ⟨h1.symm, hw.symm⟩)
          · exact Or.inr h
      · -- a is the target endpoint only
        have haS : ¬ a = e.source := fun h => haST (h ▸ haT)
        obtain ⟨l, hl⟩ := objGet_some_of_mem_keys hT
        rw [haT, objGet_objPush_self,
          objGet_objPush_ne _ _ _ _ (fun h => haST h.symm), hl]
        simp only [Option.map_some', Option.getD_some, List.mem_append,
          List.mem_singleton, Prod.mk.injEq]
        constructor
        · rintro ((h | ⟨hb, hw⟩) | h)
          · exact Or.inl h
          · exact Or.inr (Or.inl ⟨hw.symm, Or.inr ⟨hb.symm, trivial⟩⟩)
          · exact Or.inr (Or.inr h)
        · rintro (h | (⟨hw, (⟨h1, h2⟩ | ⟨h1, h2⟩)⟩ | h))
          · exact Or.inl (Or.inl h)
          · exact absurd h1 haST
          · exact Or.inl (Or.inr ⟨h1.symm, hw.symm⟩)
          · exact Or.inr h
    · by_cases haS : a = e.source
      · -- a is the source endpoint only
        obtain ⟨l, hl⟩ := objGet_some_of_mem_keys hS
        rw [objGet_objPush_ne _ _ _ _ haT, haS, objGet_objPush_self, hl]
        simp only [Option.map_some', Option.getD_some, List.mem_append,
          List.mem_singleton, Prod.mk.injEq]
        constructor
        · rintro ((h | ⟨hb, hw⟩) | h)
          · exact Or.inl h
          · exact Or.inr (Or.inl ⟨hw.symm, Or.inl ⟨trivial, hb.symm⟩⟩)
          · exact Or.inr (Or.inr h)
        · rintro (h | (⟨hw, (⟨h1, h2⟩ | ⟨h1, h2⟩)⟩ | h))
          · exact Or.inl (Or.inl h)
          · exact Or.inl (Or.inr ⟨h2.symm, hw.symm⟩)
          · exact absurd (haS.trans h2.symm) haT
          · exact Or.inr h
      · -- a is not an endpoint of this edge
        rw [objGet_objPush_ne _ _ _ _ haT, objGet_objPush_ne _ _ _ _ haS]
        constructor
        · rintro (h | h)
          · exact Or.inl h
          · exact Or.inr (Or.inr h)
        · rintro (h | (⟨hw, (⟨h1, h2⟩ | ⟨h1, h2⟩)⟩ | h))
          · exact Or.inl h
          · exact absurd h1.symm haS
          · exact absurd h2.symm haT
          · exact Or.inr h

/-- Membership in the adjacency lists of `dijkstra.ts` coincides with the
edge-step relation of the graph. -/
theorem mem_adjOf_iff (nodes : List Node) (edges : List Edge)
    (hwf : GraphWF nodes edges) (a b : String) (w : ℚ) :
    (b, w) ∈ adjOf nodes edges a ↔ EStep edges a b w := by
  have hinit_keys : (buildAdjInit nodes).map Prod.fst = nodes.map Node.id :=
    nodes_foldl_objSet_keys _ nodes hwf.1
  have hkeys : ∀ e ∈ edges, e.source ∈ (buildAdjInit nodes).map Prod.fst
      ∧ e.target ∈ (buildAdjInit nodes).map Prod.fst := by
    intro e he
    rw [hinit_keys]
    exact ⟨(hwf.2 e he).1, (hwf.2 e he).2.1⟩
  have h := buildAdj_fold_mem edges (buildAdjInit nodes) hkeys a b w
  have hinit : ((objGet (buildAdjInit nodes) a).getD []
      : List (String × ℚ)) = [] := by
    show ((objGet (nodes.foldl (fun m n => objSet m n.id
      ([] : List (String × ℚ))) []) a).getD []) = []
    rw [nodes_foldl_objSet_get]
    by_cases hk : a ∈ nodes.map Node.id
    · rw [if_pos hk]
      rfl
    · rw [if_neg hk]
      rfl
  rw [hinit] at h
  have h2 : (b, w) ∈ adjOf nodes edges a
      ↔ ((b, w) ∈ ([] : List (String × ℚ)) ∨ EStep edges a b w) := h
  rw [h2]
  constructor
  · rintro (h | h)
    · exact absurd h (List.not_mem_nil _)
    · exact h
  · exact Or.inr

/-- The adjacency function of `dijkstra.ts` is well-formed over the node
identifiers of a well-formed graph. -/
theorem adjOf_wf (nodes : List Node) (edges : List Edge)
    (hwf : GraphWF nodes edges) :
    NbrsWF (adjOf nodes edges) (nodes.map Node.id) := by
  refine ⟨?_, ?_, ?_⟩
  · intro a p hp
    obtain ⟨b, w⟩ := p
    rcases (mem_adjOf_iff nodes edges hwf a b w).mp hp
      with ⟨e, he, _, hor⟩
    rcases hor with ⟨_, h2⟩ | ⟨h1, _⟩
    · exact h2 ▸ (hwf.2 e he).2.1
    · exact h1 ▸ (hwf.2 e he).1
  · intro a p hp
    obtain ⟨b, w⟩ := p
    rcases (mem_adjOf_iff nodes edges hwf a b w).mp hp
      with ⟨e, he, hw, _⟩
    exact hw ▸ (hwf.2 e he).2.2
  · intro a b w hp
    rcases (mem_adjOf_iff nodes edges hwf a b w).mp hp
      with ⟨e, he, hw, hor⟩
    refine (mem_adjOf_iff nodes edges hwf b a w).mpr ⟨e, he, hw, ?_⟩
    rcases hor with ⟨h1, h2⟩ | ⟨h1, h2⟩
    · exact Or.inr ⟨h1, h2⟩
    · exact Or.inl ⟨h1, h2⟩

theorem nwalk_of_ewalk {nodes : List Node} {edges : List Edge}
    (hwf : GraphWF nodes edges) {a c : String} {d : ℚ}
    (h : EWalk edges a c d) : NWalk (adjOf nodes edges) a c d := by
  induction h with
  | nil a => exact NWalk.nil a
  | cons hstep _ ih =>
    exact NWalk.cons ((mem_adjOf_iff nodes edges hwf _ _ _).mpr hstep) ih

theorem ewalk_of_nwalk {nodes : List Node} {edges : List Edge}
    (hwf : GraphWF nodes edges) {a c : String} {d : ℚ}
    (h : NWalk (adjOf nodes edges) a c d) : EWalk edges a c d := by
  induction h with
  | nil a => exact EWalk.nil a
  | cons hstep _ ih =>
    exact EWalk.cons ((mem_adjOf_iff nodes edges hwf _ _ _).mp hstep) ih

/-- C1 (corrected): for a well-formed graph none of whose node identifiers
is the empty string, and existing start and end nodes: if `endId` is
reachable from `startId` then `dijkstra` returns a result whose distance is
realized by a walk from `startId` to `endId` and lower-bounds the total
weight of every such walk (i.e. it is the minimum walk weight, hence the
minimum over paths); if `endId` is unreachable, it returns `null` rather
than throwing.  (The original claim, quantified over every graph, fails on
a graph containing the node identifier `""`, which is falsy in JS and
breaks the path reconstruction: see the counterexample.) -/
theorem dijkstra_shortest_correct (nodes : List Node) (edges : List Edge)
    (startId endId : String) (hwf : GraphWF nodes edges)
    (hid : "" ∉ nodes.map Node.id)
    (hs : startId ∈ nodes.map Node.id) (he : endId ∈ nodes.map Node.id) :
    (EReach edges startId endId →
      ∃ (p : List String) (d : ℚ),
        dijkstra nodes edges startId endId = some (some (p, (d : Dist)))
        ∧ EWalk edges startId endId d
        ∧ ∀ d', EWalk edges startId endId d' → d ≤ d')
    ∧ (¬ EReach edges startId endId →
        dijkstra nodes edges startId endId = some none) := by
  have hnwf := adjOf_wf nodes edges hwf
  have hqk0 : (fspInit nodes).pq.map Prod.fst = nodes.map Node.id :=
    nodes_foldl_objSet_keys _ nodes hwf.1
  have hpq_keys : (dijkstraInit nodes startId).pq.map Prod.fst
      = nodes.map Node.id := by
    show (objSet (fspInit nodes).pq startId 0).map Prod.fst = _
    rw [objSet_keys_of_mem _ _ _ (hqk0 ▸ hs), hqk0]
  have hlen : (dijkstraInit nodes startId).pq.length < nodes.length + 2 := by
    have e1 : (dijkstraInit nodes startId).pq.length
        = ((dijkstraInit nodes startId).pq.map Prod.fst).length := by simp
    rw [e1, hpq_keys]
    simp only [List.length_map]
    omega
  obtain ⟨res, hres, hcase⟩ := dijkstraLoop_spec hnwf he (nodes.length + 2)
    [] (dijkstraInit nodes startId) (dinv_init hwf.1 hid hs)
    (List.not_mem_nil endId) hlen
  constructor
  · intro hreach
    rcases hcase with ⟨p, d, hres2, hw, hmin⟩ | ⟨hres2, hnr⟩
    · refine ⟨p, d, ?_, ewalk_of_nwalk hwf hw, ?_⟩
      · show dijkstraLoop (adjOf nodes edges) startId endId
          (nodes.length + 2) (dijkstraInit nodes startId)
          = some (some (p, (d : Dist)))
        rw [hres, hres2]
      · intro d' hw'
        exact hmin d' (nwalk_of_ewalk hwf hw')
    · rcases hreach with ⟨d, hwd⟩
      exact absurd ⟨d, nwalk_of_ewalk hwf hwd⟩ hnr
  · intro hunreach
    rcases hcase with ⟨p, d, hres2, hw, hmin⟩ | ⟨hres2, hnr⟩
    · exact absurd ⟨d, ewalk_of_nwalk hwf hw⟩ hunreach
    · show dijkstraLoop (adjOf nodes edges) startId endId
        (nodes.length + 2) (dijkstraInit nodes startId) = some none
      rw [hres, hres2]

theorem objSet_of_not_mem {α : Type} (m : List (String × α)) (k : String)
    (v : α) (h : k ∉ m.map Prod.fst) : objSet m k v = m ++ [(k, v)] := by
  unfold objSet
  rw [if_neg (fun hh => h ((objHas_iff_mem m k).mp hh))]

theorem objDel_of_not_mem {α : Type} (m : List (String × α)) (k : String)
    (h : k ∉ m.map Prod.fst) : objDel m k = m := by
  unfold objDel
  rw [List.filter_eq_self]
  intro p hp
  simp only [decide_eq_true_eq]
  exact fun he => h (he ▸ List.mem_map_of_mem Prod.fst hp)

theorem objDel_append_single {α : Type} (m : List (String × α)) (k : String)
    (v : α) : objDel (m ++ [(k, v)]) k = objDel m k := by
  unfold objDel
  rw [List.filter_append]
  simp

theorem buildAdj_keys (nodes : List Node) (edges : List Edge) :
    (buildAdj nodes edges).map Prod.fst
      = (buildAdjInit nodes).map Prod.fst := by
  unfold buildAdj
  generalize buildAdjInit nodes = m
  induction edges generalizing m with
  | nil => rfl
  | cons e es ih =>
    rw [List.foldl_cons, ih, objPush_keys, objPush_keys]

/-- A start identifier that is not a node has an empty neighbor list (the
optional chaining `adj[u] || {}` then skips the relaxation entirely). -/
theorem adjOf_of_not_mem (nodes : List Node) (edges : List Edge)
    {u : String} (hnd : (nodes.map Node.id).Nodup)
    (h : u ∉ nodes.map Node.id) : adjOf nodes edges u = [] := by
  unfold adjOf
  have hkeys : (buildAdj nodes edges).map Prod.fst = nodes.map Node.id := by
    rw [buildAdj_keys]
    exact nodes_foldl_objSet_keys _ nodes hnd
  rw [(objGet_eq_none _ _).mpr (hkeys ▸ h)]
  rfl

/-- When `endId` is not a key at all, the loop always returns `null`:
the pop never matches `endId`, and both exits (empty queue, infinite
minimum) return `null`. -/
theorem dijkstraLoop_noend {nbrs : String → List (String × ℚ)}
    {startId endId : String} {keys : List String}
    (hwf : NbrsWF nbrs keys) (hend : endId ∉ keys) :
    ∀ (fuel : ℕ) (po : List String) (st : DState),
      DInv nbrs startId keys po st → st.pq.length < fuel →
      dijkstraLoop nbrs startId endId fuel st = some none := by
  intro fuel
  induction fuel with
  | zero =>
    intro po st _ h
    omega
  | succ fuel ih =>
    intro po st hI hlen
    rw [dijkstraLoop_succ]
    by_cases hpq : st.pq = []
    · rw [if_pos hpq]
    · rw [if_neg hpq]
      have humem := hI.min_mem hpq
      have hukeys : jsMinKey st.pq ∈ keys := ((hI.qk _).mp humem).1
      have hu : ¬ jsMinKey st.pq = endId := fun h => hend (h ▸ hukeys)
      rw [if_neg hu]
      by_cases htop : dGet st (jsMinKey st.pq) = ⊤
      · rw [if_pos htop]
      · rw [if_neg htop]
        obtain ⟨hI', hkeys'⟩ := dinv_step hwf hI hpq rfl
        have hlen1 := length_filter_ne hI.q_nd humem
        have hlen' : (relaxAll nbrs (jsMinKey st.pq)
            (DState.mk st.dist st.prev
              (objDel st.pq (jsMinKey st.pq)))).pq.length < fuel := by
          have e1 : (relaxAll nbrs (jsMinKey st.pq)
              (DState.mk st.dist st.prev
                (objDel st.pq (jsMinKey st.pq)))).pq.length
              = ((relaxAll nbrs (jsMinKey st.pq)
                (DState.mk st.dist st.prev
                  (objDel st.pq (jsMinKey st.pq)))).pq.map Prod.fst).length :=
            by simp
          have e2 : (st.pq.map Prod.fst).length = st.pq.length := by simp
          rw [e1, hkeys', objDel_keys]
          omega
        exact ih (po ++ [jsMinKey st.pq]) _ hI' hlen'

/-- C5 (corrected): when `startId` or `endId` does not exist in the node
set (and the two differ), `dijkstra` does not throw any `UnknownNode`
error — no such error exists in the code.  It runs to completion and
returns the `NotFound` value `null`.  (The spec's claimed hard failure is
refuted by the counterexample; this theorem proves the actual behavior.) -/
theorem dijkstra_unknown_null (nodes : List Node) (edges : List Edge)
    (startId endId : String) (hwf : GraphWF nodes edges)
    (hid : "" ∉ nodes.map Node.id) (hne : ¬ startId = endId)
    (habs : startId ∉ nodes.map Node.id ∨ endId ∉ nodes.map Node.id) :
    dijkstra nodes edges startId endId = some none := by
  by_cases hs : startId ∈ nodes.map Node.id
  · -- the end identifier is the absent one: the loop never pops it
    have he : endId ∉ nodes.map Node.id := by
      rcases habs with h | h
      · exact absurd hs h
      · exact h
    have hnwf := adjOf_wf nodes edges hwf
    have hqk0 : (fspInit nodes).pq.map Prod.fst = nodes.map Node.id :=
      nodes_foldl_objSet_keys _ nodes hwf.1
    have hpq_keys : (dijkstraInit nodes startId).pq.map Prod.fst
        = nodes.map Node.id := by
      show (objSet (fspInit nodes).pq startId 0).map Prod.fst = _
      rw [objSet_keys_of_mem _ _ _ (hqk0 ▸ hs), hqk0]
    have hlen : (dijkstraInit nodes startId).pq.length
        < nodes.length + 2 := by
      have e1 : (dijkstraInit nodes startId).pq.length
          = ((dijkstraInit nodes startId).pq.map Prod.fst).length := by simp
      rw [e1, hpq_keys]
      simp only [List.length_map]
      omega
    exact dijkstraLoop_noend hnwf he (nodes.length + 2) []
      (dijkstraInit nodes startId) (dinv_init hwf.1 hid hs) hlen
  · -- the start identifier is absent: it is appended to `distances`/`pq`
    -- with distance 0, popped first, relaxes nothing, and the next pop
    -- either fails the reconstruction check or has infinite distance
    have hpq0 : (dijkstraInit nodes startId).pq
        = (nodes.foldl (fun m n => objSet m n.id (⊤ : Dist)) [])
          ++ [(startId, 0)] := by
      show objSet (fspInit nodes).pq startId 0 = _
      refine objSet_of_not_mem _ _ _ ?_
      show startId ∉ (nodes.foldl
        (fun m n => objSet m n.id (⊤ : Dist)) []).map Prod.fst
      rw [nodes_foldl_objSet_keys _ nodes hwf.1]
      exact hs
    have hpqne : ¬ (dijkstraInit nodes startId).pq = [] := by
      rw [hpq0]
      intro h
      exact absurd h (List.append_ne_nil_of_right_ne_nil _ (by simp))
    have hminkey : jsMinKey (dijkstraInit nodes startId).pq = startId := by
      obtain ⟨p, hp, hpk, hpmin⟩ :=
        jsMinKey_spec (dijkstraInit nodes startId).pq hpqne
      have hle : p.2 ≤ (0 : Dist) := by
        refine hpmin (startId, 0) ?_
        rw [hpq0]
        exact List.mem_append.mpr (Or.inr (List.mem_singleton_self _))
      have hp' : p ∈ (nodes.foldl (fun m n => objSet m n.id (⊤ : Dist)) [])
          ++ [(startId, 0)] := by
        rw [← hpq0]
        exact hp
      rcases List.mem_append.mp hp' with h | h
      · have : p.2 = ⊤ := nodes_foldl_objSet_val _ nodes p h
        rw [this] at hle
        exact absurd (top_le_iff.mp hle) (by simp)
      · rw [← hpk, List.mem_singleton.mp h]
    have hdstart : dGet (dijkstraInit nodes startId) startId = 0 := by
      show (objGet (objSet (fspInit nodes).dist startId 0) startId).getD ⊤ = 0
      rw [objGet_objSet_self]
      rfl
    show dijkstraLoop (adjOf nodes edges) startId endId
      (nodes.length + 1 + 1) (dijkstraInit nodes startId) = some none
    rw [dijkstraLoop_succ, if_neg hpqne, hminkey,
      if_neg (fun h => hne h), if_neg (fun h => by rw [hdstart] at h; simp at h)]
    have hadj : adjOf nodes edges startId = [] :=
      adjOf_of_not_mem nodes edges hwf.1 hs
    have hrelax : relaxAll (adjOf nodes edges) startId
        (DState.mk (dijkstraInit nodes startId).dist
          (dijkstraInit nodes startId).prev
          (objDel (dijkstraInit nodes startId).pq startId))
        = DState.mk (dijkstraInit nodes startId).dist
          (dijkstraInit nodes startId).prev
          (objDel (dijkstraInit nodes startId).pq startId) := by
      unfold relaxAll
      rw [hadj]
      rfl
    rw [hrelax]
    have hpq2 : objDel (dijkstraInit nodes startId).pq startId
        = nodes.foldl (fun m n => objSet m n.id (⊤ : Dist)) [] := by
      rw [hpq0, objDel_append_single]
      refine objDel_of_not_mem _ _ ?_
      rw [nodes_foldl_objSet_keys _ nodes hwf.1]
      exact hs
    rw [dijkstraLoop_succ]
    by_cases hpq3 : (DState.mk (dijkstraInit nodes startId).dist
        (dijkstraInit nodes startId).prev
        (objDel (dijkstraInit nodes startId).pq startId)).pq = []
    · rw [if_pos hpq3]
    · rw [if_neg hpq3]
      have hpq3' : ¬ (nodes.foldl (fun m n => objSet m n.id (⊤ : Dist)) [])
          = ([] : List (String × Dist)) := by
        intro h
        refine hpq3 ?_
        show objDel (dijkstraInit nodes startId).pq startId = []
        rw [hpq2, h]
      -- the popped key is a real node identifier
      have humem2 : jsMinKey (objDel (dijkstraInit nodes startId).pq startId)
          ∈ nodes.map Node.id := by
        obtain ⟨p, hp, hpk, _⟩ :=
          jsMinKey_spec (objDel (dijkstraInit nodes startId).pq startId)
            (by rw [hpq2]; exact hpq3')
        rw [← hpk]
        rw [hpq2] at hp
        have := List.mem_map_of_mem Prod.fst hp
        rw [nodes_foldl_objSet_keys _ nodes hwf.1] at this
        exact this
      by_cases hu2 : jsMinKey (objDel (dijkstraInit nodes startId).pq startId)
          = endId
      · rw [if_pos hu2]
        -- endId is a real node here; its prev entry is null, and it is not
        -- the (absent) startId, so the reconstruction check fails
        have hend_id : endId ∈ nodes.map Node.id := hu2 ▸ humem2
        have hend_ne : ¬ endId = "" := fun h => hid (h ▸ hend_id)
        have hes : ¬ endId = startId := fun h => hne h.symm
        have hprevget : (objGet (dijkstraInit nodes startId).prev endId).getD
            none = none := by
          show (objGet (nodes.foldl
            (fun m n => objSet m n.id (none : Option String)) []) endId).getD
            none = none
          rw [nodes_foldl_objSet_get, if_pos hend_id]
          rfl
        have hchain : prevChain (dijkstraInit nodes startId).prev
            ((dijkstraInit nodes startId).prev.length + 1) endId
            = [endId] := by
          rw [prevChain, if_neg hend_ne, hprevget]
        rw [hchain, if_neg (by
          simp only [List.head?_cons, Option.some.injEq]
          exact hes)]
      · rw [if_neg hu2]
        have hu2s : ¬ jsMinKey (objDel (dijkstraInit nodes startId).pq
            startId) = startId := fun h => hs (h ▸ humem2)
        have hdget2 : dGet (DState.mk (dijkstraInit nodes startId).dist
            (dijkstraInit nodes startId).prev
            (objDel (dijkstraInit nodes startId).pq startId))
            (jsMinKey (objDel (dijkstraInit nodes startId).pq startId))
            = ⊤ := by
          show (objGet (objSet (fspInit nodes).dist startId 0)
            (jsMinKey (objDel (dijkstraInit nodes startId).pq
              startId))).getD ⊤ = ⊤
          rw [objGet_objSet_ne _ _ _ _ hu2s]
          show (objGet (nodes.foldl (fun m n => objSet m n.id (⊤ : Dist)) [])
            (jsMinKey (objDel (dijkstraInit nodes startId).pq
              startId))).getD ⊤ = ⊤
          rw [nodes_foldl_objSet_get, if_pos humem2]
          rfl
        rw [if_pos hdget2]

theorem dijkstra_unknown_null_witness :
    dijkstra lineNodes lineEdges "X" "M" = some none :=
  dijkstra_unknown_null lineNodes lineEdges "X" "M"
    (by unfold GraphWF; decide) (by decide) (by decide) (by decide)

/-! ## The nested adjacency object of `solveTsp` -/

theorem mem_objSet_self {α : Type} (l : List (String × α)) (k : String)
    (v : α) : (k, v) ∈ objSet l k v :=
  objGet_mem (objGet_objSet_self l k v)

theorem mem_objSet_of_ne {α : Type} {l : List (String × α)} {p : String × α}
    (hp : p ∈ l) (k : String) (v : α) (h : ¬ p.1 = k) : p ∈ objSet l k v := by
  unfold objSet
  by_cases hm : objHas l k = true
  · rw [if_pos hm]
    have hmm := List.mem_map_of_mem (fun p => if p.1 = k then (k, v) else p) hp
    simp only [if_neg h] at hmm
    exact hmm
  · rw [if_neg hm]
    exact List.mem_append.mpr (Or.inl hp)

theorem objSetIn_keys (m : List (String × List (String × ℚ)))
    (k1 k2 : String) (v : ℚ) :
    (objSetIn m k1 k2 v).map Prod.fst = m.map Prod.fst := by
  unfold objSetIn
  rw [List.map_map]
  refine List.map_congr_left ?_
  intro p _
  by_cases hp : p.1 = k1
  · simp [Function.comp, hp]
  · simp [Function.comp, hp]

theorem objGet_objSetIn_self (m : List (String × List (String × ℚ)))
    (k1 k2 : String) (v : ℚ) :
    objGet (objSetIn m k1 k2 v) k1
      = (objGet m k1).map (fun l => objSet l k2 v) := by
  induction m with
  | nil => rfl
  | cons p t ih =>
    show objGet ((if p.1 = k1 then (p.1, objSet p.2 k2 v) else p)
      :: objSetIn t k1 k2 v) k1 = _
    by_cases hp : p.1 = k1
    · simp [objGet_cons, hp]
    · simp [objGet_cons, hp, ih]

theorem objGet_objSetIn_ne (m : List (String × List (String × ℚ)))
    (k1 k2 : String) (v : ℚ) {a : String} (ha : ¬ a = k1) :
    objGet (objSetIn m k1 k2 v) a = objGet m a := by
  induction m with
  | nil => rfl
  | cons p t ih =>
    show objGet ((if p.1 = k1 then (p.1, objSet p.2 k2 v) else p)
      :: objSetIn t k1 k2 v) a = _
    by_cases hp : p.1 = k1
    · have h1 : ¬ p.1 = a := fun h => ha (h.symm.trans hp)
      have h2 : ¬ k1 = a := fun h => ha h.symm
      simp [objGet_cons, hp, h1, h2, ih]
    · by_cases hp' : p.1 = a
      · simp [objGet_cons, hp, hp', ha]
      · simp [objGet_cons, hp, hp', ih]

theorem mem_objSetIn {m : List (String × List (String × ℚ))}
    {k1 k2 : String} {v : ℚ} {p' : String × List (String × ℚ)}
    (h : p' ∈ objSetIn m k1 k2 v) :
    ∃ p ∈ m, p'.1 = p.1 ∧
      ((p.1 = k1 ∧ p'.2 = objSet p.2 k2 v) ∨ (¬ p.1 = k1 ∧ p'.2 = p.2)) := by
  unfold objSetIn at h
  rcases List.mem_map.mp h with ⟨p, hp, hpe⟩
  by_cases hk : p.1 = k1
  · rw [if_pos hk] at hpe
    exact ⟨p, hp, by rw [← hpe], Or.inl ⟨hk, by rw [← hpe]⟩⟩
  · rw [if_neg hk] at hpe
    exact ⟨p, hp, by rw [← hpe], Or.inr ⟨hk, by rw [← hpe]⟩⟩

/-- One `adj[src][tgt] = w; adj[tgt][src] = w` step preserves the nested
adjacency invariant: every entry names a key, carries a non-negative
weight, and has a mirror entry of the same weight. -/
theorem objSetIn_pair_inv {m : List (String × List (String × ℚ))}
    {S T : String} {w : ℚ}
    (hS : S ∈ m.map Prod.fst) (hT : T ∈ m.map Prod.fst) (hw : 0 ≤ w)
    (hinv : ∀ p ∈ m, ∀ q ∈ p.2, q.1 ∈ m.map Prod.fst ∧ 0 ≤ q.2 ∧
      ∃ l', objGet m q.1 = some l' ∧ (p.1, q.2) ∈ l') :
    ∀ p' ∈ objSetIn (objSetIn m S T w) T S w, ∀ q ∈ p'.2,
      q.1 ∈ m.map Prod.fst ∧ 0 ≤ q.2 ∧
      ∃ l', objGet (objSetIn (objSetIn m S T w) T S w) q.1 = some l'
        ∧ (p'.1, q.2) ∈ l' := by
  obtain ⟨l2, hl2⟩ : ∃ l2, objGet (objSetIn m S T w) T = some l2 := by
    refine objGet_some_of_mem_keys ?_
    rw [objSetIn_keys]
    exact hT
  have hmirT : objGet (objSetIn (objSetIn m S T w) T S w) T
      = some (objSet l2 S w) := by
    rw [objGet_objSetIn_self, hl2]
    rfl
  obtain ⟨lS, hlS⟩ := objGet_some_of_mem_keys hS
  have hgetS : ¬ S = T → objGet (objSetIn (objSetIn m S T w) T S w) S
      = some (objSet lS T w) := by
    intro hST
    rw [objGet_objSetIn_ne _ _ _ _ hST, objGet_objSetIn_self, hlS]
    rfl
  have hgetNN : ∀ a, ¬ a = S → ¬ a = T →
      objGet (objSetIn (objSetIn m S T w) T S w) a = objGet m a := by
    intro a haS haT
    rw [objGet_objSetIn_ne _ _ _ _ haT, objGet_objSetIn_ne _ _ _ _ haS]
  intro p' hp' q hq
  obtain ⟨p2, hp2, he1, hc1⟩ := mem_objSetIn hp'
  obtain ⟨p, hp, he2, hc2⟩ := mem_objSetIn hp2
  rcases hc1 with ⟨hpT, hpe1⟩ | ⟨hpT, hpe1⟩
  · -- the outer update touched this row: p2.1 = T
    rw [hpe1] at hq
    rcases mem_objSet hq with rfl | ⟨hq2, hqS⟩
    · -- q is the freshly written mirror entry (S, w)
      refine ⟨hS, hw, ?_⟩
      by_cases hST : S = T
      · subst hST
        refine ⟨_, hmirT, ?_⟩
        rw [he1, hpT]
        exact mem_objSet_self _ _ _
      · refine ⟨objSet lS T w, hgetS hST, ?_⟩
        show (p'.1, w) ∈ objSet lS T w
        rw [he1, hpT]
        exact mem_objSet_self _ _ _
    · -- q was already in the row before the outer update
      rcases hc2 with ⟨hpS, hpe2⟩ | ⟨hpS, hpe2⟩
      · -- the inner update also touched this row: then S = T
        have hST : S = T := by
          rw [← hpS, ← he2, hpT]
        rw [hpe2] at hq2
        rcases mem_objSet hq2 with rfl | ⟨hq3, hqT⟩
        · exact absurd hST.symm hqS
        · obtain ⟨hk, h0, l', hl', hml⟩ := hinv p hp q hq3
          refine ⟨hk, h0, ?_⟩
          refine ⟨l', ?_, ?_⟩
          · rw [hgetNN q.1 hqS (fun h => hqS (h.trans hST.symm))]
            exact hl'
          · rw [he1, he2]
            exact hml
      · -- only the outer update touched the row
        rw [hpe2] at hq2
        obtain ⟨hk, h0, l', hl', hml⟩ := hinv p hp q hq2
        refine ⟨hk, h0, ?_⟩
        by_cases hqT : q.1 = T
        · -- the mirror row is the one the edge wrote into
          by_cases hST : S = T
          · exact absurd (hqT.trans hST.symm) hqS
          · have hl2eq : l2 = l' := by
              have h1 : objGet (objSetIn m S T w) T = objGet m T :=
                objGet_objSetIn_ne _ _ _ _ (fun h => hST h.symm)
              rw [h1] at hl2
              rw [hqT] at hl'
              exact Option.some.inj (hl2.symm.trans hl')
            refine ⟨objSet l2 S w, by rw [hqT]; exact hmirT, ?_⟩
            rw [hl2eq, he1, he2]
            refine mem_objSet_of_ne hml S w ?_
            rw [← he2, hpT]
            intro h
            exact hST h.symm
        · -- the mirror row is neither updated key
          refine ⟨l', ?_, ?_⟩
          · rw [hgetNN q.1 hqS hqT]
            exact hl'
          · rw [he1, he2]
            exact hml
  · -- the outer update did not touch this row
    rw [hpe1] at hq
    rcases hc2 with ⟨hpS, hpe2⟩ | ⟨hpS, hpe2⟩
    · -- the inner update touched it: p.1 = S
      rw [hpe2] at hq
      rcases mem_objSet hq with rfl | ⟨hq2, hqT⟩
      · -- q is the freshly written entry (T, w)
        refine ⟨hT, hw, ⟨objSet l2 S w, hmirT, ?_⟩⟩
        show (p'.1, w) ∈ objSet l2 S w
        rw [he1, he2, hpS]
        exact mem_objSet_self _ _ _
      · obtain ⟨hk, h0, l', hl', hml⟩ := hinv p hp q hq2
        refine ⟨hk, h0, ?_⟩
        have hST : ¬ S = T := by
          intro h
          exact hpT (he2.trans (hpS.trans h))
        by_cases hqS : q.1 = S
        · have hlSeq : lS = l' := by
            rw [hqS] at hl'
            exact Option.some.inj (hlS.symm.trans hl')
          refine ⟨objSet lS T w, by rw [hqS]; exact hgetS hST, ?_⟩
          rw [hlSeq, he1, he2]
          refine mem_objSet_of_ne hml T w ?_
          rw [hpS]
          exact hST
        · refine ⟨l', ?_, ?_⟩
          · rw [hgetNN q.1 hqS hqT]
            exact hl'
          · rw [he1, he2]
            exact hml
    · -- neither update touched the row
      rw [hpe2] at hq
      obtain ⟨hk, h0, l', hl', hml⟩ := hinv p hp q hq
      refine ⟨hk, h0, ?_⟩
      have hpT' : ¬ p.1 = T := fun h => hpT (he2.trans h)
      by_cases hqT : q.1 = T
      · by_cases hST : S = T
        · subst hST
          rw [hqT] at hl'
          have hl2eq : l2 = objSet l' S w := by
            rw [objGet_objSetIn_self, hl'] at hl2
            have h2 : some (objSet l' S w) = some l2 := hl2
            exact (Option.some.inj h2).symm
          refine ⟨objSet l2 S w, by rw [hqT]; exact hmirT, ?_⟩
          rw [hl2eq, he1, he2]
          exact mem_objSet_of_ne (mem_objSet_of_ne hml S w hpS) S w hpS
        · have hl2eq : l2 = l' := by
            have h1 : objGet (objSetIn m S T w) T = objGet m T :=
              objGet_objSetIn_ne _ _ _ _ (fun h => hST h.symm)
            rw [h1] at hl2
            rw [hqT] at hl'
            exact Option.some.inj (hl2.symm.trans hl')
          refine ⟨objSet l2 S w, by rw [hqT]; exact hmirT, ?_⟩
          rw [hl2eq, he1, he2]
          exact mem_objSet_of_ne hml S w hpS
      · by_cases hqS : q.1 = S
        · have hST : ¬ S = T := fun h => hqT (hqS.trans h)
          have hlSeq : lS = l' := by
            rw [hqS] at hl'
            exact Option.some.inj (hlS.symm.trans hl')
          refine ⟨objSet lS T w, by rw [hqS]; exact hgetS hST, ?_⟩
          rw [hlSeq, he1, he2]
          exact mem_objSet_of_ne hml T w hpT'
        · refine ⟨l', ?_, ?_⟩
          · rw [hgetNN q.1 hqS hqT]
            exact hl'
          · rw [he1, he2]
            exact hml

theorem buildAdj2_fold_inv :
    ∀ (es : List Edge) (m : List (String × List (String × ℚ))),
      (∀ e ∈ es, e.source ∈ m.map Prod.fst ∧ e.target ∈ m.map Prod.fst
        ∧ 0 ≤ e.weight) →
      (∀ p ∈ m, ∀ q ∈ p.2, q.1 ∈ m.map Prod.fst ∧ 0 ≤ q.2 ∧
        ∃ l', objGet m q.1 = some l' ∧ (p.1, q.2) ∈ l') →
      ∀ p ∈ es.foldl (fun m' e =>
          objSetIn (objSetIn m' e.source e.target e.weight)
            e.target e.source e.weight) m, ∀ q ∈ p.2,
        q.1 ∈ m.map Prod.fst ∧ 0 ≤ q.2 ∧
        ∃ l', objGet (es.foldl (fun m' e =>
          objSetIn (objSetIn m' e.source e.target e.weight)
            e.target e.source e.weight) m) q.1 = some l'
          ∧ (p.1, q.2) ∈ l' := by
  intro es
  induction es with
  | nil =>
    intro m _ hinv
    exact hinv
  | cons e es' ih =>
    intro m hes hinv
    have hkeys1 : (objSetIn (objSetIn m e.source e.target e.weight)
        e.target e.source e.weight).map Prod.fst = m.map Prod.fst := by
      rw [objSetIn_keys, objSetIn_keys]
    have hstep := objSetIn_pair_inv (hes e (List.mem_cons_self _ _)).1
      (hes e (List.mem_cons_self _ _)).2.1
      (hes e (List.mem_cons_self _ _)).2.2 hinv
    have hstep' : ∀ p ∈ objSetIn (objSetIn m e.source e.target e.weight)
        e.target e.source e.weight, ∀ q ∈ p.2,
        q.1 ∈ (objSetIn (objSetIn m e.source e.target e.weight)
          e.target e.source e.weight).map Prod.fst ∧ 0 ≤ q.2 ∧
        ∃ l', objGet (objSetIn (objSetIn m e.source e.target e.weight)
          e.target e.source e.weight) q.1 = some l' ∧ (p.1, q.2) ∈ l' := by
      intro p hp q hq
      obtain ⟨h1, h2, h3⟩ := hstep p hp q hq
      refine ⟨?_, h2, h3⟩
      rw [hkeys1]
      exact h1
    have hes' : ∀ e' ∈ es',
        e'.source ∈ (objSetIn (objSetIn m e.source e.target e.weight)
          e.target e.source e.weight).map Prod.fst
        ∧ e'.target ∈ (objSetIn (objSetIn m e.source e.target e.weight)
          e.target e.source e.weight).map Prod.fst ∧ 0 ≤ e'.weight := by
      intro e' he'
      rw [hkeys1]
      exact hes e' (List.mem_cons_of_mem _ he')
    have hres := ih _ hes' hstep'
    intro p hp q hq
    rw [List.foldl_cons] at hp
    obtain ⟨h1, h2, h3⟩ := hres p hp q hq
    rw [hkeys1] at h1
    refine ⟨h1, h2, ?_⟩
    rw [List.foldl_cons]
    exact h3

/-- The nested adjacency function of `solveTsp` is well-formed over the
node identifiers of a well-formed graph. -/
theorem adj2Of_wf (nodes : List Node) (edges : List Edge)
    (hwf : GraphWF nodes edges) :
    NbrsWF (adj2Of nodes edges) (nodes.map Node.id) := by
  have hinit_keys : (buildAdjInit nodes).map Prod.fst = nodes.map Node.id :=
    nodes_foldl_objSet_keys _ nodes hwf.1
  have hes : ∀ e ∈ edges, e.source ∈ (buildAdjInit nodes).map Prod.fst
      ∧ e.target ∈ (buildAdjInit nodes).map Prod.fst ∧ 0 ≤ e.weight := by
    intro e he
    rw [hinit_keys]
    exact ⟨(hwf.2 e he).1, (hwf.2 e he).2.1, (hwf.2 e he).2.2⟩
  have hinv0 : ∀ p ∈ buildAdjInit nodes, ∀ q ∈ p.2,
      q.1 ∈ (buildAdjInit nodes).map Prod.fst ∧ 0 ≤ q.2 ∧
      ∃ l', objGet (buildAdjInit nodes) q.1 = some l' ∧ (p.1, q.2) ∈ l' := by
    intro p hp q hq
    have hval : p.2 = [] := nodes_foldl_objSet_val _ nodes p hp
    rw [hval] at hq
    cases hq
  have hmain := buildAdj2_fold_inv edges (buildAdjInit nodes) hes hinv0
  have hdecomp : ∀ a (p : String × ℚ), p ∈ adj2Of nodes edges a →
      ∃ la, objGet (buildAdj2 nodes edges) a = some la ∧ p ∈ la := by
    intro a p hp
    rcases hg : objGet (buildAdj2 nodes edges) a with _ | la
    · unfold adj2Of at hp
      rw [hg] at hp
      cases hp
    · unfold adj2Of at hp
      rw [hg] at hp
      exact ⟨la, rfl, hp⟩
  have hfacts : ∀ a (p : String × ℚ), p ∈ adj2Of nodes edges a →
      p.1 ∈ nodes.map Node.id ∧ 0 ≤ p.2 ∧
      ∃ l', objGet (buildAdj2 nodes edges) p.1 = some l' ∧ (a, p.2) ∈ l' := by
    intro a p hp
    obtain ⟨la, hga, hpla⟩ := hdecomp a p hp
    have hmem : (a, la) ∈ buildAdj2 nodes edges := objGet_mem hga
    obtain ⟨h1, h2, l', h3, h4⟩ := hmain (a, la) hmem p hpla
    rw [hinit_keys] at h1
    exact ⟨h1, h2, l', h3, h4⟩
  refine ⟨?_, ?_, ?_⟩
  · intro a p hp
    exact (hfacts a p hp).1
  · intro a p hp
    exact (hfacts a p hp).2.1
  · intro a b w hp
    obtain ⟨_, _, l', h3, h4⟩ := hfacts a (b, w) hp
    unfold adj2Of
    rw [h3]
    exact h4

/-! ## The `findShortestPath` loop of the tour constructor -/

theorem fspLoop_succ (nbrs : String → List (String × ℚ)) (toNodeId : String)
    (fuel : ℕ) (st : DState) :
    fspLoop nbrs toNodeId (fuel + 1) st
      = if st.pq = [] then some st
        else if jsMinKey st.pq = toNodeId then
          some (DState.mk st.dist st.prev (objDel st.pq (jsMinKey st.pq)))
        else fspLoop nbrs toNodeId fuel
          (relaxAll nbrs (jsMinKey st.pq)
            (DState.mk st.dist st.prev (objDel st.pq (jsMinKey st.pq)))) := by
  rw [fspLoop]

theorem dinv_toFspOut {nbrs : String → List (String × ℚ)} {startId : String}
    {keys po : List String} {st : DState}
    (hI : DInv nbrs startId keys po st) : FspOut nbrs startId keys st := by
  refine ⟨hI.dk, hI.pk, hI.realiz, fun k u h => (hI.prev_fin k u h).1, ?_⟩
  intro k hk
  rcases hI.chain k hk with ⟨l, hl, hlh, hlfin, _, hlnd⟩
  have hlen : po.length ≤ keys.length :=
    nodup_length_le hI.po_nd (fun x hx => hI.po_sub x hx)
  exact ⟨l, chainTo_mono _ _ _ _ _ hl (by omega), hlh, hlfin, hlnd⟩

/-- The `findShortestPath` loop returns a state whose `distances`/`prev`
satisfy the output invariant, and in which the target's distance
lower-bounds the weight of every walk from the start to the target. -/
theorem fspLoop_spec {nbrs : String → List (String × ℚ)}
    {startId toNodeId : String} {keys : List String}
    (hwf : NbrsWF nbrs keys) :
    ∀ (fuel : ℕ) (po : List String) (st : DState),
      DInv nbrs startId keys po st → toNodeId ∉ po →
      st.pq.length < fuel →
      ∃ st', fspLoop nbrs toNodeId fuel st = some st'
        ∧ FspOut nbrs startId keys st'
        ∧ (∀ d : ℚ, NWalk nbrs startId toNodeId d →
            dGet st' toNodeId ≤ (d : Dist)) := by
  intro fuel
  induction fuel with
  | zero =>
    intro po st _ _ hlen
    omega
  | succ fuel ih =>
    intro po st hI hpo hlen
    rw [fspLoop_succ]
    by_cases hpq : st.pq = []
    · rw [if_pos hpq]
      refine ⟨st, rfl, dinv_toFspOut hI, ?_⟩
      intro d hwd
      have htk : toNodeId ∈ keys := by
        rcases nwalk_end_mem hwf hwd with rfl | h
        · exact hI.start_mem
        · exact h
      have : toNodeId ∈ st.pq.map Prod.fst := (hI.qk _).mpr ⟨htk, hpo⟩
      rw [hpq] at this
      exact absurd this (List.not_mem_nil _)
    · rw [if_neg hpq]
      by_cases hu : jsMinKey st.pq = toNodeId
      · rw [if_pos hu]
        refine ⟨_, rfl, ?_, ?_⟩
        · obtain hO := dinv_toFspOut hI
          exact ⟨hO.dk, hO.pk, hO.realiz, hO.prev_fin, hO.chain⟩
        · intro d hwd
          have h2 : dGet st (jsMinKey st.pq) ≤ (d : Dist) := by
            refine DInv.pop_opt hwf (fun x h => h) hI hpq ?_
            rw [hu]
            exact hwd
          rw [hu] at h2
          exact h2
      · rw [if_neg hu]
        obtain ⟨hI', hkeys'⟩ := dinv_step hwf hI hpq rfl
        have hpo' : toNodeId ∉ po ++ [jsMinKey st.pq] := by
          intro h
          rcases List.mem_append.mp h with h | h
          · exact hpo h
          · exact hu (List.mem_singleton.mp h).symm
        have humem : jsMinKey st.pq ∈ st.pq.map Prod.fst := hI.min_mem hpq
        have hlen1 := length_filter_ne hI.q_nd humem
        have hlen' : (relaxAll nbrs (jsMinKey st.pq)
            (DState.mk st.dist st.prev
              (objDel st.pq (jsMinKey st.pq)))).pq.length < fuel := by
          have e1 : (relaxAll nbrs (jsMinKey st.pq)
              (DState.mk st.dist st.prev
                (objDel st.pq (jsMinKey st.pq)))).pq.length
              = ((relaxAll nbrs (jsMinKey st.pq)
                (DState.mk st.dist st.prev
                  (objDel st.pq (jsMinKey st.pq)))).pq.map Prod.fst).length :=
            by simp
          have e2 : (st.pq.map Prod.fst).length = st.pq.length := by simp
          rw [e1, hkeys', objDel_keys]
          omega
        exact ih (po ++ [jsMinKey st.pq]) _ hI' hpo' hlen'

theorem findShortestPath_eq (f t : String) (nodes : List Node)
    (nbrs : String → List (String × ℚ))
    (hf : objHas (fspInit nodes).pq f = true) :
    findShortestPath f t nodes nbrs
      = match fspLoop nbrs t (nodes.length + 2) (dijkstraInit nodes f) with
        | none => (⊤, [])
        | some st =>
          if (prevChain st.prev (st.prev.length + 1) t).head? = some f
          then (dGet st t, prevChain st.prev (st.prev.length + 1) t)
          else (⊤, []) := by
  unfold findShortestPath
  rw [if_pos hf]
  rfl

/-- Full behavior of `findShortestPath` from an existing `fromNodeId` to a
distinct `toNodeId`: on a reachable target it returns a finite distance and
a reconstruction path from `fromNodeId` to `toNodeId` all of whose vertices
are reachable; on an unreachable target it returns `{distance: Infinity,
path: []}`. -/
theorem findShortestPath_spec {nodes : List Node}
    {nbrs : String → List (String × ℚ)} {f t : String}
    (hwf : NbrsWF nbrs (nodes.map Node.id))
    (hnd : (nodes.map Node.id).Nodup)
    (hid : "" ∉ nodes.map Node.id)
    (hf : f ∈ nodes.map Node.id) (hft : ¬ f = t) :
    (NReach nbrs f t →
      ∃ (q : ℚ) (l : List String), findShortestPath f t nodes nbrs
          = ((q : Dist), l)
        ∧ l.head? = some f ∧ l.getLast? = some t
        ∧ (∀ v ∈ l, NReach nbrs f v))
    ∧ (¬ NReach nbrs f t →
        findShortestPath f t nodes nbrs = (⊤, [])) := by
  have hqk0 : (fspInit nodes).pq.map Prod.fst = nodes.map Node.id :=
    nodes_foldl_objSet_keys _ nodes hnd
  have hguard : objHas (fspInit nodes).pq f = true := by
    rw [objHas_iff_mem, hqk0]
    exact hf
  have hpq_keys : (dijkstraInit nodes f).pq.map Prod.fst
      = nodes.map Node.id := by
    show (objSet (fspInit nodes).pq f 0).map Prod.fst = _
    rw [objSet_keys_of_mem _ _ _ (hqk0 ▸ hf), hqk0]
  have hlen : (dijkstraInit nodes f).pq.length < nodes.length + 2 := by
    have e1 : (dijkstraInit nodes f).pq.length
        = ((dijkstraInit nodes f).pq.map Prod.fst).length := by simp
    rw [e1, hpq_keys]
    simp only [List.length_map]
    omega
  obtain ⟨st', hrun, hO, hmin⟩ := fspLoop_spec hwf (nodes.length + 2) []
    (dijkstraInit nodes f) (dinv_init hnd hid hf) (List.not_mem_nil t) hlen
  have heq : findShortestPath f t nodes nbrs
      = (if (prevChain st'.prev (st'.prev.length + 1) t).head? = some f
         then (dGet st' t, prevChain st'.prev (st'.prev.length + 1) t)
         else ((⊤ : Dist), ([] : List String))) := by
    rw [findShortestPath_eq f t nodes nbrs hguard, hrun]
  have hprevlen : st'.prev.length = (nodes.map Node.id).length := by
    have e1 : (st'.prev.map Prod.fst).length = st'.prev.length := by simp
    rw [hO.pk] at e1
    omega
  constructor
  · intro hreach
    obtain ⟨d, hwd⟩ := hreach
    have hfin : ¬ dGet st' t = ⊤ := by
      intro h
      have h2 := hmin d hwd
      rw [h] at h2
      exact absurd (top_le_iff.mp h2) (by simp)
    obtain ⟨q, hq⟩ : ∃ q : ℚ, dGet st' t = (q : Dist) := by
      rcases hdt : dGet st' t with _ | q
      · exact absurd hdt hfin
      · exact ⟨q, rfl⟩
    obtain ⟨l, hl, hlh, hlfin, hlnd⟩ := hO.chain t hfin
    have htk : t ∈ nodes.map Node.id := dGet_mem_of_ne_top hO.dk hfin
    have ht_ne : ¬ t = "" := fun h => hid (h ▸ htk)
    have hlast : l.getLast? = some t := chainTo_getLast _ _ _ _ hl ht_ne
    have hl' : chainTo st'.prev (st'.prev.length + 1) t = some l := by
      rw [hprevlen]
      exact hl
    have hpc : prevChain st'.prev (st'.prev.length + 1) t = l :=
      chainTo_to_prevChain _ _ _ _ hl'
    rw [hpc, if_pos hlh] at heq
    refine ⟨q, l, by rw [heq, hq], hlh, hlast, ?_⟩
    intro v hv
    have hvfin := hlfin v hv
    rcases hdv : dGet st' v with _ | qv
    · exact absurd hdv hvfin
    · exact ⟨qv, hO.realiz v qv hdv⟩
  · intro hunreach
    have htop : dGet st' t = ⊤ := by
      rcases hdt : dGet st' t with _ | q
      · rfl
      · exact absurd ⟨q, hO.realiz t q hdt⟩ hunreach
    have hpget : pGet st' t = none := by
      rcases hp : pGet st' t with _ | u'
      · rfl
      · exact absurd htop (hO.prev_fin t u' hp)
    by_cases ht_ne : t = ""
    · have hchain : prevChain st'.prev (st'.prev.length + 1) t = [] := by
        rw [prevChain, if_pos ht_ne]
      rw [hchain] at heq
      rw [heq, if_neg (by simp)]
    · have hchain : prevChain st'.prev (st'.prev.length + 1) t = [t] := by
        rw [prevChain, if_neg ht_ne]
        have hp2 : (objGet st'.prev t).getD none = none := hpget
        rw [hp2]
      rw [hchain] at heq
      rw [heq, if_neg (by
        simp only [List.head?_cons, Option.some.injEq]
        exact fun h => hft h.symm)]

/-! ## The greedy phases of `solveTsp` -/

theorem pickNearest_fold (dOf : String → Dist) :
    ∀ (cands : List String) (acc : Option String × Dist),
      (∀ x, acc.1 = some x → acc.2 = dOf x ∧ ¬ acc.2 = ⊤) →
      (acc.1 = none → acc.2 = ⊤) →
      (∀ x, (cands.foldl
          (fun acc c => if dOf c < acc.2 then (some c, dOf c) else acc)
          acc).1 = some x →
        (cands.foldl
          (fun acc c => if dOf c < acc.2 then (some c, dOf c) else acc)
          acc).2 = dOf x ∧ ¬ dOf x = ⊤ ∧ (x ∈ cands ∨ acc.1 = some x))
      ∧ ((cands.foldl
          (fun acc c => if dOf c < acc.2 then (some c, dOf c) else acc)
          acc).1 = none →
        acc.1 = none ∧ ∀ c ∈ cands, dOf c = ⊤) := by
  intro cands
  induction cands with
  | nil =>
    intro acc hsome hnone
    refine ⟨?_, ?_⟩
    · intro x hx
      obtain ⟨h1, h2⟩ := hsome x hx
      exact ⟨h1, by rw [← h1]; exact h2, Or.inr hx⟩
    · intro h
      exact ⟨h, by intro c hc; cases hc⟩
  | cons c cands' ih =>
    intro acc hsome hnone
    rw [List.foldl_cons]
    by_cases hlt : dOf c < acc.2
    · rw [if_pos hlt]
      have hne : ¬ dOf c = ⊤ := by
        intro h
        rw [h] at hlt
        exact absurd hlt not_top_lt
      obtain ⟨ih1, ih2⟩ := ih (some c, dOf c)
        (by
          intro x hx
          have hx' : c = x := Option.some.inj hx
          exact ⟨by rw [← hx'], hne⟩)
        (by intro h; cases h)
      refine ⟨?_, ?_⟩
      · intro x hx
        obtain ⟨h1, h2, h3⟩ := ih1 x hx
        refine ⟨h1, h2, ?_⟩
        rcases h3 with h | h
        · exact Or.inl (List.mem_cons_of_mem _ h)
        · exact Or.inl (by rw [← Option.some.inj h]; exact List.mem_cons_self _ _)
      · intro h
        obtain ⟨h1, _⟩ := ih2 h
        cases h1
    · rw [if_neg hlt]
      obtain ⟨ih1, ih2⟩ := ih acc hsome hnone
      refine ⟨?_, ?_⟩
      · intro x hx
        obtain ⟨h1, h2, h3⟩ := ih1 x hx
        refine ⟨h1, h2, ?_⟩
        rcases h3 with h | h
        · exact Or.inl (List.mem_cons_of_mem _ h)
        · exact Or.inr h
      · intro h
        obtain ⟨h1, h2⟩ := ih2 h
        have hacc2 : acc.2 = ⊤ := hnone h1
        rw [hacc2] at hlt
        have hctop : dOf c = ⊤ := by
          by_contra hc
          exact hlt (lt_top_iff_ne_top.mpr hc)
        refine ⟨h1, ?_⟩
        intro c' hc'
        rcases List.mem_cons.mp hc' with rfl | hc'
        · exact hctop
        · exact h2 c' hc'

theorem pickNearest_some {dOf : String → Dist} {cands : List String}
    {c : String} {d : Dist} (h : pickNearest dOf cands = (some c, d)) :
    c ∈ cands ∧ d = dOf c ∧ ¬ dOf c = ⊤ := by
  obtain ⟨h1, _⟩ := pickNearest_fold dOf cands (none, ⊤)
    (by intro x hx; cases hx) (fun _ => rfl)
  have hx : (pickNearest dOf cands).1 = some c := by rw [h]
  obtain ⟨ha, hb, hc⟩ := h1 c hx
  rcases hc with hm | hm
  · refine ⟨hm, ?_, hb⟩
    have : (pickNearest dOf cands).2 = d := by rw [h]
    rw [← this]
    exact ha
  · cases hm

theorem pickNearest_none {dOf : String → Dist} {cands : List String}
    {d : Dist} (h : pickNearest dOf cands = (none, d)) :
    ∀ c ∈ cands, dOf c = ⊤ := by
  obtain ⟨_, h2⟩ := pickNearest_fold dOf cands (none, ⊤)
    (by intro x hx; cases hx) (fun _ => rfl)
  have hx : (pickNearest dOf cands).1 = none := by rw [h]
  exact (h2 hx).2

theorem buildAdj2_keys (nodes : List Node) (edges : List Edge) :
    (buildAdj2 nodes edges).map Prod.fst
      = (buildAdjInit nodes).map Prod.fst := by
  unfold buildAdj2
  generalize buildAdjInit nodes = m
  induction edges generalizing m with
  | nil => rfl
  | cons e es ih =>
    rw [List.foldl_cons, ih, objSetIn_keys, objSetIn_keys]

theorem adj2Of_of_not_mem (nodes : List Node) (edges : List Edge)
    {u : String} (hnd : (nodes.map Node.id).Nodup)
    (h : u ∉ nodes.map Node.id) : adj2Of nodes edges u = [] := by
  unfold adj2Of
  have hkeys : (buildAdj2 nodes edges).map Prod.fst = nodes.map Node.id := by
    rw [buildAdj2_keys]
    exact nodes_foldl_objSet_keys _ nodes hnd
  rw [(objGet_eq_none _ _).mpr (hkeys ▸ h)]
  rfl

theorem findShortestPath_no_from {f t : String} {nodes : List Node}
    {nbrs : String → List (String × ℚ)}
    (hnd : (nodes.map Node.id).Nodup) (hf : f ∉ nodes.map Node.id) :
    findShortestPath f t nodes nbrs = (⊤, []) := by
  unfold findShortestPath
  rw [if_neg ?_]
  intro hh
  refine hf ?_
  have hqk0 : (fspInit nodes).pq.map Prod.fst = nodes.map Node.id :=
    nodes_foldl_objSet_keys _ nodes hnd
  rw [← hqk0]
  exact (objHas_iff_mem _ _).mp hh

theorem greedyRoute_nil (dmat : String → String → Dist × List String)
    (fuel : ℕ) (cur : String) (acc : List String) (total : Dist) :
    greedyRoute dmat (fuel + 1) [] cur acc total = (acc, cur, total) := by
  rw [greedyRoute]
  rfl

theorem greedyRoute_none (dmat : String → String → Dist × List String)
    (fuel : ℕ) {cands : List String} (cur : String) (acc : List String)
    (total : Dist) (hne : ¬ cands = []) {d : Dist}
    (hpick : pickNearest (fun c => (dmat cur c).1) cands = (none, d)) :
    greedyRoute dmat (fuel + 1) cands cur acc total = (acc, cur, total) := by
  rw [greedyRoute, if_neg hne, hpick]

theorem greedyRoute_pick (dmat : String → String → Dist × List String)
    (fuel : ℕ) {cands : List String} (cur : String) (acc : List String)
    (total : Dist) (hne : ¬ cands = []) {nearest : String} {minD : Dist}
    (hpick : pickNearest (fun c => (dmat cur c).1) cands
      = (some nearest, minD)) :
    greedyRoute dmat (fuel + 1) cands cur acc total
      = greedyRoute dmat fuel (cands.erase nearest) nearest
          (acc ++ ((dmat cur nearest).2).drop 1) (total + minD) := by
  rw [greedyRoute, if_neg hne, hpick]

theorem mem_getLast?_self :
    ∀ {l : List String} {a : String}, l.getLast? = some a → a ∈ l := by
  intro l
  induction l with
  | nil =>
    intro a h
    cases h
  | cons x t ih =>
    intro a h
    rcases t with _ | ⟨y, t'⟩
    · have hx : x = a := by simpa using h
      rw [hx]
      exact List.mem_cons_self _ _
    · rw [List.getLast?_cons_cons] at h
      exact List.mem_cons_of_mem _ (ih h)

/-- The loop invariant of each greedy phase of `solveTsp`, over the
distance oracle `distMatrix`: the accumulated path stays nonempty, starts
at the depot, ends at the current location, consists of
reachable-from-depot vertices only, preserves earlier vertices, and visits
every reachable candidate. -/
theorem greedyRoute_spec (nodes : List Node) (edges : List Edge)
    (depot : String) (hwf : GraphWF nodes edges)
    (hid : "" ∉ nodes.map Node.id) :
    ∀ (fuel : ℕ) (cands : List String) (cur : String) (acc : List String)
      (total : Dist),
      cands.length < fuel → ¬ acc = [] →
      acc.head? = some depot →
      acc.getLast? = some cur →
      NReach (adj2Of nodes edges) depot cur →
      (cur ∈ nodes.map Node.id ∨ cur = depot) →
      (∀ v ∈ acc, NReach (adj2Of nodes edges) depot v) →
      ¬ (greedyRoute (distMatrix nodes edges) fuel cands cur acc total).1 = []
      ∧ (greedyRoute (distMatrix nodes edges) fuel cands cur acc
          total).1.head? = some depot
      ∧ (greedyRoute (distMatrix nodes edges) fuel cands cur acc
          total).1.getLast?
          = some (greedyRoute (distMatrix nodes edges) fuel cands cur acc
            total).2.1
      ∧ NReach (adj2Of nodes edges) depot
          (greedyRoute (distMatrix nodes edges) fuel cands cur acc total).2.1
      ∧ ((greedyRoute (distMatrix nodes edges) fuel cands cur acc total).2.1
            ∈ nodes.map Node.id
          ∨ (greedyRoute (distMatrix nodes edges) fuel cands cur acc
            total).2.1 = depot)
      ∧ (∀ v ∈ (greedyRoute (distMatrix nodes edges) fuel cands cur acc
          total).1, NReach (adj2Of nodes edges) depot v)
      ∧ (∀ v ∈ acc, v ∈ (greedyRoute (distMatrix nodes edges) fuel cands cur
          acc total).1)
      ∧ (∀ c ∈ cands, NReach (adj2Of nodes edges) depot c →
          c ∈ (greedyRoute (distMatrix nodes edges) fuel cands cur acc
            total).1) := by
  have hwf2 := adj2Of_wf nodes edges hwf
  intro fuel
  induction fuel with
  | zero =>
    intro cands cur acc total hlen
    exact absurd hlen (Nat.not_lt_zero _)
  | succ fuel ih =>
    intro cands cur acc total hlen hne hhead hlast hR hcur hacc
    by_cases hc : cands = []
    · subst hc
      rw [greedyRoute_nil]
      refine ⟨hne, hhead, hlast, hR, hcur, hacc, fun v hv => hv, ?_⟩
      intro c hcm
      exact absurd hcm (List.not_mem_nil c)
    · rcases hpick : pickNearest
        (fun c => ((distMatrix nodes edges) cur c).1) cands with ⟨onear, minD⟩
      rcases onear with _ | nearest
      · -- no candidate at finite distance: the phase stops here
        rw [greedyRoute_none _ fuel cur acc total hc hpick]
        have hnofin := pickNearest_none hpick
        refine ⟨hne, hhead, hlast, hR, hcur, hacc, fun v hv => hv, ?_⟩
        intro c hcm hRc
        exfalso
        have hcc : (distMatrix nodes edges cur c).1 = ⊤ := hnofin c hcm
        by_cases hceq : cur = c
        · unfold distMatrix at hcc
          rw [if_pos hceq] at hcc
          simp at hcc
        · have hreach_cc : NReach (adj2Of nodes edges) cur c :=
            nreach_trans (nreach_symm hwf2 hR) hRc
          by_cases hcin : cur ∈ nodes.map Node.id
          · obtain ⟨q, l, hfsp, _⟩ :=
              (findShortestPath_spec hwf2 hwf.1 hid hcin hceq).1 hreach_cc
            unfold distMatrix at hcc
            rw [if_neg hceq, hfsp] at hcc
            simp at hcc
          · obtain ⟨d, hwk⟩ := hreach_cc
            cases hwk with
            | nil => exact hceq rfl
            | cons hstep _ =>
              rw [adj2Of_of_not_mem nodes edges hwf.1 hcin] at hstep
              cases hstep
      · -- a nearest candidate was picked
        obtain ⟨hnc, hmind, hfinD⟩ := pickNearest_some hpick
        rw [greedyRoute_pick _ fuel cur acc total hc hpick]
        have hpos : 0 < cands.length := List.length_pos.mpr hc
        have hlen' : (cands.erase nearest).length < fuel := by
          rw [List.length_erase_of_mem hnc]
          omega
        by_cases hceq : cur = nearest
        · -- the pick is the current location: nothing is spliced
          have hacc' : acc ++ ((distMatrix nodes edges cur nearest).2).drop 1
              = acc := by
            unfold distMatrix
            rw [if_pos hceq]
            simp
          rw [hacc']
          rw [hceq] at hlast hR hcur
          have hres := ih (cands.erase nearest) nearest acc (total + minD)
            hlen' hne hhead hlast hR hcur hacc
          refine ⟨hres.1, hres.2.1, hres.2.2.1, hres.2.2.2.1,
            hres.2.2.2.2.1, hres.2.2.2.2.2.1, hres.2.2.2.2.2.2.1, ?_⟩
          intro c hcm hRc
          by_cases hc2 : c = nearest
          · subst hc2
            refine hres.2.2.2.2.2.2.1 c ?_
            exact mem_getLast?_self hlast
          · exact hres.2.2.2.2.2.2.2 c ((List.mem_erase_of_ne hc2).mpr hcm) hRc
        · -- a real leg is spliced
          have hfsp_ne : ¬ (findShortestPath cur nearest nodes
              (adj2Of nodes edges)).1 = ⊤ := by
            intro h
            refine hfinD ?_
            show (distMatrix nodes edges cur nearest).1 = ⊤
            unfold distMatrix
            rw [if_neg hceq]
            exact h
          have hcin : cur ∈ nodes.map Node.id := by
            by_contra hcin
            rw [findShortestPath_no_from hwf.1 hcin] at hfsp_ne
            exact hfsp_ne rfl
          have hreach : NReach (adj2Of nodes edges) cur nearest := by
            by_contra hnr
            rw [(findShortestPath_spec hwf2 hwf.1 hid hcin hceq).2 hnr]
              at hfsp_ne
            exact hfsp_ne rfl
          obtain ⟨q, l, hfsp, hlh, hll, hlv⟩ :=
            (findShortestPath_spec hwf2 hwf.1 hid hcin hceq).1 hreach
          obtain ⟨rest, hrest⟩ : ∃ rest, l = cur :: rest := by
            rcases l with _ | ⟨h0, rest⟩
            · cases hlh
            · rw [List.head?_cons] at hlh
              exact ⟨rest, by rw [Option.some.inj hlh]⟩
          have hdrop : ((distMatrix nodes edges cur nearest).2).drop 1
              = rest := by
            unfold distMatrix
            rw [if_neg hceq, hfsp, hrest]
            rfl
          have hrest_ne : ¬ rest = [] := by
            intro h
            rw [hrest, h] at hll
            simp at hll
            exact hceq hll
          have hR_nearest : NReach (adj2Of nodes edges) depot nearest :=
            nreach_trans hR hreach
          have hnearest_ids : nearest ∈ nodes.map Node.id
              ∨ nearest = depot := by
            obtain ⟨d, hwk⟩ := hreach
            rcases nwalk_end_mem hwf2 hwk with h | h
            · exact absurd h.symm hceq
            · exact Or.inl h
          have hne' : ¬ (acc ++ rest) = [] := by
            intro h
            exact hne (List.append_eq_nil.mp h).1
          have hhead' : (acc ++ rest).head? = some depot := by
            rw [List.head?_append_of_ne_nil _ hne]
            exact hhead
          have hlast' : (acc ++ rest).getLast? = some nearest := by
            rw [List.getLast?_append_of_ne_nil _ hrest_ne]
            have h2 : (cur :: rest).getLast? = rest.getLast? := by
              show (([cur] : List String) ++ rest).getLast? = rest.getLast?
              rw [List.getLast?_append_of_ne_nil _ hrest_ne]
            rw [hrest, h2] at hll
            exact hll
          have hacc'' : ∀ v ∈ acc ++ rest,
              NReach (adj2Of nodes edges) depot v := by
            intro v hv
            rcases List.mem_append.mp hv with h | h
            · exact hacc v h
            · have hvl : v ∈ l := by
                rw [hrest]
                exact List.mem_cons_of_mem _ h
              exact nreach_trans hR (hlv v hvl)
          rw [hdrop]
          have hres := ih (cands.erase nearest) nearest (acc ++ rest)
            (total + minD) hlen' hne' hhead' hlast' hR_nearest hnearest_ids
            hacc''
          refine ⟨hres.1, hres.2.1, hres.2.2.1, hres.2.2.2.1,
            hres.2.2.2.2.1, hres.2.2.2.2.2.1, ?_, ?_⟩
          · intro v hv
            exact hres.2.2.2.2.2.2.1 v (List.mem_append.mpr (Or.inl hv))
          · intro c hcm hRc
            by_cases hc2 : c = nearest
            · subst hc2
              exact hres.2.2.2.2.2.2.1 c (mem_getLast?_self hlast')
            · exact hres.2.2.2.2.2.2.2 c ((List.mem_erase_of_ne hc2).mpr hcm) hRc

theorem jsDedup_mem_aux :
    ∀ (l acc : List String) (x : String),
      x ∈ l.foldl (fun acc x => if x ∈ acc then acc else acc ++ [x]) acc
        ↔ x ∈ acc ∨ x ∈ l := by
  intro l
  induction l with
  | nil =>
    intro acc x
    simp
  | cons y t ih =>
    intro acc x
    rw [List.foldl_cons]
    by_cases hy : y ∈ acc
    · rw [if_pos hy, ih]
      constructor
      · rintro (h | h)
        · exact Or.inl h
        · exact Or.inr (List.mem_cons_of_mem _ h)
      · rintro (h | h)
        · exact Or.inl h
        · rcases List.mem_cons.mp h with rfl | h
          · exact Or.inl hy
          · exact Or.inr h
    · rw [if_neg hy, ih]
      constructor
      · rintro (h | h)
        · rcases List.mem_append.mp h with h | h
          · exact Or.inl h
          · exact Or.inr
              (List.mem_cons.mpr (Or.inl (List.mem_singleton.mp h)))
        · exact Or.inr (List.mem_cons_of_mem _ h)
      · rintro (h | h)
        · exact Or.inl (List.mem_append.mpr (Or.inl h))
        · rcases List.mem_cons.mp h with rfl | h
          · exact Or.inl
              (List.mem_append.mpr (Or.inr (List.mem_singleton_self _)))
          · exact Or.inr h

theorem jsDedup_mem (l : List String) (x : String) :
    x ∈ jsDedup l ↔ x ∈ l := by
  unfold jsDedup
  rw [jsDedup_mem_aux]
  simp

/-- The combined contract of the three greedy phases and the return leg of
`solveTsp` on a non-degenerate input: the output path is nonempty, starts
and ends at the depot, contains only vertices reachable from the depot,
and contains every requested warehouse and customer address reachable from
the depot. -/
theorem solveTsp_phases (nodes : List Node) (edges : List Edge)
    (startDepot : String) (ws : List String) (cs : List Customer)
    (hwf : GraphWF nodes edges) (hid : "" ∉ nodes.map Node.id)
    (hnd : ¬ (ws = [] ∧ cs = [])) :
    (solveTsp nodes edges startDepot ws cs).1.head? = some startDepot
    ∧ (solveTsp nodes edges startDepot ws cs).1.getLast? = some startDepot
    ∧ (∀ v ∈ (solveTsp nodes edges startDepot ws cs).1,
        NReach (adj2Of nodes edges) startDepot v)
    ∧ (∀ s, (s ∈ ws ∨ s ∈ cs.map Customer.address) →
        NReach (adj2Of nodes edges) startDepot s →
        s ∈ (solveTsp nodes edges startDepot ws cs).1) := by
  have hwf2 := adj2Of_wf nodes edges hwf
  unfold solveTsp
  rw [if_neg hnd]
  dsimp only
  generalize hg1 : greedyRoute (distMatrix nodes edges)
    ((jsDedup ws).length + 1) (jsDedup ws) startDepot [startDepot] 0 = r1
  generalize hg2 : greedyRoute (distMatrix nodes edges)
    ((jsDedup ((cs.filter
      (fun c => c.timeWindow = TimeWindow.morning)).map
        Customer.address)).length + 1)
    (jsDedup ((cs.filter
      (fun c => c.timeWindow = TimeWindow.morning)).map Customer.address))
    r1.2.1 r1.1 r1.2.2 = r2
  generalize hg3 : greedyRoute (distMatrix nodes edges)
    ((jsDedup (jsDedup ((cs.filter
        (fun c => c.timeWindow = TimeWindow.afternoon)).map Customer.address)
      ++ jsDedup ((cs.filter
        (fun c => c.timeWindow = TimeWindow.any)).map
          Customer.address))).length + 1)
    (jsDedup (jsDedup ((cs.filter
        (fun c => c.timeWindow = TimeWindow.afternoon)).map Customer.address)
      ++ jsDedup ((cs.filter
        (fun c => c.timeWindow = TimeWindow.any)).map Customer.address)))
    r2.2.1 r2.1 r2.2.2 = r3
  have hres1 := greedyRoute_spec nodes edges startDepot hwf hid
    ((jsDedup ws).length + 1) (jsDedup ws) startDepot [startDepot] 0
    (by omega) (by simp) rfl rfl ⟨0, NWalk.nil startDepot⟩ (Or.inr rfl)
    (by
      intro v hv
      rw [List.mem_singleton.mp hv]
      exact ⟨0, NWalk.nil startDepot⟩)
  rw [hg1] at hres1
  have hres2 := greedyRoute_spec nodes edges startDepot hwf hid
    ((jsDedup ((cs.filter
      (fun c => c.timeWindow = TimeWindow.morning)).map
        Customer.address)).length + 1)
    (jsDedup ((cs.filter
      (fun c => c.timeWindow = TimeWindow.morning)).map Customer.address))
    r1.2.1 r1.1 r1.2.2 (by omega) hres1.1 hres1.2.1 hres1.2.2.1
    hres1.2.2.2.1 hres1.2.2.2.2.1 hres1.2.2.2.2.2.1
  rw [hg2] at hres2
  have hres3 := greedyRoute_spec nodes edges startDepot hwf hid
    ((jsDedup (jsDedup ((cs.filter
        (fun c => c.timeWindow = TimeWindow.afternoon)).map Customer.address)
      ++ jsDedup ((cs.filter
        (fun c => c.timeWindow = TimeWindow.any)).map
          Customer.address))).length + 1)
    (jsDedup (jsDedup ((cs.filter
        (fun c => c.timeWindow = TimeWindow.afternoon)).map Customer.address)
      ++ jsDedup ((cs.filter
        (fun c => c.timeWindow = TimeWindow.any)).map Customer.address)))
    r2.2.1 r2.1 r2.2.2 (by omega) hres2.1 hres2.2.1 hres2.2.2.1
    hres2.2.2.2.1 hres2.2.2.2.2.1 hres2.2.2.2.2.2.1
  rw [hg3] at hres3
  -- membership chain: a reachable requested stop ends up in `r3.1`
  have hvisit : ∀ s, (s ∈ ws ∨ s ∈ cs.map Customer.address) →
      NReach (adj2Of nodes edges) startDepot s → s ∈ r3.1 := by
    intro s hs hRs
    rcases hs with hs | hs
    · -- a warehouse: visited in phase 1, preserved afterwards
      have h1 : s ∈ r1.1 := hres1.2.2.2.2.2.2.2 s
        ((jsDedup_mem ws s).mpr hs) hRs
      exact hres3.2.2.2.2.2.2.1 s (hres2.2.2.2.2.2.2.1 s h1)
    · -- a customer address: visited in its phase
      obtain ⟨c, hc, hca⟩ := List.mem_map.mp hs
      rcases htw : c.timeWindow with _ | _ | _
      · -- any: phase 3
        refine hres3.2.2.2.2.2.2.2 s ?_ hRs
        rw [jsDedup_mem]
        refine List.mem_append.mpr (Or.inr ?_)
        rw [jsDedup_mem]
        refine List.mem_map.mpr ⟨c, ?_, hca⟩
        rw [List.mem_filter]
        exact ⟨hc, by simp [htw]⟩
      · -- morning: phase 2, preserved in phase 3
        refine hres3.2.2.2.2.2.2.1 s ?_
        refine hres2.2.2.2.2.2.2.2 s ?_ hRs
        rw [jsDedup_mem]
        refine List.mem_map.mpr ⟨c, ?_, hca⟩
        rw [List.mem_filter]
        exact ⟨hc, by simp [htw]⟩
      · -- afternoon: phase 3
        refine hres3.2.2.2.2.2.2.2 s ?_ hRs
        rw [jsDedup_mem]
        refine List.mem_append.mpr (Or.inl ?_)
        rw [jsDedup_mem]
        refine List.mem_map.mpr ⟨c, ?_, hca⟩
        rw [List.mem_filter]
        exact ⟨hc, by simp [htw]⟩
  -- the return leg
  by_cases hd : r3.2.1 = startDepot
  · have hretv : distMatrix nodes edges r3.2.1 startDepot
        = ((0 : Dist), [r3.2.1]) := by
      unfold distMatrix
      rw [if_pos hd]
    rw [hretv]
    rw [if_pos (by simp : ¬ (((0 : Dist), [r3.2.1]) : Dist × List String).1 = ⊤)]
    have hdrop : r3.1 ++ ([r3.2.1].drop 1) = r3.1 := by simp
    refine ⟨?_, ?_, ?_, ?_⟩
    · show (r3.1 ++ ([r3.2.1].drop 1)).head? = some startDepot
      rw [hdrop]
      exact hres3.2.1
    · show (r3.1 ++ ([r3.2.1].drop 1)).getLast? = some startDepot
      rw [hdrop, hres3.2.2.1, hd]
    · intro v hv
      rw [hdrop] at hv
      exact hres3.2.2.2.2.2.1 v hv
    · intro s hs hRs
      rw [hdrop]
      exact hvisit s hs hRs
  · have hin : r3.2.1 ∈ nodes.map Node.id := by
      rcases hres3.2.2.2.2.1 with h | h
      · exact h
      · exact absurd h hd
    have hreach : NReach (adj2Of nodes edges) r3.2.1 startDepot :=
      nreach_symm hwf2 hres3.2.2.2.1
    obtain ⟨q, l, hfsp, hlh, hll, hlv⟩ :=
      (findShortestPath_spec hwf2 hwf.1 hid hin hd).1 hreach
    have hretv : distMatrix nodes edges r3.2.1 startDepot
        = ((q : Dist), l) := by
      unfold distMatrix
      rw [if_neg hd]
      exact hfsp
    rw [hretv]
    rw [if_pos (by simp : ¬ ((((q : Dist), l)) : Dist × List String).1 = ⊤)]
    obtain ⟨rest, hrest⟩ : ∃ rest, l = r3.2.1 :: rest := by
      rcases l with _ | ⟨h0, rest⟩
      · cases hlh
      · rw [List.head?_cons] at hlh
        exact ⟨rest, by rw [Option.some.inj hlh]⟩
    have hrest_ne : ¬ rest = [] := by
      intro h
      rw [hrest, h] at hll
      simp at hll
      exact hd hll
    have hdrop : l.drop 1 = rest := by
      rw [hrest]
      rfl
    refine ⟨?_, ?_, ?_, ?_⟩
    · show (r3.1 ++ l.drop 1).head? = some startDepot
      rw [hdrop, List.head?_append_of_ne_nil _ hres3.1]
      exact hres3.2.1
    · show (r3.1 ++ l.drop 1).getLast? = some startDepot
      rw [hdrop, List.getLast?_append_of_ne_nil _ hrest_ne]
      have h2 : (r3.2.1 :: rest).getLast? = rest.getLast? := by
        show (([r3.2.1] : List String) ++ rest).getLast? = rest.getLast?
        rw [List.getLast?_append_of_ne_nil _ hrest_ne]
      rw [hrest, h2] at hll
      exact hll
    · intro v hv
      rw [hdrop] at hv
      rcases List.mem_append.mp hv with h | h
      · exact hres3.2.2.2.2.2.1 v h
      · have hvl : v ∈ l := by
          rw [hrest]
          exact List.mem_cons_of_mem _ h
        exact nreach_trans hres3.2.2.2.1 (hlv v hvl)
    · intro s hs hRs
      rw [hdrop]
      exact List.mem_append.mpr (Or.inl (hvisit s hs hRs))

unseal Nat.gcd Rat.add in
theorem solveTsp_noret_eval :
    solveTsp noRetNodes noRetEdges "D" [] [⟨"A", TimeWindow.any⟩]
      = (["D", "B", "A"], ((3 : ℚ) : Dist)) := rfl

/-- **C6 counterexample**: on the graph with the empty-string node and two
equal-cost routes `D–B–A` and `D–“”–A`, the tour visits the reachable
customer `A` via `B`, but the return shortest-path tree reaches `D`
through the empty-string node, whose falsiness breaks the reconstruction;
the return leg is dropped and the output path ends at `A`, not at the
depot `D`, although the input (one customer) is non-degenerate. -/
theorem solveTsp_no_return_cex :
    ¬ ([(⟨"A", TimeWindow.any⟩ : Customer)] = [])
    ∧ ¬ ((solveTsp noRetNodes noRetEdges "D" []
        [⟨"A", TimeWindow.any⟩]).1.getLast? = some "D") := by
  refine ⟨by simp, ?_⟩
  rw [solveTsp_noret_eval]
  decide

/-- C6 (corrected): for a well-formed graph with no empty-string node
identifier, on every non-degenerate input the returned path begins and
ends at the depot identifier.  (Without the empty-string exclusion the
claim fails: see the counterexample, where the return leg's
reconstruction breaks and the path ends at a customer.) -/
theorem solveTsp_round_trip (nodes : List Node) (edges : List Edge)
    (startDepot : String) (ws : List String) (cs : List Customer)
    (hwf : GraphWF nodes edges) (hid : "" ∉ nodes.map Node.id)
    (hnd : ¬ (ws = [] ∧ cs = [])) :
    (solveTsp nodes edges startDepot ws cs).1.head? = some startDepot
    ∧ (solveTsp nodes edges startDepot ws cs).1.getLast?
        = some startDepot := by
  obtain ⟨h1, h2, _, _⟩ :=
    solveTsp_phases nodes edges startDepot ws cs hwf hid hnd
  exact ⟨h1, h2⟩

theorem solveTsp_round_trip_witness :
    (solveTsp lineNodes lineEdges "D" []
        [⟨"M", TimeWindow.morning⟩]).1.head? = some "D"
    ∧ (solveTsp lineNodes lineEdges "D" []
        [⟨"M", TimeWindow.morning⟩]).1.getLast? = some "D" :=
  solveTsp_round_trip lineNodes lineEdges "D" [] [⟨"M", TimeWindow.morning⟩]
    (by unfold GraphWF; decide) (by decide) (by decide)

/-! ## Edge-level reachability coincides with the nested adjacency -/

theorem buildAdj2_sound_step {m : List (String × List (String × ℚ))}
    {edges : List Edge} {e : Edge} (he : e ∈ edges)
    (hinv : ∀ p ∈ m, ∀ q ∈ p.2, EStep edges p.1 q.1 q.2) :
    ∀ p ∈ objSetIn (objSetIn m e.source e.target e.weight)
        e.target e.source e.weight, ∀ q ∈ p.2,
      EStep edges p.1 q.1 q.2 := by
  intro p' hp' q hq
  obtain ⟨p2, hp2, he1, hc1⟩ := mem_objSetIn hp'
  obtain ⟨p, hp, he2, hc2⟩ := mem_objSetIn hp2
  have hmain := hinv p hp
  rcases hc1 with ⟨hpT, hpe1⟩ | ⟨hpT, hpe1⟩
  · rw [hpe1] at hq
    rcases mem_objSet hq with rfl | ⟨hq2, _⟩
    · rw [he1, hpT]
      exact ⟨e, he, rfl, Or.inr ⟨rfl, rfl⟩⟩
    · rcases hc2 with ⟨hpS, hpe2⟩ | ⟨hpS, hpe2⟩
      · rw [hpe2] at hq2
        rcases mem_objSet hq2 with rfl | ⟨hq3, _⟩
        · rw [he1, he2, hpS]
          exact ⟨e, he, rfl, Or.inl ⟨rfl, rfl⟩⟩
        · rw [he1, he2]
          exact hmain q hq3
      · rw [hpe2] at hq2
        rw [he1, he2]
        exact hmain q hq2
  · rw [hpe1] at hq
    rcases hc2 with ⟨hpS, hpe2⟩ | ⟨hpS, hpe2⟩
    · rw [hpe2] at hq
      rcases mem_objSet hq with rfl | ⟨hq2, _⟩
      · rw [he1, he2, hpS]
        exact ⟨e, he, rfl, Or.inl ⟨rfl, rfl⟩⟩
      · rw [he1, he2]
        exact hmain q hq2
    · rw [hpe2] at hq
      rw [he1, he2]
      exact hmain q hq

theorem buildAdj2_sound (edges : List Edge) :
    ∀ (es : List Edge) (m : List (String × List (String × ℚ))),
      (∀ e ∈ es, e ∈ edges) →
      (∀ p ∈ m, ∀ q ∈ p.2, EStep edges p.1 q.1 q.2) →
      ∀ p ∈ es.foldl (fun m' e =>
          objSetIn (objSetIn m' e.source e.target e.weight)
            e.target e.source e.weight) m,
        ∀ q ∈ p.2, EStep edges p.1 q.1 q.2 := by
  intro es
  induction es with
  | nil =>
    intro m _ hinv
    exact hinv
  | cons e es' ih =>
    intro m hes hinv p hp q hq
    rw [List.foldl_cons] at hp
    exact ih _ (fun e' he' => hes e' (List.mem_cons_of_mem _ he'))
      (buildAdj2_sound_step (hes e (List.mem_cons_self _ _)) hinv) p hp q hq

/-- Every entry of the nested adjacency corresponds to an actual edge
step (with the stored weight). -/
theorem adj2Of_estep {nodes : List Node} {edges : List Edge}
    {a b : String} {w : ℚ} (h : (b, w) ∈ adj2Of nodes edges a) :
    EStep edges a b w := by
  rcases hg : objGet (buildAdj2 nodes edges) a with _ | la
  · unfold adj2Of at h
    rw [hg] at h
    cases h
  · unfold adj2Of at h
    rw [hg] at h
    have hmem : (a, la) ∈ buildAdj2 nodes edges := objGet_mem hg
    have hinit : ∀ p ∈ buildAdjInit nodes, ∀ q ∈ p.2,
        EStep edges p.1 q.1 q.2 := by
      intro p hp q hq
      rw [nodes_foldl_objSet_val _ nodes p hp] at hq
      cases hq
    exact buildAdj2_sound edges edges (buildAdjInit nodes) (fun _ h => h)
      hinit (a, la) hmem (b, w) h

theorem objSetIn_presence {m : List (String × List (String × ℚ))}
    {k1 k2 : String} {v : ℚ} {a b : String}
    (h : ∃ w', (b, w') ∈ (objGet m a).getD []) :
    ∃ w', (b, w') ∈ (objGet (objSetIn m k1 k2 v) a).getD [] := by
  obtain ⟨w', hw⟩ := h
  by_cases ha : a = k1
  · rw [ha] at hw
    rcases hg : objGet m k1 with _ | l
    · rw [hg] at hw
      cases hw
    · rw [hg] at hw
      rw [ha, objGet_objSetIn_self, hg]
      by_cases hb : b = k2
      · refine ⟨v, ?_⟩
        show (b, v) ∈ objSet l k2 v
        rw [hb]
        exact mem_objSet_self _ _ _
      · refine ⟨w', ?_⟩
        show (b, w') ∈ objSet l k2 v
        exact mem_objSet_of_ne hw k2 v hb
  · rw [objGet_objSetIn_ne _ _ _ _ ha]
    exact ⟨w', hw⟩

theorem buildAdj2_presence :
    ∀ (es : List Edge) (m : List (String × List (String × ℚ)))
      {a b : String},
      (∃ w', (b, w') ∈ (objGet m a).getD []) →
      ∃ w', (b, w') ∈ (objGet (es.foldl (fun m' e =>
        objSetIn (objSetIn m' e.source e.target e.weight)
          e.target e.source e.weight) m) a).getD [] := by
  intro es
  induction es with
  | nil =>
    intro m a b h
    exact h
  | cons e es' ih =>
    intro m a b h
    rw [List.foldl_cons]
    exact ih _ (objSetIn_presence (objSetIn_presence h))

theorem buildAdj2_edge_present :
    ∀ (es : List Edge) (m : List (String × List (String × ℚ))),
      (∀ e ∈ es, e.source ∈ m.map Prod.fst ∧ e.target ∈ m.map Prod.fst) →
      ∀ e ∈ es,
      (∃ w', (e.target, w') ∈ (objGet (es.foldl (fun m' e =>
          objSetIn (objSetIn m' e.source e.target e.weight)
            e.target e.source e.weight) m) e.source).getD [])
      ∧ (∃ w', (e.source, w') ∈ (objGet (es.foldl (fun m' e =>
          objSetIn (objSetIn m' e.source e.target e.weight)
            e.target e.source e.weight) m) e.target).getD []) := by
  intro es
  induction es with
  | nil =>
    intro m _ e he
    cases he
  | cons e0 es' ih =>
    intro m hkeys e he
    rw [List.foldl_cons]
    have hkeys1 : (objSetIn (objSetIn m e0.source e0.target e0.weight)
        e0.target e0.source e0.weight).map Prod.fst = m.map Prod.fst := by
      rw [objSetIn_keys, objSetIn_keys]
    have hkeys' : ∀ e' ∈ es',
        e'.source ∈ (objSetIn (objSetIn m e0.source e0.target e0.weight)
          e0.target e0.source e0.weight).map Prod.fst
        ∧ e'.target ∈ (objSetIn (objSetIn m e0.source e0.target e0.weight)
          e0.target e0.source e0.weight).map Prod.fst := by
      intro e' he'
      rw [hkeys1]
      exact hkeys e' (List.mem_cons_of_mem _ he')
    rcases List.mem_cons.mp he with rfl | he'
    · -- the edge just processed: its two entries are present and persist
      obtain ⟨lS, hlS⟩ :=
        objGet_some_of_mem_keys (hkeys e (List.mem_cons_self _ _)).1
      obtain ⟨l2, hl2⟩ : ∃ l2,
          objGet (objSetIn m e.source e.target e.weight) e.target
            = some l2 := by
        refine objGet_some_of_mem_keys ?_
        rw [objSetIn_keys]
        exact (hkeys e (List.mem_cons_self _ _)).2
      constructor
      · refine buildAdj2_presence es' _ ?_
        by_cases hST : e.source = e.target
        · rw [hST] at hl2
          refine ⟨e.weight, ?_⟩
          have hg : objGet (objSetIn (objSetIn m e.source e.target e.weight)
              e.target e.source e.weight) e.source
              = some (objSet l2 e.source e.weight) := by
            rw [hST, objGet_objSetIn_self, hl2]
            rfl
          rw [hg]
          show (e.target, e.weight) ∈ objSet l2 e.source e.weight
          rw [← hST]
          exact mem_objSet_self _ _ _
        · refine ⟨e.weight, ?_⟩
          have hg : objGet (objSetIn (objSetIn m e.source e.target e.weight)
              e.target e.source e.weight) e.source
              = some (objSet lS e.target e.weight) := by
            rw [objGet_objSetIn_ne _ _ _ _ hST, objGet_objSetIn_self, hlS]
            rfl
          rw [hg]
          exact mem_objSet_self _ _ _
      · refine buildAdj2_presence es' _ ?_
        refine ⟨e.weight, ?_⟩
        have hg : objGet (objSetIn (objSetIn m e.source e.target e.weight)
            e.target e.source e.weight) e.target
            = some (objSet l2 e.source e.weight) := by
          rw [objGet_objSetIn_self, hl2]
          rfl
        rw [hg]
        exact mem_objSet_self _ _ _
    · exact ih _ hkeys' e he'

/-- Every edge step is represented in the nested adjacency (possibly at
the weight of a later duplicate edge). -/
theorem estep_adj2 {nodes : List Node} {edges : List Edge}
    (hwf : GraphWF nodes edges) {a b : String} {w : ℚ}
    (h : EStep edges a b w) : ∃ w', (b, w') ∈ adj2Of nodes edges a := by
  obtain ⟨e, he, hw, hor⟩ := h
  have hinit_keys : (buildAdjInit nodes).map Prod.fst = nodes.map Node.id :=
    nodes_foldl_objSet_keys _ nodes hwf.1
  have hkeys : ∀ e' ∈ edges,
      e'.source ∈ (buildAdjInit nodes).map Prod.fst
      ∧ e'.target ∈ (buildAdjInit nodes).map Prod.fst := by
    intro e' he'
    rw [hinit_keys]
    exact ⟨(hwf.2 e' he').1, (hwf.2 e' he').2.1⟩
  have hpres := buildAdj2_edge_present edges (buildAdjInit nodes) hkeys e he
  rcases hor with ⟨h1, h2⟩ | ⟨h1, h2⟩
  · obtain ⟨w', hw'⟩ := hpres.1
    rw [h1, h2] at hw'
    exact ⟨w', hw'⟩
  · obtain ⟨w', hw'⟩ := hpres.2
    rw [h1, h2] at hw'
    exact ⟨w', hw'⟩

/-- Reachability along the edge list coincides with reachability along
the nested adjacency consulted by the tour constructor. -/
theorem ereach_iff_nreach2 (nodes : List Node) (edges : List Edge)
    (hwf : GraphWF nodes edges) (a c : String) :
    EReach edges a c ↔ NReach (adj2Of nodes edges) a c := by
  constructor
  · rintro ⟨d, hw⟩
    induction hw with
    | nil a => exact ⟨0, NWalk.nil a⟩
    | cons hstep htail ih =>
      obtain ⟨w', hmem⟩ := estep_adj2 hwf hstep
      obtain ⟨d', hw'⟩ := ih
      exact ⟨w' + d', NWalk.cons hmem hw'⟩
  · rintro ⟨d, hw⟩
    induction hw with
    | nil a => exact ⟨0, EWalk.nil a⟩
    | cons hstep htail ih =>
      obtain ⟨d', hw'⟩ := ih
      exact ⟨_, EWalk.cons (adj2Of_estep hstep) hw'⟩

unseal Nat.gcd Rat.add in
theorem solveTsp_skip_eval :
    solveTsp skipNodes skipEdges "D" [] [⟨"A", TimeWindow.any⟩]
      = (["D"], ((0 : ℚ) : Dist)) := rfl

/-- **C8 counterexample**: on the graph `D–“”–A`, the customer `A` is
reachable from the depot `D` (through the empty-string node), yet the
reconstruction of the oracle path breaks on the falsy identifier, the
oracle reports `Infinity`, and `A` is skipped: it never appears in the
output path although it is reachable. -/
theorem solveTsp_skip_cex :
    EReach skipEdges "D" "A"
    ∧ "A" ∉ (solveTsp skipNodes skipEdges "D" []
        [⟨"A", TimeWindow.any⟩]).1 := by
  constructor
  · have hstep1 : EStep skipEdges "D" "" 1 := by
      refine ⟨⟨"D", "", 1, 1⟩, ?_, rfl, Or.inl ⟨rfl, rfl⟩⟩
      show (⟨"D", "", 1, 1⟩ : Edge) ∈ skipEdges
      unfold skipEdges
      exact List.mem_cons_self _ _
    have hstep2 : EStep skipEdges "" "A" 1 := by
      refine ⟨⟨"", "A", 1, 1⟩, ?_, rfl, Or.inl ⟨rfl, rfl⟩⟩
      show (⟨"", "A", 1, 1⟩ : Edge) ∈ skipEdges
      unfold skipEdges
      exact List.mem_cons_of_mem _ (List.mem_cons_self _ _)
    exact ⟨1 + (1 + 0),
      EWalk.cons hstep1 (EWalk.cons hstep2 (EWalk.nil "A"))⟩
  · rw [solveTsp_skip_eval]
    decide

/-- C8 (corrected): for a well-formed graph with no empty-string node
identifier, on every non-degenerate input: every stop unreachable from
the depot is silently skipped — it never appears in the output path — and
every requested warehouse or customer address reachable from the depot is
visited; the tour always completes with a result (the embedding is a
total function).  (Without the empty-string exclusion the "reachable
stops are visited" half fails: see the counterexample.) -/
theorem solveTsp_skip_unreachable (nodes : List Node) (edges : List Edge)
    (startDepot : String) (ws : List String) (cs : List Customer)
    (hwf : GraphWF nodes edges) (hid : "" ∉ nodes.map Node.id)
    (hnd : ¬ (ws = [] ∧ cs = [])) :
    (∀ s, ¬ EReach edges startDepot s →
      s ∉ (solveTsp nodes edges startDepot ws cs).1)
    ∧ (∀ s, (s ∈ ws ∨ s ∈ cs.map Customer.address) →
        EReach edges startDepot s →
        s ∈ (solveTsp nodes edges startDepot ws cs).1) := by
  obtain ⟨_, _, h3, h4⟩ :=
    solveTsp_phases nodes edges startDepot ws cs hwf hid hnd
  constructor
  · intro s hnr hmem
    exact hnr ((ereach_iff_nreach2 nodes edges hwf startDepot s).mpr
      (h3 s hmem))
  · intro s hs hr
    exact h4 s hs ((ereach_iff_nreach2 nodes edges hwf startDepot s).mp hr)

theorem solveTsp_skip_unreachable_witness :
    (∀ s, ¬ EReach lineEdges "D" s →
      s ∉ (solveTsp lineNodes lineEdges "D" []
        [⟨"M", TimeWindow.morning⟩]).1)
    ∧ (∀ s, (s ∈ ([] : List String)
          ∨ s ∈ ([⟨"M", TimeWindow.morning⟩] : List Customer).map
            Customer.address) →
        EReach lineEdges "D" s →
        s ∈ (solveTsp lineNodes lineEdges "D" []
          [⟨"M", TimeWindow.morning⟩]).1) :=
  solveTsp_skip_unreachable lineNodes lineEdges "D" []
    [⟨"M", TimeWindow.morning⟩] (by unfold GraphWF; decide) (by decide)
    (by decide)

/-! ## The stop sequences chosen by the greedy phases -/

theorem greedyPicks_nil (dmat : String → String → Dist × List String)
    (fuel : ℕ) (cur : String) :
    greedyPicks dmat (fuel + 1) [] cur = [] := by
  rw [greedyPicks]
  rfl

theorem greedyPicks_none (dmat : String → String → Dist × List String)
    (fuel : ℕ) {cands : List String} (cur : String) (hne : ¬ cands = [])
    {d : Dist}
    (hpick : pickNearest (fun c => (dmat cur c).1) cands = (none, d)) :
    greedyPicks dmat (fuel + 1) cands cur = [] := by
  rw [greedyPicks, if_neg hne, hpick]

theorem greedyPicks_pick (dmat : String → String → Dist × List String)
    (fuel : ℕ) {cands : List String} (cur : String) (hne : ¬ cands = [])
    {nearest : String} {minD : Dist}
    (hpick : pickNearest (fun c => (dmat cur c).1) cands
      = (some nearest, minD)) :
    greedyPicks dmat (fuel + 1) cands cur
      = nearest :: greedyPicks dmat fuel (cands.erase nearest) nearest := by
  rw [greedyPicks, if_neg hne, hpick]

theorem greedyPicks_subset (dmat : String → String → Dist × List String) :
    ∀ (fuel : ℕ) (cands : List String) (cur : String),
      ∀ a ∈ greedyPicks dmat fuel cands cur, a ∈ cands := by
  intro fuel
  induction fuel with
  | zero =>
    intro cands cur a ha
    cases ha
  | succ fuel ih =>
    intro cands cur a ha
    by_cases hc : cands = []
    · subst hc
      rw [greedyPicks_nil] at ha
      cases ha
    · rcases hpick : pickNearest (fun c => (dmat cur c).1) cands
        with ⟨onear, minD⟩
      rcases onear with _ | nearest
      · rw [greedyPicks_none _ fuel cur hc hpick] at ha
        cases ha
      · obtain ⟨hnc, _, _⟩ := pickNearest_some hpick
        rw [greedyPicks_pick _ fuel cur hc hpick] at ha
        rcases List.mem_cons.mp ha with rfl | ha
        · exact hnc
        · exact List.mem_of_mem_erase (ih _ _ a ha)

/-- The path accumulated by a greedy phase is the starting path followed
by the spliced segments of the chosen stop sequence, and the final
location is the last chosen stop. -/
theorem greedyRoute_eq_picks (dmat : String → String → Dist × List String) :
    ∀ (fuel : ℕ) (cands : List String) (cur : String) (acc : List String)
      (total : Dist),
      (greedyRoute dmat fuel cands cur acc total).1
        = acc ++ segsOf dmat cur (greedyPicks dmat fuel cands cur)
      ∧ (greedyRoute dmat fuel cands cur acc total).2.1
        = (greedyPicks dmat fuel cands cur).getLastD cur := by
  intro fuel
  induction fuel with
  | zero =>
    intro cands cur acc total
    exact ⟨(List.append_nil acc).symm, rfl⟩
  | succ fuel ih =>
    intro cands cur acc total
    by_cases hc : cands = []
    · subst hc
      rw [greedyRoute_nil, greedyPicks_nil]
      exact ⟨(List.append_nil acc).symm, rfl⟩
    · rcases hpick : pickNearest (fun c => (dmat cur c).1) cands
        with ⟨onear, minD⟩
      rcases onear with _ | nearest
      · rw [greedyRoute_none _ fuel cur acc total hc hpick,
          greedyPicks_none _ fuel cur hc hpick]
        exact ⟨(List.append_nil acc).symm, rfl⟩
      · rw [greedyRoute_pick _ fuel cur acc total hc hpick,
          greedyPicks_pick _ fuel cur hc hpick]
        obtain ⟨ih1, ih2⟩ := ih (cands.erase nearest) nearest
          (acc ++ ((dmat cur nearest).2).drop 1) (total + minD)
        constructor
        · rw [ih1]
          have hseg : segsOf dmat cur
              (nearest :: greedyPicks dmat fuel (cands.erase nearest) nearest)
              = ((dmat cur nearest).2).drop 1
                ++ segsOf dmat nearest
                  (greedyPicks dmat fuel (cands.erase nearest) nearest) := rfl
          rw [hseg, List.append_assoc]
        · rw [ih2, List.getLastD_cons]

/-- A finite oracle entry from a reachable current location yields a
reachable pick that is again a node (or the depot). -/
theorem oracle_finite_reach (nodes : List Node) (edges : List Edge)
    (depot : String) (hwf : GraphWF nodes edges)
    (hid : "" ∉ nodes.map Node.id) {cur c : String}
    (hR : NReach (adj2Of nodes edges) depot cur)
    (hcur : cur ∈ nodes.map Node.id ∨ cur = depot)
    (hfin : ¬ (distMatrix nodes edges cur c).1 = ⊤) :
    NReach (adj2Of nodes edges) depot c
    ∧ (c ∈ nodes.map Node.id ∨ c = depot) := by
  by_cases hceq : cur = c
  · rw [← hceq]
    exact ⟨hR, hcur⟩
  · have hfsp_ne : ¬ (findShortestPath cur c nodes
        (adj2Of nodes edges)).1 = ⊤ := by
      intro h
      refine hfin ?_
      show (distMatrix nodes edges cur c).1 = ⊤
      unfold distMatrix
      rw [if_neg hceq]
      exact h
    have hcin : cur ∈ nodes.map Node.id := by
      by_contra hcin
      rw [findShortestPath_no_from hwf.1 hcin] at hfsp_ne
      exact hfsp_ne rfl
    have hreach : NReach (adj2Of nodes edges) cur c := by
      by_contra hnr
      rw [(findShortestPath_spec (adj2Of_wf nodes edges hwf) hwf.1 hid hcin
        hceq).2 hnr] at hfsp_ne
      exact hfsp_ne rfl
    refine ⟨nreach_trans hR hreach, ?_⟩
    obtain ⟨d, hwk⟩ := hreach
    rcases nwalk_end_mem (adj2Of_wf nodes edges hwf) hwk with h | h
    · exact absurd h.symm hceq
    · exact Or.inl h

/-- A stop reachable from the depot has a finite oracle entry from any
reachable current location. -/
theorem reach_oracle_finite (nodes : List Node) (edges : List Edge)
    (depot : String) (hwf : GraphWF nodes edges)
    (hid : "" ∉ nodes.map Node.id) {cur c : String}
    (hR : NReach (adj2Of nodes edges) depot cur)
    (hcur : cur ∈ nodes.map Node.id ∨ cur = depot)
    (hRc : NReach (adj2Of nodes edges) depot c) :
    ¬ (distMatrix nodes edges cur c).1 = ⊤ := by
  have hwf2 := adj2Of_wf nodes edges hwf
  by_cases hceq : cur = c
  · unfold distMatrix
    rw [if_pos hceq]
    simp
  · have hreach_cc : NReach (adj2Of nodes edges) cur c :=
      nreach_trans (nreach_symm hwf2 hR) hRc
    by_cases hcin : cur ∈ nodes.map Node.id
    · obtain ⟨q, l, hfsp, _⟩ :=
        (findShortestPath_spec hwf2 hwf.1 hid hcin hceq).1 hreach_cc
      unfold distMatrix
      rw [if_neg hceq, hfsp]
      simp
    · obtain ⟨d, hwk⟩ := hreach_cc
      cases hwk with
      | nil => exact absurd rfl hceq
      | cons hstep _ =>
        rw [adj2Of_of_not_mem nodes edges hwf.1 hcin] at hstep
        cases hstep

/-- Each greedy phase picks every candidate reachable from the depot, and
hands the next phase a reachable current location. -/
theorem greedyPicks_visits (nodes : List Node) (edges : List Edge)
    (depot : String) (hwf : GraphWF nodes edges)
    (hid : "" ∉ nodes.map Node.id) :
    ∀ (fuel : ℕ) (cands : List String) (cur : String),
      cands.length < fuel →
      NReach (adj2Of nodes edges) depot cur →
      (cur ∈ nodes.map Node.id ∨ cur = depot) →
      (∀ c ∈ cands, NReach (adj2Of nodes edges) depot c →
        c ∈ greedyPicks (distMatrix nodes edges) fuel cands cur)
      ∧ NReach (adj2Of nodes edges) depot
          ((greedyPicks (distMatrix nodes edges) fuel cands cur).getLastD
            cur)
      ∧ (((greedyPicks (distMatrix nodes edges) fuel cands cur).getLastD
            cur) ∈ nodes.map Node.id
          ∨ ((greedyPicks (distMatrix nodes edges) fuel cands
            cur).getLastD cur) = depot) := by
  intro fuel
  induction fuel with
  | zero =>
    intro cands cur hlen
    exact absurd hlen (Nat.not_lt_zero _)
  | succ fuel ih =>
    intro cands cur hlen hR hcur
    by_cases hc : cands = []
    · subst hc
      rw [greedyPicks_nil]
      exact ⟨fun c hc => absurd hc (List.not_mem_nil c), hR, hcur⟩
    · rcases hpick : pickNearest
        (fun c => ((distMatrix nodes edges) cur c).1) cands
        with ⟨onear, minD⟩
      rcases onear with _ | nearest
      · rw [greedyPicks_none _ fuel cur hc hpick]
        refine ⟨?_, hR, hcur⟩
        intro c hcm hRc
        exact absurd (pickNearest_none hpick c hcm)
          (reach_oracle_finite nodes edges depot hwf hid hR hcur hRc)
      · obtain ⟨hnc, _, hfinD⟩ := pickNearest_some hpick
        rw [greedyPicks_pick _ fuel cur hc hpick]
        obtain ⟨hRn, hncur⟩ :=
          oracle_finite_reach nodes edges depot hwf hid hR hcur hfinD
        have hpos : 0 < cands.length := List.length_pos.mpr hc
        have hlen' : (cands.erase nearest).length < fuel := by
          rw [List.length_erase_of_mem hnc]
          omega
        obtain ⟨ih1, ih2, ih3⟩ := ih (cands.erase nearest) nearest hlen'
          hRn hncur
        refine ⟨?_, ?_, ?_⟩
        · intro c hcm hRc
          by_cases hc2 : c = nearest
          · rw [hc2]
            exact List.mem_cons_self _ _
          · exact List.mem_cons_of_mem _
              (ih1 c ((List.mem_erase_of_ne hc2).mpr hcm) hRc)
        · rw [List.getLastD_cons]
          exact ih2
        · rw [List.getLastD_cons]
          exact ih3

/-- C3 (corrected): under a well-formed graph with no empty-string node
identifier, the morning delivery phase runs to completion strictly before
the afternoon/any phase begins: the output path decomposes as the depot,
the warehouse pickup segments, the morning delivery segments, the
afternoon/any delivery segments, and a final return-leg remainder; every
stop chosen in the morning segment is a morning customer address, every
stop chosen in the later delivery segment is an afternoon or any-time
address, and every reachable morning address is chosen in the morning
segment.  (The original claim — that morning stops appear in the output
path strictly before all afternoon/any stops — is false, because spliced
shortest-path segments may pass through an afternoon customer's node on
the way to a morning stop: see the counterexample.) -/
theorem solveTsp_morning_priority (nodes : List Node) (edges : List Edge)
    (startDepot : String) (ws : List String) (cs : List Customer)
    (hwf : GraphWF nodes edges) (hid : "" ∉ nodes.map Node.id)
    (hnd : ¬ (ws = [] ∧ cs = [])) :
    (∃ p4 : List String, (solveTsp nodes edges startDepot ws cs).1
        = [startDepot]
          ++ segsOf (distMatrix nodes edges) startDepot
              (solveTspPicks nodes edges startDepot ws cs).1
          ++ segsOf (distMatrix nodes edges)
              ((solveTspPicks nodes edges startDepot ws cs).1.getLastD
                startDepot)
              (solveTspPicks nodes edges startDepot ws cs).2.1
          ++ segsOf (distMatrix nodes edges)
              ((solveTspPicks nodes edges startDepot ws cs).2.1.getLastD
                ((solveTspPicks nodes edges startDepot ws cs).1.getLastD
                  startDepot))
              (solveTspPicks nodes edges startDepot ws cs).2.2
          ++ p4)
    ∧ (∀ a ∈ (solveTspPicks nodes edges startDepot ws cs).2.1,
        a ∈ (cs.filter
          (fun c => c.timeWindow = TimeWindow.morning)).map
            Customer.address)
    ∧ (∀ a ∈ (solveTspPicks nodes edges startDepot ws cs).2.2,
        a ∈ (cs.filter
          (fun c => c.timeWindow = TimeWindow.afternoon)).map
            Customer.address
        ∨ a ∈ (cs.filter
          (fun c => c.timeWindow = TimeWindow.any)).map Customer.address)
    ∧ (∀ a, a ∈ (cs.filter
          (fun c => c.timeWindow = TimeWindow.morning)).map
            Customer.address →
        EReach edges startDepot a →
        a ∈ (solveTspPicks nodes edges startDepot ws cs).2.1) := by
  refine ⟨?_, ?_, ?_, ?_⟩
  · -- path decomposition along the phase pick sequences
    unfold solveTsp solveTspPicks
    simp only [if_neg hnd]
    generalize hg1 : greedyRoute (distMatrix nodes edges)
      ((jsDedup ws).length + 1) (jsDedup ws) startDepot [startDepot] 0 = r1
    generalize hg2 : greedyRoute (distMatrix nodes edges)
      ((jsDedup ((cs.filter
        (fun c => c.timeWindow = TimeWindow.morning)).map
          Customer.address)).length + 1)
      (jsDedup ((cs.filter
        (fun c => c.timeWindow = TimeWindow.morning)).map Customer.address))
      r1.2.1 r1.1 r1.2.2 = r2
    generalize hg3 : greedyRoute (distMatrix nodes edges)
      ((jsDedup (jsDedup ((cs.filter
          (fun c => c.timeWindow = TimeWindow.afternoon)).map
            Customer.address)
        ++ jsDedup ((cs.filter
          (fun c => c.timeWindow = TimeWindow.any)).map
            Customer.address))).length + 1)
      (jsDedup (jsDedup ((cs.filter
          (fun c => c.timeWindow = TimeWindow.afternoon)).map
            Customer.address)
        ++ jsDedup ((cs.filter
          (fun c => c.timeWindow = TimeWindow.any)).map
            Customer.address)))
      r2.2.1 r2.1 r2.2.2 = r3
    have h1 := greedyRoute_eq_picks (distMatrix nodes edges)
      ((jsDedup ws).length + 1) (jsDedup ws) startDepot [startDepot] 0
    rw [hg1] at h1
    have h2 := greedyRoute_eq_picks (distMatrix nodes edges)
      ((jsDedup ((cs.filter
        (fun c => c.timeWindow = TimeWindow.morning)).map
          Customer.address)).length + 1)
      (jsDedup ((cs.filter
        (fun c => c.timeWindow = TimeWindow.morning)).map Customer.address))
      r1.2.1 r1.1 r1.2.2
    rw [hg2] at h2
    rw [h1.2] at h2
    have h3 := greedyRoute_eq_picks (distMatrix nodes edges)
      ((jsDedup (jsDedup ((cs.filter
          (fun c => c.timeWindow = TimeWindow.afternoon)).map
            Customer.address)
        ++ jsDedup ((cs.filter
          (fun c => c.timeWindow = TimeWindow.any)).map
            Customer.address))).length + 1)
      (jsDedup (jsDedup ((cs.filter
          (fun c => c.timeWindow = TimeWindow.afternoon)).map
            Customer.address)
        ++ jsDedup ((cs.filter
          (fun c => c.timeWindow = TimeWindow.any)).map
            Customer.address)))
      r2.2.1 r2.1 r2.2.2
    rw [hg3] at h3
    rw [h2.2] at h3
    refine ⟨if ¬ (distMatrix nodes edges r3.2.1 startDepot).1 = ⊤ then
      ((distMatrix nodes edges r3.2.1 startDepot).2).drop 1 else [], ?_⟩
    by_cases hret : (distMatrix nodes edges r3.2.1 startDepot).1 = ⊤
    · rw [if_neg (not_not_intro hret), if_neg (not_not_intro hret)]
      dsimp only
      rw [h3.1, h2.1, h1.1]
      simp [List.append_assoc]
    · rw [if_pos hret, if_pos hret]
      dsimp only
      rw [h3.1, h2.1, h1.1]
  · -- morning picks are morning addresses
    intro a ha
    unfold solveTspPicks at ha
    rw [if_neg hnd] at ha
    dsimp only at ha
    have h := greedyPicks_subset (distMatrix nodes edges) _ _ _ a ha
    exact (jsDedup_mem _ a).mp h
  · -- later picks are afternoon or any-time addresses
    intro a ha
    unfold solveTspPicks at ha
    rw [if_neg hnd] at ha
    dsimp only at ha
    have h := greedyPicks_subset (distMatrix nodes edges) _ _ _ a ha
    rcases List.mem_append.mp ((jsDedup_mem _ a).mp h) with h2 | h2
    · exact Or.inl ((jsDedup_mem _ a).mp h2)
    · exact Or.inr ((jsDedup_mem _ a).mp h2)
  · -- every reachable morning address is picked in the morning phase
    intro a ham hra
    have hRa : NReach (adj2Of nodes edges) startDepot a :=
      (ereach_iff_nreach2 nodes edges hwf startDepot a).mp hra
    unfold solveTspPicks
    rw [if_neg hnd]
    dsimp only
    have h1 := greedyPicks_visits nodes edges startDepot hwf hid
      ((jsDedup ws).length + 1) (jsDedup ws) startDepot (by omega)
      ⟨0, NWalk.nil startDepot⟩ (Or.inr rfl)
    have h2 := greedyPicks_visits nodes edges startDepot hwf hid
      ((jsDedup ((cs.filter
        (fun c => c.timeWindow = TimeWindow.morning)).map
          Customer.address)).length + 1)
      (jsDedup ((cs.filter
        (fun c => c.timeWindow = TimeWindow.morning)).map Customer.address))
      ((greedyPicks (distMatrix nodes edges) ((jsDedup ws).length + 1)
        (jsDedup ws) startDepot).getLastD startDepot)
      (by omega) h1.2.1 h1.2.2
    exact h2.1 a ((jsDedup_mem _ a).mpr ham) hRa

theorem solveTsp_morning_priority_witness :
    (∃ p4 : List String, (solveTsp lineNodes lineEdges "D" []
        [⟨"M", TimeWindow.morning⟩, ⟨"A", TimeWindow.afternoon⟩]).1
        = ["D"]
          ++ segsOf (distMatrix lineNodes lineEdges) "D"
              (solveTspPicks lineNodes lineEdges "D" []
                [⟨"M", TimeWindow.morning⟩, ⟨"A", TimeWindow.afternoon⟩]).1
          ++ segsOf (distMatrix lineNodes lineEdges)
              ((solveTspPicks lineNodes lineEdges "D" []
                [⟨"M", TimeWindow.morning⟩,
                  ⟨"A", TimeWindow.afternoon⟩]).1.getLastD "D")
              (solveTspPicks lineNodes lineEdges "D" []
                [⟨"M", TimeWindow.morning⟩,
                  ⟨"A", TimeWindow.afternoon⟩]).2.1
          ++ segsOf (distMatrix lineNodes lineEdges)
              ((solveTspPicks lineNodes lineEdges "D" []
                [⟨"M", TimeWindow.morning⟩,
                  ⟨"A", TimeWindow.afternoon⟩]).2.1.getLastD
                ((solveTspPicks lineNodes lineEdges "D" []
                  [⟨"M", TimeWindow.morning⟩,
                    ⟨"A", TimeWindow.afternoon⟩]).1.getLastD "D"))
              (solveTspPicks lineNodes lineEdges "D" []
                [⟨"M", TimeWindow.morning⟩,
                  ⟨"A", TimeWindow.afternoon⟩]).2.2
          ++ p4)
    ∧ (∀ a ∈ (solveTspPicks lineNodes lineEdges "D" []
        [⟨"M", TimeWindow.morning⟩, ⟨"A", TimeWindow.afternoon⟩]).2.1,
        a ∈ (([⟨"M", TimeWindow.morning⟩,
            ⟨"A", TimeWindow.afternoon⟩] : List Customer).filter
          (fun c => c.timeWindow = TimeWindow.morning)).map
            Customer.address)
    ∧ (∀ a ∈ (solveTspPicks lineNodes lineEdges "D" []
        [⟨"M", TimeWindow.morning⟩, ⟨"A", TimeWindow.afternoon⟩]).2.2,
        a ∈ (([⟨"M", TimeWindow.morning⟩,
            ⟨"A", TimeWindow.afternoon⟩] : List Customer).filter
          (fun c => c.timeWindow = TimeWindow.afternoon)).map
            Customer.address
        ∨ a ∈ (([⟨"M", TimeWindow.morning⟩,
            ⟨"A", TimeWindow.afternoon⟩] : List Customer).filter
          (fun c => c.timeWindow = TimeWindow.any)).map Customer.address)
    ∧ (∀ a, a ∈ (([⟨"M", TimeWindow.morning⟩,
            ⟨"A", TimeWindow.afternoon⟩] : List Customer).filter
          (fun c => c.timeWindow = TimeWindow.morning)).map
            Customer.address →
        EReach lineEdges "D" a →
        a ∈ (solveTspPicks lineNodes lineEdges "D" []
          [⟨"M", TimeWindow.morning⟩, ⟨"A", TimeWindow.afternoon⟩]).2.1) :=
  solveTsp_morning_priority lineNodes lineEdges "D" []
    [⟨"M", TimeWindow.morning⟩, ⟨"A", TimeWindow.afternoon⟩]
    (by unfold GraphWF; decide) (by decide) (by decide)

/-! ## Max flow: index lookup, matrix updates and granularity -/

theorem ekUpd2_self (m : ℕ → ℕ → ℚ) (u v : ℕ) (x : ℚ) :
    ekUpd2 m u v x u v = x := by
  unfold ekUpd2
  simp

theorem ekUpd2_ne (m : ℕ → ℕ → ℚ) (u v a b : ℕ) (x : ℚ)
    (h : ¬ (a = u ∧ b = v)) : ekUpd2 m u v x a b = m a b := by
  unfold ekUpd2
  rw [if_neg h]

theorem ekPush_mem {adj : ℕ → List ℕ} {u v a x : ℕ} :
    x ∈ ekPush adj u v a ↔ x ∈ adj a ∨ (a = u ∧ x = v) := by
  unfold ekPush
  by_cases h : a = u
  · rw [if_pos h]
    simp [h]
  · rw [if_neg h]
    simp [h]

theorem ekIdxAux_some (id : String) :
    ∀ (l : List String) (i j : ℕ), ekIdxAux id l i = some j →
      i ≤ j ∧ j - i < l.length ∧ l[j - i]? = some id := by
  intro l
  induction l with
  | nil =>
    intro i j h
    cases h
  | cons s rest ih =>
    intro i j h
    rw [ekIdxAux] at h
    rcases hrec : ekIdxAux id rest (i + 1) with _ | j'
    · rw [hrec] at h
      by_cases hs : s = id
      · rw [if_pos hs] at h
        obtain rfl := Option.some.inj h
        refine ⟨le_refl i, by simp, ?_⟩
        simp [hs]
      · rw [if_neg hs] at h
        cases h
    · rw [hrec] at h
      obtain rfl := Option.some.inj h
      obtain ⟨h1, h2, h3⟩ := ih (i + 1) j' hrec
      refine ⟨by omega, by simp; omega, ?_⟩
      have hji : j' - i = (j' - (i + 1)) + 1 := by omega
      rw [hji]
      simpa using h3

theorem ekIdxAux_ne_none (id : String) :
    ∀ (l : List String) (i : ℕ), id ∈ l → ¬ ekIdxAux id l i = none := by
  intro l
  induction l with
  | nil =>
    intro i h
    cases h
  | cons s rest ih =>
    intro i hmem hcontra
    rw [ekIdxAux] at hcontra
    rcases hrec : ekIdxAux id rest (i + 1) with _ | j'
    · rw [hrec] at hcontra
      rcases List.mem_cons.mp hmem with rfl | hm
      · rw [if_pos rfl] at hcontra
        cases hcontra
      · exact ih (i + 1) hm hrec
    · rw [hrec] at hcontra
      cases hcontra

theorem ekIdx_lt {nodes : List Node} {id : String} {i : ℕ}
    (h : ekIdx nodes id = some i) : i < nodes.length := by
  obtain ⟨_, h2, _⟩ := ekIdxAux_some id (nodes.map Node.id) 0 i h
  simpa using h2

theorem ekIdx_get {nodes : List Node} {id : String} {i : ℕ}
    (h : ekIdx nodes id = some i) : (nodes.map Node.id)[i]? = some id := by
  obtain ⟨_, _, h3⟩ := ekIdxAux_some id (nodes.map Node.id) 0 i h
  simpa using h3

theorem ekIdx_exists {nodes : List Node} {id : String}
    (h : id ∈ nodes.map Node.id) : ∃ i, ekIdx nodes id = some i := by
  rcases hk : ekIdx nodes id with _ | i
  · exact absurd hk (ekIdxAux_ne_none id (nodes.map Node.id) 0 h)
  · exact ⟨i, rfl⟩

theorem ekIdx_inj {nodes : List Node} {id1 id2 : String} {i : ℕ}
    (h1 : ekIdx nodes id1 = some i) (h2 : ekIdx nodes id2 = some i) :
    id1 = id2 := by
  have g1 := ekIdx_get h1
  have g2 := ekIdx_get h2
  rw [g1] at g2
  exact Option.some.inj g2

theorem Gran_zero (D : ℕ) : Gran D 0 := ⟨0, by push_cast; ring⟩

theorem Gran_add {D : ℕ} {a b : ℚ} (ha : Gran D a) (hb : Gran D b) :
    Gran D (a + b) := by
  obtain ⟨za, hza⟩ := ha
  obtain ⟨zb, hzb⟩ := hb
  exact ⟨za + zb, by push_cast; rw [add_mul, hza, hzb]⟩

theorem Gran_sub {D : ℕ} {a b : ℚ} (ha : Gran D a) (hb : Gran D b) :
    Gran D (a - b) := by
  obtain ⟨za, hza⟩ := ha
  obtain ⟨zb, hzb⟩ := hb
  exact ⟨za - zb, by push_cast; rw [sub_mul, hza, hzb]⟩

theorem Gran_min {D : ℕ} {a b : ℚ} (ha : Gran D a) (hb : Gran D b) :
    Gran D (min a b) := by
  rcases le_total a b with h | h
  · rw [min_eq_left h]
    exact ha
  · rw [min_eq_right h]
    exact hb

theorem Gran_dvd {D : ℕ} {q : ℚ} (h : (q.den : ℕ) ∣ D) : Gran D q := by
  obtain ⟨k, hk⟩ := h
  refine ⟨q.num * k, ?_⟩
  have hden : ((q.den : ℚ)) ≠ 0 := by
    exact_mod_cast q.den_nz
  have h2 : ((q.num : ℚ) / (q.den : ℚ)) * (q.den : ℚ) = (q.num : ℚ) :=
    div_mul_cancel₀ _ hden
  rw [Rat.num_div_den q] at h2
  rw [hk]
  push_cast
  rw [← mul_assoc, h2]

theorem Gran_one_le {D : ℕ} {q : ℚ} (hg : Gran D q) (hq : 0 < q)
    (hD : 0 < D) : 1 ≤ q * D := by
  obtain ⟨z, hz⟩ := hg
  have hpos : (0 : ℚ) < q * D := mul_pos hq (by exact_mod_cast hD)
  rw [hz] at hpos ⊢
  have hz0 : (0 : ℤ) < z := by exact_mod_cast hpos
  have hz1 : (1 : ℤ) ≤ z := hz0
  exact_mod_cast hz1

/-- The fold of `ekBuild` succeeds on edges with existing endpoints and
produces a well-shaped capacity matrix and adjacency structure. -/
theorem ekBuild_some (nodes : List Node) (edges : List Edge)
    (hends : ∀ e ∈ edges, e.source ∈ nodes.map Node.id
      ∧ e.target ∈ nodes.map Node.id) :
    ∃ c0 adj, ekBuild nodes edges = some (c0, adj)
      ∧ EkGraph nodes.length edges c0 adj := by
  suffices h : ∀ (l : List Edge), (∀ e ∈ l, e ∈ edges) →
      ∀ (cap : ℕ → ℕ → ℚ) (adj : ℕ → List ℕ),
        EkGraph nodes.length edges cap adj →
        ∃ c0 adj', l.foldl
            (fun acc e =>
              match acc with
              | none => none
              | some (cap, adj) =>
                match ekIdx nodes e.source, ekIdx nodes e.target with
                | some u, some v =>
                    some (ekUpd2 (ekUpd2 cap u v e.capacity) v u e.capacity,
                      ekPush (ekPush adj u v) v u)
                | _, _ => none)
            (some (cap, adj)) = some (c0, adj')
          ∧ EkGraph nodes.length edges c0 adj' by
    refine h edges (fun _ h => h) _ _ ?_
    exact ⟨fun u v hne => absurd rfl hne, fun u v h => absurd h (List.not_mem_nil v),
      fun u v h => absurd h (List.not_mem_nil v), fun u v => Or.inl rfl,
      fun u v _ => rfl⟩
  intro l
  induction l with
  | nil =>
    intro _ cap adj hg
    exact ⟨cap, adj, rfl, hg⟩
  | cons e rest ih =>
    intro hsub cap adj hg
    have he : e ∈ edges := hsub e (List.mem_cons_self e rest)
    obtain ⟨hsrc, htgt⟩ := hends e he
    obtain ⟨u, hu⟩ := ekIdx_exists hsrc
    obtain ⟨v, hv⟩ := ekIdx_exists htgt
    have hun : u < nodes.length := ekIdx_lt hu
    have hvn : v < nodes.length := ekIdx_lt hv
    rw [List.foldl_cons]
    dsimp only
    rw [hu, hv]
    dsimp only
    refine ih (fun x hx => hsub x (List.mem_cons_of_mem e hx)) _ _ ?_
    constructor
    · -- adjPos
      intro a b hne
      by_cases h1 : a = v ∧ b = u
      · rw [ekPush_mem]
        exact Or.inr ⟨h1.1, h1.2⟩
      · by_cases h2 : a = u ∧ b = v
        · rw [ekPush_mem, ekPush_mem]
          exact Or.inl (Or.inr h2)
        · rw [ekUpd2_ne _ _ _ _ _ _ h1, ekUpd2_ne _ _ _ _ _ _ h2] at hne
          rw [ekPush_mem, ekPush_mem]
          exact Or.inl (Or.inl (hg.adjPos a b hne))
    · -- adjLt
      intro a x hx
      rw [ekPush_mem, ekPush_mem] at hx
      rcases hx with (hx | hx) | hx
      · exact hg.adjLt a x hx
      · rw [hx.2]
        exact hvn
      · rw [hx.2]
        exact hun
    · -- adjSym
      intro a x hx
      rw [ekPush_mem, ekPush_mem] at hx
      rcases hx with (hx | hx) | hx
      · rw [ekPush_mem, ekPush_mem]
        exact Or.inl (Or.inl (hg.adjSym a x hx))
      · -- a = u, x = v : need u ∈ adj' v
        rw [ekPush_mem]
        exact Or.inr ⟨hx.2, hx.1⟩
      · -- a = v, x = u : need v ∈ adj' u
        rw [ekPush_mem, ekPush_mem]
        exact Or.inl (Or.inr ⟨hx.2, hx.1⟩)
    · -- entry
      intro a b
      by_cases h1 : a = v ∧ b = u
      · rw [h1.1, h1.2, ekUpd2_self]
        exact Or.inr ⟨e, he, rfl⟩
      · by_cases h2 : a = u ∧ b = v
        · rw [ekUpd2_ne _ _ _ _ _ _ h1]
          rw [h2.1, h2.2, ekUpd2_self]
          exact Or.inr ⟨e, he, rfl⟩
        · rw [ekUpd2_ne _ _ _ _ _ _ h1, ekUpd2_ne _ _ _ _ _ _ h2]
          exact hg.entry a b
    · -- supp
      intro a b hab
      have h1 : ¬ (a = v ∧ b = u) := by
        rintro ⟨rfl, rfl⟩
        rcases hab with h | h
        · omega
        · omega
      have h2 : ¬ (a = u ∧ b = v) := by
        rintro ⟨rfl, rfl⟩
        rcases hab with h | h
        · omega
        · omega
      rw [ekUpd2_ne _ _ _ _ _ _ h1, ekUpd2_ne _ _ _ _ _ _ h2]
      exact hg.supp a b hab

/-! ## Max flow: BFS verification -/

theorem bfs_nodup_length_le {l : List ℕ} {n : ℕ} (h1 : l.Nodup)
    (h2 : ∀ x ∈ l, x < n) : l.length ≤ n := by
  classical
  have h3 : l.toFinset.card = l.length := List.toFinset_card_of_nodup h1
  have h4 : l.toFinset ⊆ Finset.range n := by
    intro x hx
    rw [Finset.mem_range]
    exact h2 x (List.mem_toFinset.mp hx)
  have h5 := Finset.card_le_card h4
  rw [h3, Finset.card_range] at h5
  exact h5

theorem indexOf_append_self {l : List ℕ} {x : ℕ} (h : x ∉ l) :
    (l ++ [x]).indexOf x = l.length := by
  rw [List.indexOf_append_of_not_mem h]
  simp

theorem bfsInner_nil (cap : ℕ → ℕ → ℚ) (sink u0 : ℕ) (st : BfsSt) :
    bfsInner cap sink u0 [] st = (st, false) := rfl

theorem bfsInner_skip (cap : ℕ → ℕ → ℚ) (sink u0 v : ℕ) (rest : List ℕ)
    (st : BfsSt) (h : ¬ (st.vis v = false ∧ 0 < cap u0 v)) :
    bfsInner cap sink u0 (v :: rest) st = bfsInner cap sink u0 rest st := by
  rw [bfsInner, if_neg h]

theorem bfsInner_enq (cap : ℕ → ℕ → ℚ) (sink u0 v : ℕ) (rest : List ℕ)
    (st : BfsSt) (h : st.vis v = false ∧ 0 < cap u0 v) :
    bfsInner cap sink u0 (v :: rest) st
      = (if v = sink
          then ((⟨st.q ++ [v], fun a => if a = v then true else st.vis a,
              fun a => if a = v then (u0 : ℤ) else st.par a⟩ : BfsSt), true)
          else bfsInner cap sink u0 rest
            ⟨st.q ++ [v], fun a => if a = v then true else st.vis a,
             fun a => if a = v then (u0 : ℤ) else st.par a⟩) := by
  rw [bfsInner, if_pos h]

/-- Correctness of the inner neighbor scan of `bfs`. -/
theorem bfsInner_spec (cap : ℕ → ℕ → ℚ) (adj : ℕ → List ℕ)
    (source sink n u0 : ℕ) (hadjLt : ∀ u, ∀ v ∈ adj u, v < n) :
    ∀ (vs : List ℕ) (st : BfsSt) (vl : List ℕ),
      (∀ v ∈ vs, v ∈ adj u0) →
      u0 ∈ vl →
      BInner cap adj source sink n u0 vl st →
      sink ∉ vl →
      ∃ ext,
        BInner cap adj source sink n u0 (vl ++ ext)
          (bfsInner cap sink u0 vs st).1
        ∧ (bfsInner cap sink u0 vs st).1.q.length + vl.length
            = st.q.length + (vl ++ ext).length
        ∧ ((bfsInner cap sink u0 vs st).2 = true → sink ∈ vl ++ ext)
        ∧ ((bfsInner cap sink u0 vs st).2 = false →
            sink ∉ vl ++ ext
            ∧ ∀ v ∈ vs, 0 < cap u0 v → v ∈ vl ++ ext) := by
  intro vs
  induction vs with
  | nil =>
    intro st vl hvs hu0 hin hsink
    refine ⟨[], ?_, ?_, ?_, ?_⟩
    · rw [List.append_nil]
      exact hin
    · rw [List.append_nil]
      rfl
    · intro h
      rw [bfsInner_nil] at h
      exact Bool.noConfusion h
    · intro _
      rw [List.append_nil]
      exact ⟨hsink, fun v hv => absurd hv (List.not_mem_nil v)⟩
  | cons v rest ih =>
    intro st vl hvs hu0 hin hsink
    by_cases hc : st.vis v = false ∧ 0 < cap u0 v
    · -- the neighbor is enqueued
      have hvadj : v ∈ adj u0 := hvs v (List.mem_cons_self v rest)
      have hvn : v < n := hadjLt u0 v hvadj
      have hvnotvl : v ∉ vl := by
        intro hmem
        have h2 := (hin.vis_iff v).mpr hmem
        rw [hc.1] at h2
        exact absurd h2 (by decide)
      have hv_ne_src : ¬ v = source := fun h => hvnotvl (h ▸ hin.src_mem)
      have hinner : BInner cap adj source sink n u0 (vl ++ [v])
          ⟨st.q ++ [v], fun a => if a = v then true else st.vis a,
           fun a => if a = v then (u0 : ℤ) else st.par a⟩ := by
        constructor
        · intro x
          by_cases hx : x = v
          · subst hx
            simp
          · show (if x = v then true else st.vis x) = true ↔ _
            rw [if_neg hx, hin.vis_iff x]
            simp [hx]
        · rw [List.nodup_append]
          exact ⟨hin.nodup, List.nodup_singleton v,
            fun a ha hav => hvnotvl ((List.mem_singleton.mp hav) ▸ ha)⟩
        · intro x hx
          rcases List.mem_append.mp hx with h | h
          · exact hin.bound x h
          · rw [List.mem_singleton.mp h]
            exact hvn
        · exact List.mem_append_left _ hin.src_mem
        · intro x hx
          rcases List.mem_append.mp hx with h | h
          · exact List.mem_append_left _ (hin.q_sub x h)
          · exact List.mem_append_right _ h
        · intro u hu
          rcases List.mem_append.mp hu with h | h
          · rcases hin.expanded u h with h2 | h2 | h2
            · exact Or.inl (List.mem_append_left _ h2)
            · exact Or.inr (Or.inl h2)
            · refine Or.inr (Or.inr ?_)
              intro w hw hcw
              exact List.mem_append_left _ (h2 w hw hcw)
          · refine Or.inl ?_
            show u ∈ st.q ++ [v]
            exact List.mem_append_right _ h
        · intro x hx hxs
          rcases List.mem_append.mp hx with h | h
          · obtain ⟨u, hu, hp, hcap2, hadj2, hidx⟩ := hin.par_chain x h hxs
            have hxv : ¬ x = v := fun hh => hvnotvl (hh ▸ h)
            refine ⟨u, List.mem_append_left _ hu, ?_, hcap2, hadj2, ?_⟩
            · show (if x = v then (u0 : ℤ) else st.par x) = (u : ℤ)
              rw [if_neg hxv]
              exact hp
            · rw [List.indexOf_append_of_mem hu,
                List.indexOf_append_of_mem h]
              exact hidx
          · have hxv : x = v := List.mem_singleton.mp h
            subst hxv
            refine ⟨u0, List.mem_append_left _ hu0, ?_, hc.2, hvadj, ?_⟩
            · show (if x = x then (u0 : ℤ) else st.par x) = (u0 : ℤ)
              rw [if_pos rfl]
            · rw [List.indexOf_append_of_mem hu0, indexOf_append_self hvnotvl]
              exact List.indexOf_lt_length.mpr hu0
      by_cases hvsink : v = sink
      · rw [bfsInner_enq _ _ _ _ _ _ hc, if_pos hvsink]
        refine ⟨[v], hinner, ?_, ?_, ?_⟩
        · show (st.q ++ [v]).length + vl.length
            = st.q.length + (vl ++ [v]).length
          simp only [List.length_append, List.length_singleton]
          omega
        · intro _
          exact List.mem_append_right _ (List.mem_singleton.mpr hvsink.symm)
        · intro h
          exact Bool.noConfusion h
      · rw [bfsInner_enq _ _ _ _ _ _ hc, if_neg hvsink]
        have hsink' : sink ∉ vl ++ [v] := by
          intro h
          rcases List.mem_append.mp h with h | h
          · exact hsink h
          · exact hvsink (List.mem_singleton.mp h).symm
        obtain ⟨ext, h1, h2, h3, h4⟩ := ih
          ⟨st.q ++ [v], fun a => if a = v then true else st.vis a,
           fun a => if a = v then (u0 : ℤ) else st.par a⟩
          (vl ++ [v]) (fun x hx => hvs x (List.mem_cons_of_mem v hx))
          (List.mem_append_left _ hu0) hinner hsink'
        have heq : (vl ++ [v]) ++ ext = vl ++ ([v] ++ ext) :=
          List.append_assoc vl [v] ext
        refine ⟨[v] ++ ext, ?_, ?_, ?_, ?_⟩
        · rw [← heq]
          exact h1
        · rw [← heq]
          simp only [List.length_append, List.length_singleton] at h2 ⊢
          omega
        · intro h
          rw [← heq]
          exact h3 h
        · intro h
          obtain ⟨ha, hb⟩ := h4 h
          rw [← heq]
          refine ⟨ha, ?_⟩
          intro x hx hcx
          rcases List.mem_cons.mp hx with rfl | hx2
          · exact List.mem_append_left _ (List.mem_append_right _
              (List.mem_singleton.mpr rfl))
          · exact hb x hx2 hcx
    · -- the neighbor is skipped
      rw [bfsInner_skip _ _ _ _ _ _ hc]
      obtain ⟨ext, h1, h2, h3, h4⟩ := ih st vl
        (fun x hx => hvs x (List.mem_cons_of_mem v hx)) hu0 hin hsink
      refine ⟨ext, h1, h2, h3, ?_⟩
      intro h
      obtain ⟨ha, hb⟩ := h4 h
      refine ⟨ha, ?_⟩
      intro x hx hcx
      rcases List.mem_cons.mp hx with rfl | hx2
      · rcases hvx : st.vis x with _ | _
        · exact absurd ⟨hvx, hcx⟩ hc
        · exact List.mem_append_left _ ((hin.vis_iff x).mp hvx)
      · exact hb x hx2 hcx

theorem bfsLoop_succ_nil (cap : ℕ → ℕ → ℚ) (adj : ℕ → List ℕ)
    (sink fuel : ℕ) (st : BfsSt) (h : st.q = []) :
    bfsLoop cap adj sink (fuel + 1) st = some (st.par, false) := by
  rw [bfsLoop, h]

theorem bfsLoop_succ_cons (cap : ℕ → ℕ → ℚ) (adj : ℕ → List ℕ)
    (sink fuel u0 : ℕ) (qrest : List ℕ) (st : BfsSt)
    (h : st.q = u0 :: qrest) :
    bfsLoop cap adj sink (fuel + 1) st
      = (if (bfsInner cap sink u0 (adj u0) ⟨qrest, st.vis, st.par⟩).2 = true
          then some ((bfsInner cap sink u0 (adj u0)
            ⟨qrest, st.vis, st.par⟩).1.par, true)
          else bfsLoop cap adj sink fuel
            (bfsInner cap sink u0 (adj u0) ⟨qrest, st.vis, st.par⟩).1) := by
  rw [bfsLoop, h]

/-- Correctness of the BFS loop: with enough fuel it terminates; a `false`
verdict exhibits a residually-closed visited set separating the sink from
the source, a `true` verdict a parent function encoding a positive-residual
path from the source to the sink with strictly increasing discovery
positions. -/
theorem bfsLoop_spec (cap : ℕ → ℕ → ℚ) (adj : ℕ → List ℕ)
    (source sink n : ℕ) (hadjLt : ∀ u, ∀ v ∈ adj u, v < n) :
    ∀ (fuel : ℕ) (vl : List ℕ) (st : BfsSt),
      BInv cap adj source sink n vl st →
      st.q.length + n < fuel + vl.length →
      ∃ pb, bfsLoop cap adj sink fuel st = some pb
        ∧ ((pb.2 = false
            ∧ ∃ vl' : List ℕ, (∀ x ∈ vl, x ∈ vl') ∧ source ∈ vl'
              ∧ sink ∉ vl' ∧ (∀ x ∈ vl', x < n)
              ∧ ∀ u ∈ vl', ∀ v ∈ adj u, 0 < cap u v → v ∈ vl')
          ∨ (pb.2 = true
            ∧ ∃ vl' : List ℕ, vl'.Nodup ∧ (∀ x ∈ vl', x < n)
              ∧ source ∈ vl' ∧ sink ∈ vl'
              ∧ ∀ v ∈ vl', ¬ v = source →
                ∃ u ∈ vl', pb.1 v = (u : ℤ) ∧ 0 < cap u v ∧ v ∈ adj u
                  ∧ vl'.indexOf u < vl'.indexOf v)) := by
  intro fuel
  induction fuel with
  | zero =>
    intro vl st hinv hlen
    exfalso
    have hle := bfs_nodup_length_le hinv.nodup hinv.bound
    omega
  | succ fuel ih =>
    intro vl st hinv hlen
    rcases hq : st.q with _ | ⟨u0, qrest⟩
    · refine ⟨(st.par, false), bfsLoop_succ_nil _ _ _ _ _ hq,
        Or.inl ⟨rfl, vl, fun x h => h, hinv.src_mem, hinv.sink_not,
          hinv.bound, ?_⟩⟩
      intro u hu v hv hcap
      rcases hinv.expanded u hu with h | h
      · rw [hq] at h
        cases h
      · exact h v hv hcap
    · have hu0vl : u0 ∈ vl :=
        hinv.q_sub u0 (by rw [hq]; exact List.mem_cons_self _ _)
      have hinner0 : BInner cap adj source sink n u0 vl
          ⟨qrest, st.vis, st.par⟩ := by
        constructor
        · exact hinv.vis_iff
        · exact hinv.nodup
        · exact hinv.bound
        · exact hinv.src_mem
        · intro x hx
          exact hinv.q_sub x (by rw [hq]; exact List.mem_cons_of_mem _ hx)
        · intro u hu
          rcases hinv.expanded u hu with h | h
          · rw [hq] at h
            rcases List.mem_cons.mp h with rfl | h2
            · exact Or.inr (Or.inl rfl)
            · exact Or.inl h2
          · exact Or.inr (Or.inr h)
        · exact hinv.par_chain
      obtain ⟨ext, hBI, hlen2, htrue, hfalse⟩ := bfsInner_spec cap adj
        source sink n u0 hadjLt (adj u0) ⟨qrest, st.vis, st.par⟩ vl
        (fun v hv => hv) hu0vl hinner0 hinv.sink_not
      rcases hfound : (bfsInner cap sink u0 (adj u0)
          ⟨qrest, st.vis, st.par⟩).2 with _ | _
      · -- sink not found in this expansion: continue
        obtain ⟨hsink2, hfull⟩ := hfalse hfound
        have hinv' : BInv cap adj source sink n (vl ++ ext)
            (bfsInner cap sink u0 (adj u0) ⟨qrest, st.vis, st.par⟩).1 := by
          constructor
          · exact hBI.vis_iff
          · exact hBI.nodup
          · exact hBI.bound
          · exact hBI.src_mem
          · exact hsink2
          · exact hBI.q_sub
          · intro u hu
            rcases hBI.expanded u hu with h | h | h
            · exact Or.inl h
            · subst h
              exact Or.inr hfull
            · exact Or.inr h
          · exact hBI.par_chain
        have hst : st.q.length = qrest.length + 1 := by
          rw [hq]
          rfl
        have hq1 : (⟨qrest, st.vis, st.par⟩ : BfsSt).q.length
            = qrest.length := rfl
        rw [hq1] at hlen2
        have hext : (vl ++ ext).length = vl.length + ext.length := by
          simp
        have harith : (bfsInner cap sink u0 (adj u0)
            ⟨qrest, st.vis, st.par⟩).1.q.length + n
            < fuel + (vl ++ ext).length := by
          omega
        obtain ⟨pb, hres, hcase⟩ := ih (vl ++ ext) _ hinv' harith
        refine ⟨pb, ?_, ?_⟩
        · rw [bfsLoop_succ_cons _ _ _ _ _ _ _ hq,
            if_neg (by rw [hfound]; decide)]
          exact hres
        · rcases hcase with ⟨hf, vl', hsup, hrest⟩ | hright
          · exact Or.inl ⟨hf, vl',
              fun x hx => hsup x (List.mem_append_left _ hx), hrest⟩
          · exact Or.inr hright
      · -- sink found
        have hsinkmem := htrue hfound
        refine ⟨((bfsInner cap sink u0 (adj u0)
            ⟨qrest, st.vis, st.par⟩).1.par, true), ?_,
          Or.inr ⟨rfl, vl ++ ext, hBI.nodup, hBI.bound, hBI.src_mem,
            hsinkmem, fun v hv hvs => hBI.par_chain v hv hvs⟩⟩
        rw [bfsLoop_succ_cons _ _ _ _ _ _ _ hq, if_pos hfound]

/-- Top-level `bfs` specification: with fuel `n + 1` it returns, and the
verdict is as in `bfsLoop_spec`. -/
theorem bfs_spec (cap : ℕ → ℕ → ℚ) (adj : ℕ → List ℕ)
    (source sink n : ℕ) (par0 : ℕ → ℤ)
    (hadjLt : ∀ u, ∀ v ∈ adj u, v < n) (hsn : source < n)
    (hne : ¬ sink = source) :
    ∃ pb, bfs cap adj source sink par0 (n + 1) = some pb
      ∧ ((pb.2 = false
          ∧ ∃ vl' : List ℕ, source ∈ vl' ∧ sink ∉ vl'
            ∧ (∀ x ∈ vl', x < n)
            ∧ ∀ u ∈ vl', ∀ v ∈ adj u, 0 < cap u v → v ∈ vl')
        ∨ (pb.2 = true
          ∧ ∃ vl' : List ℕ, vl'.Nodup ∧ (∀ x ∈ vl', x < n)
            ∧ source ∈ vl' ∧ sink ∈ vl'
            ∧ ∀ v ∈ vl', ¬ v = source →
              ∃ u ∈ vl', pb.1 v = (u : ℤ) ∧ 0 < cap u v ∧ v ∈ adj u
                ∧ vl'.indexOf u < vl'.indexOf v)) := by
  have hinv : BInv cap adj source sink n [source]
      ⟨[source], fun a => if a = source then true else false,
       fun a => if a = source then (-1 : ℤ) else par0 a⟩ := by
    constructor
    · intro x
      by_cases hx : x = source
      · subst hx
        simp
      · show (if x = source then true else false) = true ↔ _
        rw [if_neg hx]
        simp [hx]
    · exact List.nodup_singleton source
    · intro x hx
      rw [List.mem_singleton.mp hx]
      exact hsn
    · exact List.mem_singleton.mpr rfl
    · intro h
      exact hne (List.mem_singleton.mp h)
    · intro x hx
      exact hx
    · intro u hu
      exact Or.inl hu
    · intro v hv hvs
      exact absurd (List.mem_singleton.mp hv) hvs
  obtain ⟨pb, hres, hcase⟩ := bfsLoop_spec cap adj source sink n hadjLt
    (n + 1) [source] _ hinv
    (by show (1 : ℕ) + n < n + 1 + 1; omega)
  refine ⟨pb, hres, ?_⟩
  rcases hcase with ⟨hf, vl', _, h2, h3, h4, h5⟩ | hright
  · exact Or.inl ⟨hf, vl', h2, h3, h4, h5⟩
  · exact Or.inr hright

/-- Walking the parent array of a completed BFS from any visited vertex
reaches the source, visiting distinct in-range vertices along
positive-residual adjacency steps. -/
theorem parChain_spec (cap : ℕ → ℕ → ℚ) (adj : ℕ → List ℕ)
    (source : ℕ) (par : ℕ → ℤ) (vl : List ℕ)
    (hch : ∀ v ∈ vl, ¬ v = source →
      ∃ u ∈ vl, par v = (u : ℤ) ∧ 0 < cap u v ∧ v ∈ adj u
        ∧ vl.indexOf u < vl.indexOf v) :
    ∀ (fuel : ℕ) (v : ℕ), v ∈ vl → vl.indexOf v < fuel →
      ∃ cs, parChain par source fuel v = some cs
        ∧ cs.head? = some v ∧ cs.getLast? = some source ∧ cs.Nodup
        ∧ (∀ x ∈ cs, x ∈ vl ∧ vl.indexOf x ≤ vl.indexOf v)
        ∧ ∀ p ∈ chainPairs cs, par p.1 = (p.2 : ℤ) ∧ 0 < cap p.2 p.1
            ∧ p.1 ∈ adj p.2 ∧ ¬ p.1 = source := by
  intro fuel
  induction fuel with
  | zero =>
    intro v _ h
    exact absurd h (Nat.not_lt_zero _)
  | succ fuel ih =>
    intro v hv hidx
    by_cases hvs : v = source
    · subst hvs
      refine ⟨[v], by rw [parChain, if_pos rfl], rfl, rfl,
        List.nodup_singleton v, ?_, ?_⟩
      · intro x hx
        rw [List.mem_singleton.mp hx]
        exact ⟨hv, le_refl _⟩
      · intro p hp
        cases hp
    · obtain ⟨u, hu, hpar, hcap, hadj, hidxu⟩ := hch v hv hvs
      have hidxu2 : vl.indexOf u < fuel := by omega
      obtain ⟨cs', hrec, hhead, hlast, hnd, hmem, hpairs⟩ := ih u hu hidxu2
      have htn : ((u : ℤ)).toNat = u := Int.toNat_natCast u
      have hne : cs' ≠ [] := by
        intro h
        rw [h] at hhead
        cases hhead
      obtain ⟨tail, htail⟩ : ∃ tail, cs' = u :: tail := by
        rcases cs' with _ | ⟨h0, t⟩
        · cases hhead
        · rw [List.head?_cons] at hhead
          exact ⟨t, by rw [Option.some.inj hhead]⟩
      refine ⟨v :: cs', ?_, rfl, ?_, ?_, ?_, ?_⟩
      · rw [parChain, if_neg hvs, hpar, htn, hrec]
      · show ((v :: cs')).getLast? = some source
        have hsplit : (v :: cs') = [v] ++ cs' := rfl
        rw [hsplit, List.getLast?_append_of_ne_nil _ hne]
        exact hlast
      · refine List.nodup_cons.mpr ⟨?_, hnd⟩
        intro hvcs
        obtain ⟨_, hle⟩ := hmem v hvcs
        omega
      · intro x hx
        rcases List.mem_cons.mp hx with rfl | hx2
        · exact ⟨hv, le_refl _⟩
        · obtain ⟨hm, hle⟩ := hmem x hx2
          exact ⟨hm, by omega⟩
      · intro p hp
        rw [htail] at hp
        rw [show chainPairs (v :: u :: tail)
          = (v, u) :: chainPairs (u :: tail) from rfl] at hp
        rcases List.mem_cons.mp hp with rfl | hp2
        · exact ⟨hpar, hcap, hadj, hvs⟩
        · refine hpairs p ?_
          rw [htail]
          exact hp2

/-! ## Max flow: the augmentation pass -/

theorem chainPairs_cons (a b : ℕ) (rest : List ℕ) :
    chainPairs (a :: b :: rest) = (a, b) :: chainPairs (b :: rest) := rfl

theorem chainPairs_mem : ∀ (cs : List ℕ) (p : ℕ × ℕ),
    p ∈ chainPairs cs → p.1 ∈ cs ∧ p.2 ∈ cs := by
  intro cs
  induction cs with
  | nil =>
    intro p hp
    cases hp
  | cons a rest ih =>
    intro p hp
    rcases rest with _ | ⟨b, rest2⟩
    · cases hp
    · rw [chainPairs_cons] at hp
      rcases List.mem_cons.mp hp with rfl | hp2
      · exact ⟨List.mem_cons_self _ _,
          List.mem_cons_of_mem _ (List.mem_cons_self _ _)⟩
      · obtain ⟨h1, h2⟩ := ih p hp2
        exact ⟨List.mem_cons_of_mem _ h1, List.mem_cons_of_mem _ h2⟩

theorem chainPairs_snd_mem_tail : ∀ (cs : List ℕ) (u w : ℕ),
    (u, w) ∈ chainPairs cs → w ∈ cs.tail := by
  intro cs
  induction cs with
  | nil =>
    intro u w hp
    cases hp
  | cons a rest ih =>
    intro u w hp
    rcases rest with _ | ⟨b, rest2⟩
    · cases hp
    · rw [chainPairs_cons] at hp
      rcases List.mem_cons.mp hp with heq | hp2
      · have : w = b := congrArg Prod.snd heq
        rw [this]
        exact List.mem_cons_self _ _
      · exact List.mem_cons_of_mem _ (ih u w hp2)

theorem chainPairs_fst_exists : ∀ (cs : List ℕ) (w : ℕ), w ∈ cs →
    ¬ cs.getLast? = some w → ∃ u, (w, u) ∈ chainPairs cs := by
  intro cs
  induction cs with
  | nil =>
    intro w hw
    cases hw
  | cons a rest ih =>
    intro w hw hlast
    rcases rest with _ | ⟨b, rest2⟩
    · exfalso
      apply hlast
      rw [List.mem_singleton.mp hw]
      rfl
    · rcases List.mem_cons.mp hw with rfl | hw2
      · refine ⟨b, ?_⟩
        rw [chainPairs_cons]
        exact List.mem_cons_self _ _
      · rw [List.getLast?_cons_cons] at hlast
        obtain ⟨u, hu⟩ := ih w hw2 hlast
        refine ⟨u, ?_⟩
        rw [chainPairs_cons]
        exact List.mem_cons_of_mem _ hu

theorem chainPairs_snd_exists : ∀ (cs : List ℕ) (w : ℕ), w ∈ cs →
    ¬ cs.head? = some w → ∃ u, (u, w) ∈ chainPairs cs := by
  intro cs
  induction cs with
  | nil =>
    intro w hw
    cases hw
  | cons a rest ih =>
    intro w hw hhead
    have hwa : ¬ w = a := fun h => hhead (by rw [h]; rfl)
    rcases List.mem_cons.mp hw with rfl | hw2
    · exact absurd rfl hwa
    · rcases rest with _ | ⟨b, rest2⟩
      · cases hw2
      · by_cases hwb : w = b
        · refine ⟨a, ?_⟩
          rw [chainPairs_cons, hwb]
          exact List.mem_cons_self _ _
        · obtain ⟨u, hu⟩ := ih w hw2
            (fun hh => hwb (Option.some.inj hh).symm)
          refine ⟨u, ?_⟩
          rw [chainPairs_cons]
          exact List.mem_cons_of_mem _ hu

theorem chainPairs_fst_unique : ∀ (cs : List ℕ), cs.Nodup →
    ∀ w u1 u2, (w, u1) ∈ chainPairs cs → (w, u2) ∈ chainPairs cs →
      u1 = u2 := by
  intro cs
  induction cs with
  | nil =>
    intro _ w u1 u2 h
    cases h
  | cons a rest ih =>
    intro hnd w u1 u2 h1 h2
    rcases rest with _ | ⟨b, rest2⟩
    · cases h1
    · have hanotin : a ∉ b :: rest2 := (List.nodup_cons.mp hnd).1
      rw [chainPairs_cons] at h1 h2
      rcases List.mem_cons.mp h1 with he1 | hm1
      · rcases List.mem_cons.mp h2 with he2 | hm2
        · have e1 : u1 = b := congrArg Prod.snd he1
          have e2 : u2 = b := congrArg Prod.snd he2
          rw [e1, e2]
        · exfalso
          have hw : w = a := congrArg Prod.fst he1
          have := (chainPairs_mem _ _ hm2).1
          rw [hw] at this
          exact hanotin this
      · rcases List.mem_cons.mp h2 with he2 | hm2
        · exfalso
          have hw : w = a := congrArg Prod.fst he2
          have := (chainPairs_mem _ _ hm1).1
          rw [hw] at this
          exact hanotin this
        · exact ih (List.nodup_cons.mp hnd).2 w u1 u2 hm1 hm2

theorem chainPairs_snd_unique : ∀ (cs : List ℕ), cs.Nodup →
    ∀ w u1 u2, (u1, w) ∈ chainPairs cs → (u2, w) ∈ chainPairs cs →
      u1 = u2 := by
  intro cs
  induction cs with
  | nil =>
    intro _ w u1 u2 h
    cases h
  | cons a rest ih =>
    intro hnd w u1 u2 h1 h2
    rcases rest with _ | ⟨b, rest2⟩
    · cases h1
    · have hbnotin : b ∉ rest2 := (List.nodup_cons.mp (List.nodup_cons.mp hnd).2).1
      rw [chainPairs_cons] at h1 h2
      rcases List.mem_cons.mp h1 with he1 | hm1
      · rcases List.mem_cons.mp h2 with he2 | hm2
        · have e1 : u1 = a := congrArg Prod.fst he1
          have e2 : u2 = a := congrArg Prod.fst he2
          rw [e1, e2]
        · exfalso
          have hw : w = b := congrArg Prod.snd he1
          have := chainPairs_snd_mem_tail _ _ _ hm2
          rw [hw] at this
          exact hbnotin this
      · rcases List.mem_cons.mp h2 with he2 | hm2
        · exfalso
          have hw : w = b := congrArg Prod.snd he2
          have := chainPairs_snd_mem_tail _ _ _ hm1
          rw [hw] at this
          exact hbnotin this
        · exact ih (List.nodup_cons.mp hnd).2 w u1 u2 hm1 hm2

theorem chainPairs_fst_not_last : ∀ (cs : List ℕ), cs.Nodup →
    ∀ w u, (w, u) ∈ chainPairs cs → ¬ cs.getLast? = some w := by
  intro cs
  induction cs with
  | nil =>
    intro _ w u h
    cases h
  | cons a rest ih =>
    intro hnd w u hp hlast
    rcases rest with _ | ⟨b, rest2⟩
    · cases hp
    · rw [chainPairs_cons] at hp
      rw [List.getLast?_cons_cons] at hlast
      rcases List.mem_cons.mp hp with he | hm
      · have hw : w = a := congrArg Prod.fst he
        have := List.mem_of_mem_getLast? hlast
        rw [hw] at this
        exact (List.nodup_cons.mp hnd).1 this
      · exact ih (List.nodup_cons.mp hnd).2 w u hm hlast

theorem chainPairs_snd_not_head : ∀ (cs : List ℕ), cs.Nodup →
    ∀ w u, (u, w) ∈ chainPairs cs → ¬ cs.head? = some w := by
  intro cs hnd w u hp hhead
  rcases cs with _ | ⟨a, rest⟩
  · cases hp
  · have hwa : w = a := (Option.some.inj hhead).symm
    have := chainPairs_snd_mem_tail _ _ _ hp
    rw [hwa] at this
    exact (List.nodup_cons.mp hnd).1 this

theorem chainPairs_clean : ∀ (cs : List ℕ), cs.Nodup →
    CleanPairs (chainPairs cs) := by
  intro cs
  induction cs with
  | nil =>
    intro _
    exact ⟨List.nodup_nil, fun p hp => absurd hp (List.not_mem_nil p),
      fun p hp => absurd hp (List.not_mem_nil p)⟩
  | cons a rest ih =>
    intro hnd
    rcases rest with _ | ⟨b, rest2⟩
    · exact ⟨List.nodup_nil, fun p hp => absurd hp (List.not_mem_nil p),
        fun p hp => absurd hp (List.not_mem_nil p)⟩
    · have hanotin : a ∉ b :: rest2 := (List.nodup_cons.mp hnd).1
      have hab : ¬ a = b := fun h => hanotin (h ▸ List.mem_cons_self b rest2)
      obtain ⟨ihnd, ihne, ihrev⟩ := ih (List.nodup_cons.mp hnd).2
      rw [chainPairs_cons]
      refine ⟨?_, ?_, ?_⟩
      · refine List.nodup_cons.mpr ⟨?_, ihnd⟩
        intro hmem
        exact hanotin (chainPairs_mem _ _ hmem).1
      · intro p hp
        rcases List.mem_cons.mp hp with rfl | hp2
        · exact hab
        · exact ihne p hp2
      · intro p hp hrev
        rcases List.mem_cons.mp hp with rfl | hp2
        · -- p = (a, b), reverse (b, a)
          rcases List.mem_cons.mp hrev with he | hm
          · exact hab (congrArg Prod.snd he)
          · exact hanotin (chainPairs_mem _ _ hm).2
        · rcases List.mem_cons.mp hrev with he | hm
          · -- (p.2, p.1) = (a, b): p = (b, a), yet p ∈ tail pairs
            have h1 : p.2 = a := congrArg Prod.fst he
            have := (chainPairs_mem _ _ hp2).2
            rw [h1] at this
            exact hanotin this
          · exact ihrev p hp2 hm

theorem augStep_fst (pf : ℚ) (cap : ℕ → ℕ → ℚ) (p : ℕ × ℕ)
    (h : ¬ p.1 = p.2) : augStep pf cap p p.1 p.2 = cap p.1 p.2 + pf := by
  unfold augStep
  rw [ekUpd2_self]
  rw [ekUpd2_ne _ _ _ _ _ _ (fun hc => h hc.1)]

theorem augStep_snd (pf : ℚ) (cap : ℕ → ℕ → ℚ) (p : ℕ × ℕ)
    (h : ¬ p.1 = p.2) : augStep pf cap p p.2 p.1 = cap p.2 p.1 - pf := by
  unfold augStep
  rw [ekUpd2_ne _ _ _ _ _ _ (fun hc => h hc.2)]
  rw [ekUpd2_self]

theorem augStep_other (pf : ℚ) (cap : ℕ → ℕ → ℚ) (p : ℕ × ℕ) (a b : ℕ)
    (h1 : ¬ (a = p.1 ∧ b = p.2)) (h2 : ¬ (a = p.2 ∧ b = p.1)) :
    augStep pf cap p a b = cap a b := by
  unfold augStep
  rw [ekUpd2_ne _ _ _ _ _ _ h1, ekUpd2_ne _ _ _ _ _ _ h2]

/-- Closed form of the augmentation pass on clean pair lists: each slot
loses `pf` if its reverse is a path pair and gains `pf` if it is one. -/
theorem applyAug_closed :
    ∀ (l : List (ℕ × ℕ)) (cap : ℕ → ℕ → ℚ) (pf : ℚ), CleanPairs l →
      ∀ a b, applyAug cap pf l a b
        = cap a b - (if (b, a) ∈ l then pf else 0)
          + (if (a, b) ∈ l then pf else 0) := by
  intro l
  induction l with
  | nil =>
    intro cap pf _ a b
    show cap a b = _
    simp
  | cons p ps ih =>
    intro cap pf hcl a b
    have hndps : ps.Nodup := (List.nodup_cons.mp hcl.1).2
    have hpnotps : p ∉ ps := (List.nodup_cons.mp hcl.1).1
    have hcl' : CleanPairs ps :=
      ⟨hndps, fun q hq => hcl.2.1 q (List.mem_cons_of_mem _ hq),
        fun q hq hrev => hcl.2.2 q (List.mem_cons_of_mem _ hq)
          (List.mem_cons_of_mem _ hrev)⟩
    have hpne : ¬ p.1 = p.2 := hcl.2.1 p (List.mem_cons_self _ _)
    have hrevp : (p.2, p.1) ∉ p :: ps := hcl.2.2 p (List.mem_cons_self _ _)
    have hstep : applyAug cap pf (p :: ps) a b
        = applyAug (augStep pf cap p) pf ps a b := rfl
    rw [hstep, ih (augStep pf cap p) pf hcl' a b]
    by_cases h1 : a = p.1 ∧ b = p.2
    · have hab : (a, b) = p := Prod.ext_iff.mpr ⟨h1.1, h1.2⟩
      have hba : (b, a) = (p.2, p.1) := Prod.ext_iff.mpr ⟨h1.2, h1.1⟩
      have hm1 : (a, b) ∉ ps := by
        rw [hab]
        exact hpnotps
      have hm2 : (b, a) ∉ ps := by
        rw [hba]
        intro hc
        exact hrevp (List.mem_cons_of_mem _ hc)
      have hm3 : (a, b) ∈ p :: ps := by
        rw [hab]
        exact List.mem_cons_self _ _
      have hm4 : (b, a) ∉ p :: ps := by
        rw [hba]
        exact hrevp
      rw [if_neg hm2, if_neg hm1, if_pos hm3, if_neg hm4]
      rw [h1.1, h1.2, augStep_fst _ _ _ hpne]
      ring
    · by_cases h2 : a = p.2 ∧ b = p.1
      · have hba : (b, a) = p := Prod.ext_iff.mpr ⟨h2.2, h2.1⟩
        have hab : (a, b) = (p.2, p.1) := Prod.ext_iff.mpr ⟨h2.1, h2.2⟩
        have hm1 : (b, a) ∉ ps := by
          rw [hba]
          exact hpnotps
        have hm2 : (a, b) ∉ ps := by
          rw [hab]
          intro hc
          exact hrevp (List.mem_cons_of_mem _ hc)
        have hm3 : (b, a) ∈ p :: ps := by
          rw [hba]
          exact List.mem_cons_self _ _
        have hm4 : (a, b) ∉ p :: ps := by
          rw [hab]
          exact hrevp
        rw [if_neg hm1, if_neg hm2, if_pos hm3, if_neg hm4]
        rw [h2.1, h2.2, augStep_snd _ _ _ hpne]
        ring
      · have hab_ne : (a, b) ≠ p := fun hc =>
          h1 ⟨congrArg Prod.fst hc, congrArg Prod.snd hc⟩
        have hba_ne : (b, a) ≠ p := fun hc =>
          h2 ⟨congrArg Prod.snd hc, congrArg Prod.fst hc⟩
        have hiff1 : ((a, b) ∈ p :: ps) ↔ ((a, b) ∈ ps) := by
          rw [List.mem_cons]
          exact or_iff_right hab_ne
        have hiff2 : ((b, a) ∈ p :: ps) ↔ ((b, a) ∈ ps) := by
          rw [List.mem_cons]
          exact or_iff_right hba_ne
        rw [augStep_other _ _ _ _ _ h1 h2]
        rw [if_congr hiff1 rfl rfl, if_congr hiff2 rfl rfl]

theorem pairsMin_fold (cap : ℕ → ℕ → ℚ) :
    ∀ (l : List (ℕ × ℕ)) (m : Option ℚ) (q : ℚ),
      l.foldl (fun m p =>
        match m with
        | none => some (cap p.2 p.1)
        | some q => some (min q (cap p.2 p.1))) m = some q →
      ((∀ q0, m = some q0 → q ≤ q0)
        ∧ (∀ p ∈ l, q ≤ cap p.2 p.1)
        ∧ (m = some q ∨ ∃ p ∈ l, q = cap p.2 p.1)) := by
  intro l
  induction l with
  | nil =>
    intro m q h
    refine ⟨?_, ?_, Or.inl h⟩
    · intro q0 h0
      rw [h0] at h
      rw [Option.some.inj h]
    · intro p hp
      cases hp
  | cons p ps ih =>
    intro m q h
    rw [List.foldl_cons] at h
    rcases m with _ | q0
    · obtain ⟨ha, hb, hc⟩ := ih (some (cap p.2 p.1)) q h
      refine ⟨?_, ?_, ?_⟩
      · intro q1 h1
        cases h1
      · intro r hr
        rcases List.mem_cons.mp hr with rfl | hr2
        · exact ha _ rfl
        · exact hb r hr2
      · refine Or.inr ?_
        rcases hc with h1 | ⟨r, hr, hrq⟩
        · exact ⟨p, List.mem_cons_self _ _, (Option.some.inj h1).symm⟩
        · exact ⟨r, List.mem_cons_of_mem _ hr, hrq⟩
    · obtain ⟨ha, hb, hc⟩ := ih (some (min q0 (cap p.2 p.1))) q h
      have hq : q ≤ min q0 (cap p.2 p.1) := ha _ rfl
      refine ⟨?_, ?_, ?_⟩
      · intro q1 h1
        obtain rfl := Option.some.inj h1
        exact le_trans hq (min_le_left _ _)
      · intro r hr
        rcases List.mem_cons.mp hr with rfl | hr2
        · exact le_trans hq (min_le_right _ _)
        · exact hb r hr2
      · rcases hc with h1 | ⟨r, hr, hrq⟩
        · have hqe : q = min q0 (cap p.2 p.1) := (Option.some.inj h1).symm
          rcases le_total q0 (cap p.2 p.1) with hle | hle
          · refine Or.inl ?_
            rw [hqe, min_eq_left hle]
          · refine Or.inr ⟨p, List.mem_cons_self _ _, ?_⟩
            rw [hqe, min_eq_right hle]
        · exact Or.inr ⟨r, List.mem_cons_of_mem _ hr, hrq⟩

theorem pairsMin_from_some (cap : ℕ → ℕ → ℚ) :
    ∀ (l : List (ℕ × ℕ)) (m : ℚ), ∃ q,
      l.foldl (fun m p =>
        match m with
        | none => some (cap p.2 p.1)
        | some q => some (min q (cap p.2 p.1))) (some m) = some q := by
  intro l
  induction l with
  | nil =>
    intro m
    exact ⟨m, rfl⟩
  | cons p ps ih =>
    intro m
    rw [List.foldl_cons]
    exact ih (min m (cap p.2 p.1))

theorem pairsMin_some (cap : ℕ → ℕ → ℚ) (l : List (ℕ × ℕ))
    (hl : ¬ l = []) : ∃ q, pairsMin cap l = some q := by
  rcases l with _ | ⟨p, ps⟩
  · exact absurd rfl hl
  · unfold pairsMin
    rw [List.foldl_cons]
    exact pairsMin_from_some cap ps (cap p.2 p.1)

theorem pairsMin_spec {cap : ℕ → ℕ → ℚ} {l : List (ℕ × ℕ)} {q : ℚ}
    (h : pairsMin cap l = some q) :
    (∀ p ∈ l, q ≤ cap p.2 p.1) ∧ ∃ p ∈ l, q = cap p.2 p.1 := by
  obtain ⟨_, hb, hc⟩ := pairsMin_fold cap l none q h
  rcases hc with h1 | h2
  · cases h1
  · exact ⟨hb, h2⟩

theorem sum_ite_mem_unique {n : ℕ} {pf : ℚ} (P : ℕ → Prop)
    [DecidablePred P] (u0 : ℕ) (hu0 : u0 < n) (hP : P u0)
    (huniq : ∀ u, P u → u = u0) :
    ∑ u ∈ Finset.range n, (if P u then pf else 0) = pf := by
  have hcongr : ∀ u ∈ Finset.range n,
      (if P u then pf else 0) = (if u = u0 then pf else 0) := by
    intro u _
    by_cases h : P u
    · rw [if_pos h, if_pos (huniq u h)]
    · rw [if_neg h, if_neg (fun hu => h (by rw [hu]; exact hP))]
  rw [Finset.sum_congr rfl hcongr,
    Finset.sum_ite_eq' (Finset.range n) u0 (fun _ => pf),
    if_pos (Finset.mem_range.mpr hu0)]

theorem sum_ite_mem_none {n : ℕ} {pf : ℚ} (P : ℕ → Prop)
    [DecidablePred P] (hno : ∀ u, ¬ P u) :
    ∑ u ∈ Finset.range n, (if P u then pf else 0) = 0 :=
  Finset.sum_eq_zero (fun u _ => if_neg (hno u))

/-! ## Max flow: flows, cuts and weak duality -/

theorem flow_conserve_out {n : ℕ} {c0 : ℕ → ℕ → ℚ} {s t : ℕ}
    {f : ℕ → ℕ → ℚ} (hf : IsFlow n c0 s t f) {u : ℕ} (hu : u < n)
    (hus : ¬ u = s) (hut : ¬ u = t) :
    ∑ v ∈ Finset.range n, f u v = 0 := by
  calc ∑ v ∈ Finset.range n, f u v
      = ∑ v ∈ Finset.range n, (- f v u) :=
        Finset.sum_congr rfl (fun v _ => hf.1 u v)
    _ = - ∑ v ∈ Finset.range n, f v u := by
        rw [Finset.sum_neg_distrib]
    _ = 0 := by
        rw [hf.2.2.1 u hu hus hut, neg_zero]

/-- The net flow out of the source equals the net flow across any s-t
cut. -/
theorem flow_value_eq_cut {n : ℕ} {c0 : ℕ → ℕ → ℚ} {s t : ℕ}
    {f : ℕ → ℕ → ℚ} (hf : IsFlow n c0 s t f)
    (S : Finset ℕ) (hS : S ⊆ Finset.range n) (hsS : s ∈ S) (htS : t ∉ S) :
    flowValue n s f = ∑ u ∈ S, ∑ v ∈ Finset.range n \ S, f u v := by
  have hsplit : ∀ u : ℕ, ∑ v ∈ Finset.range n, f u v
      = ∑ v ∈ S, f u v + ∑ v ∈ Finset.range n \ S, f u v := by
    intro u
    rw [add_comm, Finset.sum_sdiff hS]
  have hmain : ∑ u ∈ S, ∑ v ∈ Finset.range n, f u v = flowValue n s f := by
    refine Finset.sum_eq_single_of_mem s hsS ?_
    intro u huS hune
    exact flow_conserve_out hf (Finset.mem_range.mp (hS huS)) hune
      (fun h => htS (by rw [← h]; exact huS))
  have hzero : ∑ u ∈ S, ∑ v ∈ S, f u v = 0 := by
    have h1 : ∑ u ∈ S, ∑ v ∈ S, f u v = ∑ u ∈ S, ∑ v ∈ S, f v u :=
      Finset.sum_comm
    have h2 : ∑ u ∈ S, ∑ v ∈ S, f v u = ∑ u ∈ S, ∑ v ∈ S, (- f u v) :=
      Finset.sum_congr rfl (fun u _ =>
        Finset.sum_congr rfl (fun v _ => hf.1 v u))
    have h3 : ∑ u ∈ S, ∑ v ∈ S, (- f u v)
        = - ∑ u ∈ S, ∑ v ∈ S, f u v := by
      simp [Finset.sum_neg_distrib]
    have h4 : ∑ u ∈ S, ∑ v ∈ S, f u v = - ∑ u ∈ S, ∑ v ∈ S, f u v :=
      h1.trans (h2.trans h3)
    linarith
  calc flowValue n s f
      = ∑ u ∈ S, ∑ v ∈ Finset.range n, f u v := hmain.symm
    _ = ∑ u ∈ S, (∑ v ∈ S, f u v + ∑ v ∈ Finset.range n \ S, f u v) :=
        Finset.sum_congr rfl (fun u _ => hsplit u)
    _ = (∑ u ∈ S, ∑ v ∈ S, f u v)
        + ∑ u ∈ S, ∑ v ∈ Finset.range n \ S, f u v :=
        Finset.sum_add_distrib
    _ = ∑ u ∈ S, ∑ v ∈ Finset.range n \ S, f u v := by
        rw [hzero, zero_add]

/-- Weak duality: every feasible flow's value is at most every s-t cut's
capacity. -/
theorem flow_value_le_cut {n : ℕ} {c0 : ℕ → ℕ → ℚ} {s t : ℕ}
    {f : ℕ → ℕ → ℚ} (hf : IsFlow n c0 s t f)
    (S : Finset ℕ) (hS : S ⊆ Finset.range n) (hsS : s ∈ S) (htS : t ∉ S) :
    flowValue n s f ≤ cutCap n c0 S := by
  rw [flow_value_eq_cut hf S hS hsS htS]
  unfold cutCap
  refine Finset.sum_le_sum ?_
  intro u _
  refine Finset.sum_le_sum ?_
  intro v _
  exact hf.2.1 u v

theorem rat_le_natAbs (q : ℚ) : q ≤ (q.num.natAbs : ℚ) := by
  have hden : ((q.den : ℚ)) ≠ 0 := by exact_mod_cast q.den_nz
  have hdpos : (0 : ℚ) < (q.den : ℚ) := by
    exact_mod_cast Nat.pos_of_ne_zero q.den_nz
  have hden1 : (1 : ℚ) ≤ (q.den : ℚ) := by
    exact_mod_cast Nat.one_le_iff_ne_zero.mpr q.den_nz
  have h2 : ((q.num : ℚ) / (q.den : ℚ)) = q := Rat.num_div_den q
  conv_lhs => rw [← h2]
  rw [div_le_iff hdpos]
  have hnum : (q.num : ℚ) ≤ (q.num.natAbs : ℚ) := by
    have hZ : q.num ≤ ((q.num.natAbs : ℤ)) := Int.le_natAbs
    calc (q.num : ℚ) ≤ ((q.num.natAbs : ℤ) : ℚ) := by exact_mod_cast hZ
      _ = ((q.num.natAbs : ℕ) : ℚ) := Int.cast_natCast _
  have habs0 : (0 : ℚ) ≤ (q.num.natAbs : ℚ) := by positivity
  calc (q.num : ℚ) ≤ (q.num.natAbs : ℚ) := hnum
    _ ≤ (q.num.natAbs : ℚ) * (q.den : ℚ) :=
        le_mul_of_one_le_right habs0 hden1

/-- Every entry of the built capacity matrix is at most the sum of the
absolute values of the capacity numerators. -/
theorem c0_le_capN {nodes : List Node} {edges : List Edge}
    {c0 : ℕ → ℕ → ℚ} {adj : ℕ → List ℕ}
    (hg : EkGraph nodes.length edges c0 adj) (u v : ℕ) :
    c0 u v ≤ (((edges.map (fun e => e.capacity.num.natAbs)).sum : ℕ) : ℚ) := by
  rcases hg.entry u v with h | ⟨e, he, hev⟩
  · rw [h]
    exact_mod_cast Nat.zero_le _
  · rw [hev]
    have h1 : e.capacity ≤ (e.capacity.num.natAbs : ℚ) :=
      rat_le_natAbs e.capacity
    have hmem : e.capacity.num.natAbs
        ∈ edges.map (fun e => e.capacity.num.natAbs) :=
      List.mem_map_of_mem _ he
    have h2 : e.capacity.num.natAbs
        ≤ (edges.map (fun e => e.capacity.num.natAbs)).sum :=
      List.single_le_sum (fun x _ => Nat.zero_le x) _ hmem
    exact le_trans h1 (by exact_mod_cast h2)

theorem cutCap_singleton_le {n : ℕ} {c0 : ℕ → ℕ → ℚ} {s : ℕ} {N : ℚ}
    (hentry : ∀ u v, c0 u v ≤ N) (hN : 0 ≤ N) :
    cutCap n c0 {s} ≤ (n : ℚ) * N := by
  unfold cutCap
  rw [Finset.sum_singleton]
  have h1 : ∑ v ∈ Finset.range n \ {s}, c0 s v
      ≤ (Finset.range n \ {s}).card • N :=
    Finset.sum_le_card_nsmul _ _ N (fun v _ => hentry s v)
  rw [nsmul_eq_mul] at h1
  have hcard : ((Finset.range n \ {s}).card : ℚ) ≤ (n : ℚ) := by
    have := Finset.card_le_card
      (Finset.sdiff_subset : Finset.range n \ {s} ⊆ Finset.range n)
    rw [Finset.card_range] at this
    exact_mod_cast this
  exact le_trans h1 (mul_le_mul_of_nonneg_right hcard hN)

/-! ## Max flow: the augmentation loop invariant -/

/-- The difference `c0 - cap` tracked by `EkInv` is a feasible flow of
value `acc`. -/
theorem ekInv_isFlow {n D : ℕ} {c0 cap : ℕ → ℕ → ℚ} {adj : ℕ → List ℕ}
    {source sink : ℕ} {acc : ℚ}
    (hInv : EkInv n D c0 cap adj source sink acc) :
    IsFlow n c0 source sink (fun u v => c0 u v - cap u v)
    ∧ flowValue n source (fun u v => c0 u v - cap u v) = acc := by
  refine ⟨⟨?_, ?_, ?_, ?_⟩, ?_⟩
  · intro u v
    have := hInv.skew u v
    show c0 u v - cap u v = - (c0 v u - cap v u)
    linarith
  · intro u v
    have := hInv.nonneg u v
    show c0 u v - cap u v ≤ c0 u v
    linarith
  · intro v hv hvs hvt
    exact hInv.conserve v hv hvs hvt
  · intro u v h
    show c0 u v - cap u v = 0
    rw [hInv.supp u v h, sub_self]
  · exact hInv.val

/-- When the BFS finds no augmenting path, the visited set induces an s-t
cut whose capacity equals the accumulated flow value. -/
theorem ekInv_exit {n D : ℕ} {c0 cap : ℕ → ℕ → ℚ} {adj : ℕ → List ℕ}
    {source sink : ℕ} {acc : ℚ}
    (hInv : EkInv n D c0 cap adj source sink acc)
    (hs : source < n)
    (vl' : List ℕ) (hsrc : source ∈ vl') (hsinknot : sink ∉ vl')
    (hclosed : ∀ u ∈ vl', ∀ v ∈ adj u, 0 < cap u v → v ∈ vl') :
    ∃ S : Finset ℕ, S ⊆ Finset.range n ∧ source ∈ S ∧ sink ∉ S
      ∧ acc = cutCap n c0 S := by
  classical
  obtain ⟨hflow, hval⟩ := ekInv_isFlow hInv
  refine ⟨(Finset.range n).filter (fun x => x ∈ vl'),
    Finset.filter_subset _ _,
    Finset.mem_filter.mpr ⟨Finset.mem_range.mpr hs, hsrc⟩,
    fun h => hsinknot (Finset.mem_filter.mp h).2, ?_⟩
  have hcut := flow_value_eq_cut hflow
    ((Finset.range n).filter (fun x => x ∈ vl'))
    (Finset.filter_subset _ _)
    (Finset.mem_filter.mpr ⟨Finset.mem_range.mpr hs, hsrc⟩)
    (fun h => hsinknot (Finset.mem_filter.mp h).2)
  rw [← hval, hcut]
  unfold cutCap
  refine Finset.sum_congr rfl ?_
  intro u hu
  refine Finset.sum_congr rfl ?_
  intro v hv
  have huvl : u ∈ vl' := (Finset.mem_filter.mp hu).2
  have hvnot : v ∉ vl' := by
    intro hc
    have hvr := (Finset.mem_sdiff.mp hv).1
    exact (Finset.mem_sdiff.mp hv).2 (Finset.mem_filter.mpr ⟨hvr, hc⟩)
  have hcap0 : cap u v = 0 := by
    rcases lt_or_eq_of_le (hInv.nonneg u v) with hlt | heq
    · exfalso
      have hadj : v ∈ adj u := hInv.adjPos u v (ne_of_gt hlt)
      exact hvnot (hclosed u huvl v hadj hlt)
    · exact heq.symm
  rw [hcap0, sub_zero]

/-- Augmenting along the parent chain preserves the loop invariant and
adds the (positive, `1/D`-granular) bottleneck to the flow value. -/
theorem ekInv_augment {n D : ℕ} {c0 cap : ℕ → ℕ → ℚ} {adj : ℕ → List ℕ}
    {source sink : ℕ} {acc pf : ℚ} {cs : List ℕ}
    (hInv : EkInv n D c0 cap adj source sink acc)
    (hadjSym : ∀ u v, v ∈ adj u → u ∈ adj v)
    (hhead : cs.head? = some sink) (hlast : cs.getLast? = some source)
    (hnd : cs.Nodup) (hlt : ∀ x ∈ cs, x < n)
    (hpc : ∀ p ∈ chainPairs cs, 0 < cap p.2 p.1)
    (hpa : ∀ p ∈ chainPairs cs, p.1 ∈ adj p.2)
    (hss : ¬ sink = source)
    (hpf : pairsMin cap (chainPairs cs) = some pf) :
    0 < pf ∧ Gran D pf
    ∧ EkInv n D c0 (applyAug cap pf (chainPairs cs)) adj source sink
        (acc + pf) := by
  classical
  have hclean := chainPairs_clean cs hnd
  have closed := applyAug_closed (chainPairs cs) cap pf hclean
  obtain ⟨hminle, p0, hp0mem, hp0eq⟩ := pairsMin_spec hpf
  have hpf_pos : 0 < pf := by
    rw [hp0eq]
    exact hpc p0 hp0mem
  have hpf_gran : Gran D pf := by
    rw [hp0eq]
    exact hInv.gran p0.2 p0.1
  have hmem_lt : ∀ p ∈ chainPairs cs, p.1 < n ∧ p.2 < n := fun p hp =>
    ⟨hlt _ (chainPairs_mem _ _ hp).1, hlt _ (chainPairs_mem _ _ hp).2⟩
  have hsource_cs : source ∈ cs := List.mem_of_mem_getLast? hlast
  have hsink_cs : sink ∈ cs := by
    rcases cs with _ | ⟨a, t⟩
    · cases hhead
    · rw [Option.some.inj hhead]
      exact List.mem_cons_self _ _
  refine ⟨hpf_pos, hpf_gran, ?_⟩
  constructor
  · -- skew
    intro u v
    rw [closed u v, closed v u]
    have := hInv.skew u v
    linarith
  · -- nonneg
    intro a b
    rw [closed a b]
    by_cases h1 : (b, a) ∈ chainPairs cs
    · have h2 : (a, b) ∉ chainPairs cs := by
        intro hc
        exact hclean.2.2 (b, a) h1 hc
      rw [if_pos h1, if_neg h2]
      have hle : pf ≤ cap a b := hminle (b, a) h1
      linarith
    · rw [if_neg h1]
      have hnn := hInv.nonneg a b
      by_cases h2 : (a, b) ∈ chainPairs cs
      · rw [if_pos h2]
        linarith
      · rw [if_neg h2]
        linarith
  · -- adjPos
    intro a b hne
    by_cases h2 : (a, b) ∈ chainPairs cs
    · exact hadjSym b a (hpa (a, b) h2)
    · by_cases h1 : (b, a) ∈ chainPairs cs
      · exact hpa (b, a) h1
      · rw [closed a b, if_neg h1, if_neg h2] at hne
        refine hInv.adjPos a b ?_
        intro hc
        rw [hc] at hne
        simp at hne
  · -- supp
    intro a b hab
    have h1 : (b, a) ∉ chainPairs cs := by
      intro hc
      obtain ⟨hblt, halt⟩ := hmem_lt (b, a) hc
      rcases hab with h | h
      · omega
      · omega
    have h2 : (a, b) ∉ chainPairs cs := by
      intro hc
      obtain ⟨halt, hblt⟩ := hmem_lt (a, b) hc
      rcases hab with h | h
      · omega
      · omega
    rw [closed a b, if_neg h1, if_neg h2, hInv.supp a b hab]
    ring
  · -- gran
    intro a b
    rw [closed a b]
    refine Gran_add (Gran_sub (hInv.gran a b) ?_) ?_
    · by_cases h : (b, a) ∈ chainPairs cs
      · rw [if_pos h]
        exact hpf_gran
      · rw [if_neg h]
        exact Gran_zero D
    · by_cases h : (a, b) ∈ chainPairs cs
      · rw [if_pos h]
        exact hpf_gran
      · rw [if_neg h]
        exact Gran_zero D
  · -- conservation
    intro w hw hws hwt
    have hterm : ∀ u, c0 u w - applyAug cap pf (chainPairs cs) u w
        = (c0 u w - cap u w)
          + ((if (w, u) ∈ chainPairs cs then pf else 0)
            - (if (u, w) ∈ chainPairs cs then pf else 0)) := by
      intro u
      rw [closed u w]
      ring
    rw [Finset.sum_congr rfl (fun u _ => hterm u),
      Finset.sum_add_distrib, hInv.conserve w hw hws hwt,
      Finset.sum_sub_distrib]
    by_cases hwcs : w ∈ cs
    · -- both an outgoing and an incoming pair exist, each unique
      have hnl : ¬ cs.getLast? = some w := by
        intro hc
        rw [hlast] at hc
        exact hws (Option.some.inj hc).symm
      have hnh : ¬ cs.head? = some w := by
        intro hc
        rw [hhead] at hc
        exact hwt (Option.some.inj hc).symm
      obtain ⟨uA, hA⟩ := chainPairs_fst_exists cs w hwcs hnl
      obtain ⟨uB, hB⟩ := chainPairs_snd_exists cs w hwcs hnh
      have hsumA : ∑ u ∈ Finset.range n,
          (if (w, u) ∈ chainPairs cs then pf else 0) = pf :=
        sum_ite_mem_unique (fun u => (w, u) ∈ chainPairs cs) uA
          (hmem_lt (w, uA) hA).2 hA
          (fun u hu => chainPairs_fst_unique cs hnd w u uA hu hA)
      have hsumB : ∑ u ∈ Finset.range n,
          (if (u, w) ∈ chainPairs cs then pf else 0) = pf :=
        sum_ite_mem_unique (fun u => (u, w) ∈ chainPairs cs) uB
          (hmem_lt (uB, w) hB).1 hB
          (fun u hu => chainPairs_snd_unique cs hnd w u uB hu hB)
      rw [hsumA, hsumB]
      ring
    · have hsumA : ∑ u ∈ Finset.range n,
          (if (w, u) ∈ chainPairs cs then pf else 0) = 0 :=
        sum_ite_mem_none (fun u => (w, u) ∈ chainPairs cs)
          (fun u hu => hwcs (chainPairs_mem _ _ hu).1)
      have hsumB : ∑ u ∈ Finset.range n,
          (if (u, w) ∈ chainPairs cs then pf else 0) = 0 :=
        sum_ite_mem_none (fun u => (u, w) ∈ chainPairs cs)
          (fun u hu => hwcs (chainPairs_mem _ _ hu).2)
      rw [hsumA, hsumB]
      ring
  · -- value
    have hterm : ∀ v, c0 source v - applyAug cap pf (chainPairs cs) source v
        = (c0 source v - cap source v)
          + ((if (v, source) ∈ chainPairs cs then pf else 0)
            - (if (source, v) ∈ chainPairs cs then pf else 0)) := by
      intro v
      rw [closed source v]
      ring
    rw [Finset.sum_congr rfl (fun v _ => hterm v),
      Finset.sum_add_distrib, hInv.val, Finset.sum_sub_distrib]
    have hnh : ¬ cs.head? = some source := by
      intro hc
      rw [hhead] at hc
      exact hss (Option.some.inj hc)
    obtain ⟨uB, hB⟩ := chainPairs_snd_exists cs source hsource_cs hnh
    have hsumA : ∑ v ∈ Finset.range n,
        (if (v, source) ∈ chainPairs cs then pf else 0) = pf :=
      sum_ite_mem_unique (fun v => (v, source) ∈ chainPairs cs) uB
        (hmem_lt (uB, source) hB).1 hB
        (fun v hv => chainPairs_snd_unique cs hnd source v uB hv hB)
    have hsumB : ∑ v ∈ Finset.range n,
        (if (source, v) ∈ chainPairs cs then pf else 0) = 0 :=
      sum_ite_mem_none (fun v => (source, v) ∈ chainPairs cs)
        (fun v hv => chainPairs_fst_not_last cs hnd source v hv hlast)
    rw [hsumA, hsumB]
    ring

theorem ekLoop_succ_exit (adj : ℕ → List ℕ) (source sink n fuel : ℕ)
    (cap : ℕ → ℕ → ℚ) (par : ℕ → ℤ) (acc : ℚ) (par' : ℕ → ℤ)
    (hbfs : bfs cap adj source sink par (n + 1) = some (par', false)) :
    ekLoop adj source sink n (fuel + 1) cap par acc = some acc := by
  rw [ekLoop, hbfs]
  rfl

theorem ekLoop_succ_found (adj : ℕ → List ℕ) (source sink n fuel : ℕ)
    (cap : ℕ → ℕ → ℚ) (par : ℕ → ℤ) (acc : ℚ) (par' : ℕ → ℤ)
    (cs : List ℕ) (pf : ℚ)
    (hbfs : bfs cap adj source sink par (n + 1) = some (par', true))
    (hchain : parChain par' source (n + 1) sink = some cs)
    (hmin : pairsMin cap (chainPairs cs) = some pf) :
    ekLoop adj source sink n (fuel + 1) cap par acc
      = ekLoop adj source sink n fuel (applyAug cap pf (chainPairs cs))
          par' (acc + pf) := by
  rw [ekLoop, hbfs]
  dsimp only
  rw [hchain]
  dsimp only
  rw [hmin]
  rfl

/-- The augmentation loop of `edmondsKarp`: with enough fuel it returns a
value that is simultaneously the capacity of some s-t cut and the value of
some feasible flow. -/
theorem ekLoop_spec (nodes : List Node) (edges : List Edge)
    {D : ℕ} {c0 : ℕ → ℕ → ℚ} {adj : ℕ → List ℕ} {source sink : ℕ}
    (hg : EkGraph nodes.length edges c0 adj) (hD : 0 < D)
    (hsn : source < nodes.length) (hss : ¬ sink = source) :
    ∀ (fuel : ℕ) (cap : ℕ → ℕ → ℚ) (par : ℕ → ℤ) (acc : ℚ),
      EkInv nodes.length D c0 cap adj source sink acc →
      (cutCap nodes.length c0 {source} - acc) * D < (fuel : ℚ) →
      ∃ v, ekLoop adj source sink nodes.length fuel cap par acc = some v
        ∧ (∃ S : Finset ℕ, S ⊆ Finset.range nodes.length ∧ source ∈ S
            ∧ sink ∉ S ∧ v = cutCap nodes.length c0 S)
        ∧ (∃ f, IsFlow nodes.length c0 source sink f
            ∧ flowValue nodes.length source f = v) := by
  have hsinknotS : sink ∉ ({source} : Finset ℕ) := by
    intro h
    exact hss (Finset.mem_singleton.mp h)
  have hsubS : ({source} : Finset ℕ) ⊆ Finset.range nodes.length := by
    intro x hx
    rw [Finset.mem_singleton.mp hx]
    exact Finset.mem_range.mpr hsn
  intro fuel
  induction fuel with
  | zero =>
    intro cap par acc hInv harith
    exfalso
    obtain ⟨hflow, hval⟩ := ekInv_isFlow hInv
    have hle : acc ≤ cutCap nodes.length c0 {source} := by
      rw [← hval]
      exact flow_value_le_cut hflow {source} hsubS
        (Finset.mem_singleton.mpr rfl) hsinknotS
    have hD0 : (0 : ℚ) ≤ (D : ℚ) := by positivity
    have : (0 : ℚ) ≤ (cutCap nodes.length c0 {source} - acc) * D :=
      mul_nonneg (by linarith) hD0
    simp only [Nat.cast_zero] at harith
    linarith
  | succ fuel ih =>
    intro cap par acc hInv harith
    obtain ⟨pb, hbfs, hcase⟩ := bfs_spec cap adj source sink nodes.length
      par hg.adjLt hsn hss
    rcases pb with ⟨par', found⟩
    rcases hcase with ⟨hf, vl', hsrcm, hsinknot, hvlt, hclosed⟩ |
      ⟨ht, vl', hnd', hvlt, hsrcm, hsinkm, hch⟩
    · -- no augmenting path: the loop exits with the current value
      have hfound : found = false := hf
      subst hfound
      refine ⟨acc, ekLoop_succ_exit _ _ _ _ _ _ _ _ _ hbfs, ?_, ?_⟩
      · obtain ⟨S, h1, h2, h3, h4⟩ := ekInv_exit hInv hsn vl' hsrcm
          hsinknot hclosed
        exact ⟨S, h1, h2, h3, h4⟩
      · obtain ⟨hflow, hval⟩ := ekInv_isFlow hInv
        exact ⟨_, hflow, hval⟩
    · -- augmenting path found
      have hfound : found = true := ht
      subst hfound
      have hvln : vl'.length ≤ nodes.length := bfs_nodup_length_le hnd' hvlt
      have hidxlt : vl'.indexOf sink < nodes.length + 1 := by
        have := List.indexOf_lt_length.mpr hsinkm
        omega
      obtain ⟨cs, hpcres, hcshead, hcslast, hcsnd, hcsmem, hcspairs⟩ :=
        parChain_spec cap adj source par' vl' hch (nodes.length + 1) sink
          hsinkm hidxlt
      have hcs2 : ∃ a b t, cs = a :: b :: t := by
        rcases cs with _ | ⟨a, t⟩
        · cases hcshead
        · rcases t with _ | ⟨b, t2⟩
          · exfalso
            have h1 : a = sink := Option.some.inj hcshead
            have h2 : a = source := Option.some.inj hcslast
            refine hss ?_
            rw [← h1, h2]
          · exact ⟨a, b, t2, rfl⟩
      have hpne : ¬ chainPairs cs = [] := by
        obtain ⟨a, b, t, heq⟩ := hcs2
        rw [heq, chainPairs_cons]
        exact List.cons_ne_nil _ _
      obtain ⟨pf, hpf⟩ := pairsMin_some cap (chainPairs cs) hpne
      obtain ⟨hpfpos, hpfgran, hInv'⟩ := ekInv_augment hInv hg.adjSym
        hcshead hcslast hcsnd (fun x hx => hvlt x (hcsmem x hx).1)
        (fun p hp => (hcspairs p hp).2.1)
        (fun p hp => (hcspairs p hp).2.2.1) hss hpf
      have hone : (1 : ℚ) ≤ pf * D := Gran_one_le hpfgran hpfpos hD
      have harith' : (cutCap nodes.length c0 {source} - (acc + pf)) * D
          < (fuel : ℚ) := by
        push_cast at harith
        have hexp : (cutCap nodes.length c0 {source} - (acc + pf)) * D
            = (cutCap nodes.length c0 {source} - acc) * D - pf * D := by
          ring
        rw [hexp]
        linarith
      obtain ⟨v, hres, hSex, hfex⟩ := ih (applyAug cap pf (chainPairs cs))
        par' (acc + pf) hInv' harith'
      refine ⟨v, ?_, hSex, hfex⟩
      rw [ekLoop_succ_found _ _ _ _ _ _ _ _ _ cs pf hbfs hpcres hpf]
      exact hres

/-- C2 (corrected): for every well-formed graph with non-negative edge
capacities and distinct existing source and sink, `edmondsKarp` returns a
value that equals the capacity of a minimum s-t cut of the network it
builds (each undirected edge's capacity usable independently in both
directions, later duplicate edges overwriting earlier ones), and that
value is the maximum flow: some feasible flow attains it and no feasible
flow exceeds it.  (Without the non-negativity restriction the claim fails:
on a two-node graph with a single edge of negative capacity `C` the
function returns `0`, not `C`; see the counterexample.) -/
theorem edmondsKarp_maxflow_mincut (nodes : List Node) (edges : List Edge)
    (sourceId sinkId : String) (hwf : GraphWF nodes edges)
    (hcap : ∀ e ∈ edges, 0 ≤ e.capacity)
    (hs : sourceId ∈ nodes.map Node.id) (ht : sinkId ∈ nodes.map Node.id)
    (hst : ¬ sourceId = sinkId) :
    ∃ (v : ℚ) (source sink : ℕ) (c0 : ℕ → ℕ → ℚ) (adj : ℕ → List ℕ),
      edmondsKarp nodes edges sourceId sinkId = some v
      ∧ ekIdx nodes sourceId = some source
      ∧ ekIdx nodes sinkId = some sink
      ∧ ekBuild nodes edges = some (c0, adj)
      ∧ (∃ S : Finset ℕ, S ⊆ Finset.range nodes.length ∧ source ∈ S
          ∧ sink ∉ S ∧ v = cutCap nodes.length c0 S)
      ∧ (∀ S : Finset ℕ, S ⊆ Finset.range nodes.length → source ∈ S →
          sink ∉ S → v ≤ cutCap nodes.length c0 S)
      ∧ (∃ f, IsFlow nodes.length c0 source sink f
          ∧ flowValue nodes.length source f = v)
      ∧ (∀ f, IsFlow nodes.length c0 source sink f →
          flowValue nodes.length source f ≤ v) := by
  obtain ⟨source, hsrceq⟩ := ekIdx_exists hs
  obtain ⟨sink, hsinkeq⟩ := ekIdx_exists ht
  obtain ⟨c0, adj, hbuild, hg⟩ := ekBuild_some nodes edges
    (fun e he => ⟨(hwf.2 e he).1, (hwf.2 e he).2.1⟩)
  have hsn : source < nodes.length := ekIdx_lt hsrceq
  have hssidx : ¬ sink = source := by
    intro h
    rw [h] at hsinkeq
    exact hst (ekIdx_inj hsrceq hsinkeq)
  have hDpos : 0 < (edges.map (fun e => e.capacity.den)).prod := by
    refine List.prod_pos ?_
    intro a ha
    obtain ⟨e, _, hae⟩ := List.mem_map.mp ha
    rw [← hae]
    exact e.capacity.pos
  have hInv0 : EkInv nodes.length
      ((edges.map (fun e => e.capacity.den)).prod) c0 c0 adj source sink
      0 := by
    constructor
    · intro u v
      rfl
    · intro u v
      rcases hg.entry u v with h | ⟨e, he, hev⟩
      · rw [h]
      · rw [hev]
        exact hcap e he
    · intro u v h
      exact hg.adjPos u v h
    · intro u v _
      rfl
    · intro u v
      rcases hg.entry u v with h | ⟨e, he, hev⟩
      · rw [h]
        exact Gran_zero _
      · rw [hev]
        exact Gran_dvd (List.dvd_prod (List.mem_map_of_mem _ he))
    · intro v hv hvs hvt
      simp
    · simp
  have hfuel : (cutCap nodes.length c0 {source} - 0)
      * (((edges.map (fun e => e.capacity.den)).prod : ℕ) : ℚ)
      < ((ekFuel nodes edges : ℕ) : ℚ) := by
    have hN0 : (0 : ℚ)
        ≤ (((edges.map (fun e => e.capacity.num.natAbs)).sum : ℕ) : ℚ) := by
      exact_mod_cast Nat.zero_le _
    have hcutle : cutCap nodes.length c0 {source}
        ≤ (nodes.length : ℚ)
          * (((edges.map (fun e => e.capacity.num.natAbs)).sum : ℕ) : ℚ) :=
      cutCap_singleton_le (c0_le_capN hg) hN0
    have hD0 : (0 : ℚ)
        ≤ (((edges.map (fun e => e.capacity.den)).prod : ℕ) : ℚ) := by
      exact_mod_cast Nat.zero_le _
    have h1 : cutCap nodes.length c0 {source}
        * (((edges.map (fun e => e.capacity.den)).prod : ℕ) : ℚ)
        ≤ (nodes.length : ℚ)
          * (((edges.map (fun e => e.capacity.num.natAbs)).sum : ℕ) : ℚ)
          * (((edges.map (fun e => e.capacity.den)).prod : ℕ) : ℚ) :=
      mul_le_mul_of_nonneg_right hcutle hD0
    have h2 : ((ekFuel nodes edges : ℕ) : ℚ)
        = (nodes.length : ℚ)
          * (((edges.map (fun e => e.capacity.num.natAbs)).sum : ℕ) : ℚ)
          * (((edges.map (fun e => e.capacity.den)).prod : ℕ) : ℚ) + 1 := by
      unfold ekFuel
      push_cast
      ring
    rw [sub_zero, h2]
    linarith
  obtain ⟨v, hres, hS, hf⟩ := ekLoop_spec nodes edges hg hDpos hsn hssidx
    (ekFuel nodes edges) c0 (fun _ => 0) 0 hInv0 hfuel
  have hek : edmondsKarp nodes edges sourceId sinkId
      = ekLoop adj source sink nodes.length (ekFuel nodes edges) c0
          (fun _ => 0) 0 := by
    unfold edmondsKarp
    rw [hsrceq, hsinkeq]
    dsimp only
    rw [hbuild]
  refine ⟨v, source, sink, c0, adj, ?_, hsrceq, hsinkeq, hbuild, hS,
    ?_, hf, ?_⟩
  · rw [hek]
    exact hres
  · intro S' hsub hsrcS hsinkS
    obtain ⟨f0, hf0, hval0⟩ := hf
    rw [← hval0]
    exact flow_value_le_cut hf0 S' hsub hsrcS hsinkS
  · intro f' hf'
    obtain ⟨S, hsub, hsrcS, hsinkS, hvS⟩ := hS
    rw [hvS]
    exact flow_value_le_cut hf' S hsub hsrcS hsinkS

unseal Nat.gcd Rat.add in
/-- C2 counterexample: on the two-node graph with its single edge `D–S`
of capacity `-1` (both endpoints existing and distinct), `edmondsKarp`
returns `0` — the BFS never crosses an edge of non-positive residual
capacity — so the claimed identity `result = C` for a two-node
single-edge graph of capacity `C` fails. -/
theorem edmondsKarp_neg_cex :
    edmondsKarp mfNodes mfEdgesNeg "D" "S" = some 0
    ∧ mfEdgesNeg.map Edge.capacity = [-1]
    ∧ ¬ ((0 : ℚ) = -1) :=
  ⟨rfl, rfl, by norm_num⟩

unseal Nat.gcd Rat.add Rat.sub in
theorem edmondsKarp_maxflow_mincut_witness :
    edmondsKarp mfNodes mfEdges8 "D" "S" = some 8
    ∧ (∃ (v : ℚ) (source sink : ℕ) (c0 : ℕ → ℕ → ℚ)
        (adj : ℕ → List ℕ),
        edmondsKarp mfNodes mfEdges8 "D" "S" = some v
        ∧ ekIdx mfNodes "D" = some source
        ∧ ekIdx mfNodes "S" = some sink
        ∧ ekBuild mfNodes mfEdges8 = some (c0, adj)
        ∧ (∃ S : Finset ℕ, S ⊆ Finset.range mfNodes.length ∧ source ∈ S
            ∧ sink ∉ S ∧ v = cutCap mfNodes.length c0 S)
        ∧ (∀ S : Finset ℕ, S ⊆ Finset.range mfNodes.length → source ∈ S →
            sink ∉ S → v ≤ cutCap mfNodes.length c0 S)
        ∧ (∃ f, IsFlow mfNodes.length c0 source sink f
            ∧ flowValue mfNodes.length source f = v)
        ∧ (∀ f, IsFlow mfNodes.length c0 source sink f →
            flowValue mfNodes.length source f ≤ v)) :=
  ⟨rfl, edmondsKarp_maxflow_mincut mfNodes mfEdges8 "D" "S"
    (by unfold GraphWF; decide) (by decide) (by decide) (by decide)
    (by decide)⟩

theorem dijkstra_shortest_correct_witness :
    (EReach lineEdges "D" "M" →
      ∃ (p : List String) (d : ℚ),
        dijkstra lineNodes lineEdges "D" "M" = some (some (p, (d : Dist)))
        ∧ EWalk lineEdges "D" "M" d
        ∧ ∀ d', EWalk lineEdges "D" "M" d' → d ≤ d')
    ∧ (¬ EReach lineEdges "D" "M" →
        dijkstra lineNodes lineEdges "D" "M" = some none) :=
  dijkstra_shortest_correct lineNodes lineEdges "D" "M"
    (by unfold GraphWF; decide) (by decide) (by decide) (by decide)

end DAA
